import Mathlib

/-!
# keyana: the keyword extractor and the indexed scan engine

A shallow embedding of `internal/scan/optimizer.go` and `internal/scan/engine.go`
(with the helpers of `internal/scan/secrets.go` they call), and theorems about them.

Go values are embedded as follows.
* A rune is a `Char`; `string(re.Rune)` is the Lean `String` made of those runes, and
  `len` of such a string is its number of UTF-8 bytes (`goLen`).
* A byte slice, and a Go string holding arbitrary bytes (file content, a matched value),
  is a `List Nat` of byte values.
* A Go `map` is an association list with unique keys (`goMapSet` keeps them unique).
* `int` is `Int`; `float64` entropies are rationals.
-/

namespace Keyana

/-! ## The syntax tree of `regexp/syntax` -/

/-- The parsed regular expression `syntax.Regexp`: one constructor per `syntax.Op`, carrying
the fields the operator uses (`Rune`, the `FoldCase` bit of `Flags`, `Sub`, `Cap`, `Min`, `Max`).
`Max = -1` in a repetition means "no upper bound", as in Go. -/
inductive Regexp where
  | noMatch : Regexp
  | emptyMatch : Regexp
  | literal (rune : List Char) (foldCase : Bool) : Regexp
  | charClass (ranges : List (Char × Char)) : Regexp
  | anyCharNotNL : Regexp
  | anyChar : Regexp
  | beginLine : Regexp
  | endLine : Regexp
  | beginText : Regexp
  | endText : Regexp
  | wordBoundary : Regexp
  | noWordBoundary : Regexp
  | capture (cap : Nat) (sub : Regexp) : Regexp
  | star (sub : Regexp) : Regexp
  | plus (sub : Regexp) : Regexp
  | quest (sub : Regexp) : Regexp
  | repeat (min : Int) (max : Int) (sub : Regexp) : Regexp
  | concat (subs : List Regexp) : Regexp
  | alternate (subs : List Regexp) : Regexp

/-- UTF-8 encoding of one rune, as byte values. -/
def encodeRune (c : Char) : List Nat :=
  let n := c.toNat
  if n < 0x80 then [n]
  else if n < 0x800 then [0xC0 + n / 0x40, 0x80 + n % 0x40]
  else if n < 0x10000 then [0xE0 + n / 0x1000, 0x80 + (n / 0x40) % 0x40, 0x80 + n % 0x40]
  else [0xF0 + n / 0x40000, 0x80 + (n / 0x1000) % 0x40, 0x80 + (n / 0x40) % 0x40, 0x80 + n % 0x40]

/-- The bytes of a Go string given by its runes. -/
def goBytes (s : String) : List Nat :=
  s.data.flatMap encodeRune

/-- Go `len(s)` for a string given by its runes: the number of bytes. -/
def goLen (s : String) : Nat :=
  (goBytes s).length

/-! ## `optimizer.go` -/

mutual
/-- `findBestLiteral` of `optimizer.go`. -/
def findBestLiteral : Regexp → String
  | .literal rune _ => String.mk rune
  | .concat subs => findBestLiteralConcat subs ""
  | .capture _ sub => findBestLiteral sub
  | .plus sub => findBestLiteral sub
  | .repeat min _ sub => if min > 0 then findBestLiteral sub else ""
  | _ => ""
/-- The loop of the `OpConcat` case: `best` is replaced by a candidate only when the candidate
is strictly longer. -/
def findBestLiteralConcat : List Regexp → String → String
  | [], best => best
  | sub :: rest, best =>
    let candidate := findBestLiteral sub
    findBestLiteralConcat rest (if goLen candidate > goLen best then candidate else best)
end

/-- `unicode.ToLower` as far as a comparison with ASCII words can tell: `A`..`Z` go to `a`..`z`,
and the only two runes outside ASCII whose lower case is an ASCII letter are mapped to it
(U+0130 to `i`, U+212A KELVIN SIGN to `k`). Every other rune outside ASCII has a lower case
outside ASCII and is left as it is. -/
def toLowerRune (c : Char) : Char :=
  if 'A' ≤ c ∧ c ≤ 'Z' then Char.ofNat (c.toNat + 32)
  else if c.toNat = 0x130 then 'i'
  else if c.toNat = 0x212A then 'k'
  else c

/-- `strings.ToLower`, rune by rune. -/
def ToLower (s : String) : String :=
  String.mk (s.data.map toLowerRune)

/-- The map literal `common` of `IsValidKeyword`, entry by entry. -/
def common : List (String × Bool) :=
  [("http", true), ("https", true), ("application", true), ("password", true),
   ("username", true), ("token", true), ("key", true), ("auth", true),
   ("bearer", true), ("private", true), ("public", true), ("secret", true),
   ("access", true), ("stripe", false), ("slack", false), ("github", false)]

/-- Reading a `map[string]bool`: a missing key reads as `false`. -/
def commonGet (k : String) : Bool :=
  (common.lookup k).getD false

/-- The loop of `isRepetitive`: every remaining byte equals `first`. -/
def isRepetitiveLoop (first : Nat) : List Nat → Bool
  | [] => true
  | b :: rest => if b ≠ first then false else isRepetitiveLoop first rest

/-- `isRepetitive` of `optimizer.go`, on the bytes of the string. -/
def isRepetitive (s : List Nat) : Bool :=
  match s with
  | [] => false
  | first :: rest => isRepetitiveLoop first rest

/-- `IsValidKeyword` of `optimizer.go`. -/
def IsValidKeyword (kw : String) : Bool :=
  if goLen kw < 4 then false
  else if commonGet (ToLower kw) then false
  else if isRepetitive (goBytes kw) then false
  else true

/-- `ExtractKeyword` of `optimizer.go`. The parser `syntax.Parse(·, syntax.Perl)` belongs to the Go
standard library and is a parameter: `none` is a parse error. -/
def ExtractKeyword (parse : String → Option Regexp) (regexStr : String) : String :=
  match parse regexStr with
  | none => ""
  | some re => findBestLiteral re

/-! ## A model of `syntax.Parse(·, syntax.Perl)` on a fragment of the syntax

The parser of the Go standard library is a stack machine: every item is pushed with `push`,
which first merges the two literals on top of the stack (`maybeConcat`), and `concat` collapses
the items above the innermost open parenthesis. The model below follows that machine step by
step on the sources made of literal runes, `.`, `^`, `$`, capturing groups, `(?:`, `(?i)`, `(?i:`
and the operators `*`, `+`, `?`. Every other construct (`|`, `[`, `{`, `\`, other flag groups,
a non-greedy operator, a source of 1000 bytes or more, a non-ASCII rune under `(?i)`) is outside
the fragment and answered `unsupported`, which the library itself never answers. -/

/-- What the model of the parser answers. -/
inductive ParseResult where
  | ok (re : Regexp) : ParseResult
  | error : ParseResult
  | unsupported : ParseResult

/-- An item of the parser's stack: a regular expression, or the pseudo-operator `opLeftParen`
with its capture number (`0` for a group that does not capture) and the `FoldCase` flag to
restore at the closing parenthesis. -/
inductive StackItem where
  | re (r : Regexp) : StackItem
  | leftParen (cap : Nat) (savedFold : Bool) : StackItem

/-- The parser's state: the stack (top first), the `FoldCase` bit of `p.flags`, `p.numCap`. -/
structure ParserState where
  stack : List StackItem
  foldCase : Bool
  numCap : Nat

/-- `maybeConcat(-1, 0)`: when the two items on top are literals with the same `FoldCase` bit,
the top one is appended to the one below it. -/
def maybeConcat : List StackItem → List StackItem
  | .re (.literal r1 f1) :: .re (.literal r2 f2) :: rest =>
    if f1 = f2 then .re (.literal (r2 ++ r1) f2) :: rest
    else .re (.literal r1 f1) :: .re (.literal r2 f2) :: rest
  | st => st

/-- `push` for an item that is not a character class. -/
def push (st : List StackItem) (item : StackItem) : List StackItem :=
  item :: maybeConcat st

/-- `minFoldRune` on ASCII: the least rune of the case-folding orbit, which for a letter is
its upper case and for any other ASCII rune the rune itself. -/
def minFoldRune (c : Char) : Char :=
  if 'a' ≤ c ∧ c ≤ 'z' then Char.ofNat (c.toNat - 32) else c

/-- The regular expressions above the innermost pseudo-operator, bottom first, and the rest
of the stack. -/
def splitStack : List StackItem → List Regexp → List Regexp × List StackItem
  | .re r :: rest, acc => splitStack rest (r :: acc)
  | st, acc => (acc, st)

/-- The sub-expressions of `collapse(subs, OpConcat)`: a sub-expression that is itself a
concatenation is replaced by its own sub-expressions. -/
def flattenConcat : List Regexp → List Regexp
  | [] => []
  | .concat inner :: rest => inner ++ flattenConcat rest
  | r :: rest => r :: flattenConcat rest

/-- `collapse(subs, OpConcat)`. -/
def collapseConcat (subs : List Regexp) : Regexp :=
  match subs with
  | [r] => r
  | _ => .concat (flattenConcat subs)

/-- `concat`: merge the top literals, collapse what stands above the innermost pseudo-operator
into one concatenation (`OpEmptyMatch` when nothing stands there) and push it. -/
def concatStack (st : List StackItem) : List StackItem :=
  match splitStack (maybeConcat st) [] with
  | ([], rest) => push rest (.re .emptyMatch)
  | (subs, rest) => push rest (.re (collapseConcat subs))

/-- `parseRightParen` (without `|`, `alternate` leaves the single item `concat` pushed):
the group's content replaces the pseudo-operator, wrapped in a capture when the group
captures, and the flags of the opening parenthesis are restored. -/
def parseRightParen (p : ParserState) : Option ParserState :=
  match concatStack p.stack with
  | .re re1 :: .leftParen cap savedFold :: rest =>
    if cap = 0 then some { p with stack := push rest (.re re1), foldCase := savedFold }
    else some { p with stack := push rest (.re (.capture cap re1)), foldCase := savedFold }
  | _ => none

/-- `repeat` for `*`, `+`, `?`: the operator replaces the top of the stack, which has to be a
regular expression. -/
def repeatOp (op : Regexp → Regexp) (st : List StackItem) : Option (List StackItem) :=
  match st with
  | .re sub :: rest => some (.re (op sub) :: rest)
  | _ => none

/-- The main loop of `parse`; `lastRepeat` tells whether the previous item was a repetition
operator, which Perl syntax does not allow to be followed by another one. -/
def parseLoop : List Char → ParserState → Bool → ParseResult
  | [], p, _ =>
    match concatStack p.stack with
    | [.re r] => .ok r
    | _ => .error
  | '(' :: '?' :: ':' :: t, p, _ =>
    parseLoop t { p with stack := push p.stack (.leftParen 0 p.foldCase) } false
  | '(' :: '?' :: 'i' :: ')' :: t, p, _ =>
    parseLoop t { p with foldCase := true } false
  | '(' :: '?' :: 'i' :: ':' :: t, p, _ =>
    parseLoop t { p with stack := push p.stack (.leftParen 0 p.foldCase), foldCase := true } false
  | '(' :: '?' :: _, _, _ => .unsupported
  | '(' :: t, p, _ =>
    parseLoop t { p with stack := push p.stack (.leftParen (p.numCap + 1) p.foldCase),
                         numCap := p.numCap + 1 } false
  | ')' :: t, p, _ =>
    match parseRightParen p with
    | some q => parseLoop t q false
    | none => .error
  | '^' :: t, p, _ => parseLoop t { p with stack := push p.stack (.re .beginText) } false
  | '$' :: t, p, _ => parseLoop t { p with stack := push p.stack (.re .endText) } false
  | '.' :: t, p, _ => parseLoop t { p with stack := push p.stack (.re .anyCharNotNL) } false
  | '*' :: '?' :: _, _, _ => .unsupported
  | '+' :: '?' :: _, _, _ => .unsupported
  | '?' :: '?' :: _, _, _ => .unsupported
  | '*' :: t, p, lastRepeat =>
    if lastRepeat then .error else
    match repeatOp .star p.stack with
    | some st => parseLoop t { p with stack := st } true
    | none => .error
  | '+' :: t, p, lastRepeat =>
    if lastRepeat then .error else
    match repeatOp .plus p.stack with
    | some st => parseLoop t { p with stack := st } true
    | none => .error
  | '?' :: t, p, lastRepeat =>
    if lastRepeat then .error else
    match repeatOp .quest p.stack with
    | some st => parseLoop t { p with stack := st } true
    | none => .error
  | '|' :: _, _, _ => .unsupported
  | '[' :: _, _, _ => .unsupported
  | '{' :: _, _, _ => .unsupported
  | '\\' :: _, _, _ => .unsupported
  | c :: t, p, _ =>
    if p.foldCase then
      if c.toNat < 0x80 then
        parseLoop t { p with stack := push p.stack (.re (.literal [minFoldRune c] true)) } false
      else .unsupported
    else parseLoop t { p with stack := push p.stack (.re (.literal [c] false)) } false

/-- The model of `syntax.Parse(s, syntax.Perl)` on the fragment. -/
def parseFragment (s : String) : ParseResult :=
  if goLen s < 1000 then parseLoop s.data { stack := [], foldCase := false, numCap := 0 } false
  else .unsupported

/-- The parser handed to `ExtractKeyword`: `none` is a parse error. A source outside the
fragment is answered `none` too, so only sources inside the fragment are to be read off it. -/
def syntaxParse (s : String) : Option Regexp :=
  match parseFragment s with
  | .ok re => some re
  | _ => none

/-- Whether the model of the parser covers the source. -/
def inFragment (s : String) : Bool :=
  match parseFragment s with
  | .unsupported => false
  | _ => true

/-! ## Texts matched by a syntax tree -/

/-- Whether the rune `c` of a text is accepted for the rune `r` of a literal: the same rune, or,
under `FoldCase`, a rune of the same case-folding orbit (told here by the least rune of the
orbit, on ASCII). -/
def runeMatches (foldCase : Bool) (r c : Char) : Bool :=
  c == r || (foldCase && minFoldRune c == minFoldRune r)

mutual
/-- The texts a syntax tree matches as a whole, as `regexp` documents them. Anchors and word
boundaries read the surroundings of the match, which this relation does not carry: they have
no rule here. -/
inductive Matches : Regexp → List Char → Prop
  | emptyMatch : Matches .emptyMatch []
  | literal (rune text : List Char) (foldCase : Bool) :
      List.Forall₂ (fun r c => runeMatches foldCase r c = true) rune text →
      Matches (.literal rune foldCase) text
  | anyChar (c : Char) : Matches .anyChar [c]
  | anyCharNotNL (c : Char) : c ≠ '\n' → Matches .anyCharNotNL [c]
  | charClass (ranges : List (Char × Char)) (c : Char) :
      (∃ r ∈ ranges, r.1 ≤ c ∧ c ≤ r.2) → Matches (.charClass ranges) [c]
  | capture (cap : Nat) (sub : Regexp) (t : List Char) :
      Matches sub t → Matches (.capture cap sub) t
  | star (sub : Regexp) (n : Nat) (t : List Char) :
      MatchesTimes sub n t → Matches (.star sub) t
  | plus (sub : Regexp) (n : Nat) (t : List Char) :
      MatchesTimes sub (n + 1) t → Matches (.plus sub) t
  | questNone (sub : Regexp) : Matches (.quest sub) []
  | questOne (sub : Regexp) (t : List Char) : Matches sub t → Matches (.quest sub) t
  | repeat (min max : Int) (sub : Regexp) (n : Nat) (t : List Char) :
      min ≤ n → (max = -1 ∨ (n : Int) ≤ max) → MatchesTimes sub n t →
      Matches (.repeat min max sub) t
  | concat (subs : List Regexp) (t : List Char) :
      MatchesSeq subs t → Matches (.concat subs) t
  | alternate (subs : List Regexp) (sub : Regexp) (t : List Char) :
      sub ∈ subs → Matches sub t → Matches (.alternate subs) t
/-- The text is `n` matches of the tree in a row. -/
inductive MatchesTimes : Regexp → Nat → List Char → Prop
  | zero (sub : Regexp) : MatchesTimes sub 0 []
  | succ (sub : Regexp) (n : Nat) (t1 t2 : List Char) :
      Matches sub t1 → MatchesTimes sub n t2 → MatchesTimes sub (n + 1) (t1 ++ t2)
/-- The text is a match of each tree of the list, in a row. -/
inductive MatchesSeq : List Regexp → List Char → Prop
  | nil : MatchesSeq [] []
  | cons (sub : Regexp) (rest : List Regexp) (t1 t2 : List Char) :
      Matches sub t1 → MatchesSeq rest t2 → MatchesSeq (sub :: rest) (t1 ++ t2)
end

/-! ## Byte strings and Go maps -/

/-- A Go `[]byte`, or a Go `string` holding arbitrary bytes. -/
abbrev Bytes := List Nat

/-- Whether `sub` stands at the start of `s`. -/
def hasPrefix : Bytes → Bytes → Bool
  | _, [] => true
  | [], _ :: _ => false
  | a :: s, b :: sub => if a = b then hasPrefix s sub else false

/-- `bytes.Index(s, sub)` counted from `pos`: the first offset at which `sub` occurs, `-1` when
it occurs nowhere. -/
def bytesIndexFrom (sub : Bytes) : Bytes → Int → Int
  | [], pos => if sub = [] then pos else -1
  | a :: s, pos => if hasPrefix (a :: s) sub then pos else bytesIndexFrom sub s (pos + 1)

/-- `bytes.Index(s, sub)`. -/
def bytesIndex (s sub : Bytes) : Int :=
  bytesIndexFrom sub s 0

/-- `bytes.Contains(s, sub)`, which is `bytes.Index(s, sub) != -1`. -/
def bytesContains (s sub : Bytes) : Bool :=
  bytesIndex s sub != -1

/-- The slice `content[start:stop]`. -/
def slice (content : Bytes) (start stop : Nat) : Bytes :=
  (content.drop start).take (stop - start)

/-- Reading a Go map: `m[k]` with the `ok` flag as an `Option`. -/
def goMapGet {κ ν : Type} [DecidableEq κ] : List (κ × ν) → κ → Option ν
  | [], _ => none
  | (k', v) :: rest, k => if k' = k then some v else goMapGet rest k

/-- Writing a Go map: `m[k] = v` replaces the entry of `k` or adds one. -/
def goMapSet {κ ν : Type} [DecidableEq κ] : List (κ × ν) → κ → ν → List (κ × ν)
  | [], k, v => [(k, v)]
  | (k', v') :: rest, k, v =>
    if k' = k then (k, v) :: rest else (k', v') :: goMapSet rest k v

/-! ## `template_loader.go`, `core/types.go`: the data -/

/-- `CompiledPattern`. The compiled matcher is the function it computes in `runSinglePattern`:
`Regex content` lists the matches `Regex.FindAll(content, -1)` returns, each by its start and
end offset in `content`. The mutex has no content. -/
structure CompiledPattern where
  ID : String
  Name : String
  Regex : Bytes → List (Nat × Nat)
  RegexString : String
  Confidence : Int
  Severity : String
  EntropyCheck : Bool
  MinEntropy : ℚ
  Tags : List String

/-- `core.Secret`. -/
structure Secret where
  type : Bytes
  Value : Bytes
  File : String
  Line : Int
  Detector : String
deriving DecidableEq

/-- `Engine`. The Aho-Corasick matcher is given by the dictionary it was built from. -/
structure Engine where
  Matcher : List String
  KeywordIndexMap : List (Nat × List Nat)
  FallbackPatterns : List Nat
  AllPatterns : List CompiledPattern
  IsReady : Bool

/-! ## `engine.go`: building the engine -/

/-- The variables of the loop of `BuildEngine`. -/
structure BuildState where
  keywords : List String
  keywordToSliceIdx : List (String × Nat)
  KeywordIndexMap : List (Nat × List Nat)
  FallbackPatterns : List Nat

/-- One iteration of the loop of `BuildEngine`, for pattern `p` at index `i`. -/
def buildStep (parse : String → Option Regexp) (st : BuildState) (ip : Nat × CompiledPattern) :
    BuildState :=
  let i := ip.1
  let kw := ExtractKeyword parse ip.2.RegexString
  if IsValidKeyword kw then
    match goMapGet st.keywordToSliceIdx kw with
    | some sliceIdx =>
      { st with KeywordIndexMap := goMapSet st.KeywordIndexMap sliceIdx
                  ((goMapGet st.KeywordIndexMap sliceIdx).getD [] ++ [i]) }
    | none =>
      let sliceIdx := st.keywords.length
      { st with keywords := st.keywords ++ [kw]
                keywordToSliceIdx := goMapSet st.keywordToSliceIdx kw sliceIdx
                KeywordIndexMap := goMapSet st.KeywordIndexMap sliceIdx
                  ((goMapGet st.KeywordIndexMap sliceIdx).getD [] ++ [i]) }
  else
    { st with FallbackPatterns := st.FallbackPatterns ++ [i] }

/-- The state the loop of `BuildEngine` ends in. -/
def buildLoop (parse : String → Option Regexp) (patterns : List CompiledPattern) : BuildState :=
  patterns.enum.foldl (buildStep parse)
    { keywords := [], keywordToSliceIdx := [], KeywordIndexMap := [], FallbackPatterns := [] }

/-- `BuildEngine` of `engine.go`: the value of `GlobalEngine` it leaves. -/
def BuildEngine (parse : String → Option Regexp) (patterns : List CompiledPattern) : Engine :=
  let st := buildLoop parse patterns
  { Matcher := st.keywords
    KeywordIndexMap := st.KeywordIndexMap
    FallbackPatterns := st.FallbackPatterns
    AllPatterns := patterns
    IsReady := true }

/-! ## `secrets.go`: the line index -/

/-- The loop of `getLineFromIndex`, run for at most `fuel` iterations; `lo` and `hi` are its
variables. -/
def lineSearch (positions : List Int) (offset : Int) : Nat → Int → Int → Int
  | 0, lo, _ => lo
  | fuel + 1, lo, hi =>
    if lo < hi then
      let mid := (lo + hi + 1) / 2
      if positions.getD mid.toNat 0 ≤ offset then lineSearch positions offset fuel mid hi
      else lineSearch positions offset fuel lo (mid - 1)
    else lo

/-- `getLineFromIndex` of `secrets.go`. Every iteration shrinks `hi - lo`, which starts below
`len(positions)`, so that many iterations are enough. -/
def getLineFromIndex (positions : List Int) (offset : Int) : Int :=
  if offset < 0 then 1
  else lineSearch positions offset positions.length 0 ((positions.length : Int) - 1) + 1

/-- `getEntropyThreshold` of `secrets.go`. -/
def getEntropyThreshold (length : Int) : ℚ :=
  if length < 20 then 5
  else if length < 32 then 9 / 2
  else if length < 48 then 21 / 5
  else 4

/-! ## What the scan takes from elsewhere

The filters of `secrets.go` and `utils.go` that the scan loops call, and the two package-level
regular expressions: the loops are stated for any such functions. A `float64` entropy is a
rational here. -/

/-- The functions the scan loops call. `genericSecretRe` and `stringLiteralRe` give the result of
`FindAllSubmatchIndex(content, -1)`. -/
structure Env where
  isFalsePositive : Bytes → Bool
  isFalsePositiveVar : Bytes → Bool
  isRepeatingPattern : Bytes → Bool
  CalculateEntropy : Bytes → ℚ
  genericSecretRe : Bytes → List (List Int)
  stringLiteralRe : Bytes → List (List Int)

/-! ## `engine.go`: scanning -/

/-- The loop of `runSinglePattern` over the matches; `seen` holds the keys that `seen[·]`
reads as true. -/
def runMatches (env : Env) (pattern : CompiledPattern) (content : Bytes) (filePath : String)
    (linePositions : List Int) : List (Nat × Nat) → List Secret → List Bytes →
    List Secret × List Bytes
  | [], results, seen => (results, seen)
  | m :: rest, results, seen =>
    let matchStr := slice content m.1 m.2
    if matchStr ∈ seen then
      runMatches env pattern content filePath linePositions rest results seen
    else if env.isFalsePositive matchStr then
      runMatches env pattern content filePath linePositions rest results seen
    else if pattern.EntropyCheck ∧ pattern.MinEntropy > 0
        ∧ env.CalculateEntropy matchStr < pattern.MinEntropy then
      runMatches env pattern content filePath linePositions rest results seen
    else
      let idx := bytesIndex content matchStr
      let lineNum := getLineFromIndex linePositions idx
      runMatches env pattern content filePath linePositions rest
        (results ++ [{ type := goBytes pattern.Name
                       Value := matchStr
                       File := filePath
                       Line := lineNum
                       Detector := "Template (" ++ pattern.Severity ++ ")" }])
        (matchStr :: seen)

/-- `runSinglePattern` of `engine.go`: the findings, and the set `seen` as it leaves it. -/
def runSinglePattern (env : Env) (pattern : CompiledPattern) (content : Bytes)
    (filePath : String) (seen : List Bytes) (linePositions : List Int) :
    List Secret × List Bytes :=
  runMatches env pattern content filePath linePositions (pattern.Regex content) [] seen

/-- `Matcher.Match(content)` of the Aho-Corasick library: the indices of the dictionary words
that occur in `content`, each once. -/
def matcherMatch (dict : List String) (content : Bytes) : List Nat :=
  dict.enum.filterMap fun iw => if bytesContains content (goBytes iw.2) then some iw.1 else none

/-- Adding a key to a `map[int]bool` used as a set. -/
def goSetInsert (set : List Nat) (k : Nat) : List Nat :=
  if k ∈ set then set else set ++ [k]

/-- The keys of `patternsToCheck` when step 3 of `ScanContent` is over. -/
def patternsToCheck (e : Engine) (content : Bytes) : List Nat :=
  (matcherMatch e.Matcher content).foldl
    (fun acc matchIdx =>
      match goMapGet e.KeywordIndexMap matchIdx with
      | some patternIndices => patternIndices.foldl goSetInsert acc
      | none => acc)
    []

/-- Running `runSinglePattern` for each index of the list in turn, as both loops of
`ScanContent` do; `none` is the run-time panic of `e.AllPatterns[idx]` out of range. -/
def runPatterns (env : Env) (all : List CompiledPattern) (content : Bytes) (filePath : String)
    (linePositions : List Int) : List Nat → List Secret → List Bytes →
    Option (List Secret × List Bytes)
  | [], found, seen => some (found, seen)
  | idx :: rest, found, seen =>
    match all[idx]? with
    | none => none
    | some pattern =>
      let r := runSinglePattern env pattern content filePath seen linePositions
      runPatterns env all content filePath linePositions rest (found ++ r.1) r.2

/-- `Engine.ScanContent` of `engine.go`: the findings and the set `seen` as it leaves it. Go
does not fix the order in which it ranges over the map `patternsToCheck`: `order` is that
order, a list of the keys of the map. -/
def ScanContent (env : Env) (e : Engine) (content : Bytes) (filePath : String)
    (seen : List Bytes) (linePositions : List Int) (skipGeneric : Bool) (order : List Nat) :
    Option (List Secret × List Bytes) :=
  if !e.IsReady then some ([], seen)
  else
    match (if !skipGeneric then
        runPatterns env e.AllPatterns content filePath linePositions e.FallbackPatterns [] seen
      else some ([], seen)) with
    | none => none
    | some r => runPatterns env e.AllPatterns content filePath linePositions order r.1 r.2

/-! ## `secrets.go`: one file -/

/-- The loop of `buildLineIndex`: `i` is the offset of the next byte. -/
def buildLineIndexLoop : Bytes → Int → List Int → List Int
  | [], _, positions => positions
  | b :: rest, i, positions =>
    if b = 10 then buildLineIndexLoop rest (i + 1) (positions ++ [i + 1])
    else buildLineIndexLoop rest (i + 1) positions

/-- `buildLineIndex` of `secrets.go`. -/
def buildLineIndex (content : Bytes) : List Int :=
  buildLineIndexLoop content 0 [0]

/-- The slice `content[mIdx[a]:mIdx[b]]` of a submatch-index array. -/
def submatch (content : Bytes) (mIdx : List Int) (a b : Nat) : Bytes :=
  slice content (mIdx.getD a 0).toNat (mIdx.getD b 0).toNat

/-- The loop of step 3 of `scanSingleFile`, the key=value heuristic. -/
def genericLoop (env : Env) (content : Bytes) (filePath : String) (linePositions : List Int) :
    List (List Int) → List Secret → List Bytes → List Secret × List Bytes
  | [], found, seen => (found, seen)
  | mIdx :: rest, found, seen =>
    if mIdx.length < 6 then genericLoop env content filePath linePositions rest found seen
    else
      let varName := submatch content mIdx 2 3
      let val := submatch content mIdx 4 5
      if val ∈ seen ∨ val.length < 16 then
        genericLoop env content filePath linePositions rest found seen
      else if env.isFalsePositiveVar varName ∨ env.isFalsePositive val
          ∨ env.isRepeatingPattern val then
        genericLoop env content filePath linePositions rest found seen
      else if env.CalculateEntropy val > getEntropyThreshold val.length then
        genericLoop env content filePath linePositions rest
          (found ++ [{ type := goBytes "Potential Secret: " ++ varName
                       Value := val
                       File := filePath
                       Line := getLineFromIndex linePositions (mIdx.getD 0 0)
                       Detector := "Regex (Entropy)" }])
          (val :: seen)
      else genericLoop env content filePath linePositions rest found seen

/-- The loop of step 4 of `scanSingleFile`, the pure-entropy heuristic. -/
def entropyLoop (env : Env) (content : Bytes) (filePath : String) (linePositions : List Int) :
    List (List Int) → List Secret → List Bytes → List Secret × List Bytes
  | [], found, seen => (found, seen)
  | mIdx :: rest, found, seen =>
    let val := submatch content mIdx 2 3
    if val ∈ seen then entropyLoop env content filePath linePositions rest found seen
    else if env.isFalsePositive val ∨ env.isRepeatingPattern val then
      entropyLoop env content filePath linePositions rest found seen
    else if val.length = 32 ∨ val.length = 40 ∨ val.length = 64 then
      entropyLoop env content filePath linePositions rest found seen
    else if env.CalculateEntropy val > 26 / 5 then
      entropyLoop env content filePath linePositions rest
        (found ++ [{ type := goBytes "High Entropy String"
                     Value := val
                     File := filePath
                     Line := getLineFromIndex linePositions (mIdx.getD 0 0)
                     Detector := "Entropy (Pure)" }])
        (val :: seen)
    else entropyLoop env content filePath linePositions rest found seen

/-- The body of `scanSingleFile` of `secrets.go`, with the set `seenInFile` as it leaves it.
`file` is what `os.ReadFile` returned (`none` for an error), `loaded` is
`templatePatternsLoaded`, `e` is `GlobalEngine`, and `order` the order in which `ScanContent`
ranges over its map. -/
def scanSingleFileState (env : Env) (loaded : Bool) (e : Engine) (skipGeneric : Bool)
    (filePath : String) (file : Option Bytes) (order : List Nat) :
    Option (List Secret × List Bytes) :=
  match file with
  | none => some ([], [])
  | some content =>
    let linePositions := buildLineIndex content
    match (if loaded then
        ScanContent env e content filePath [] linePositions skipGeneric order
      else some ([], [])) with
    | none => none
    | some r =>
      if r.1 ≠ [] then some r
      else
        let g := if !skipGeneric then
            genericLoop env content filePath linePositions (env.genericSecretRe content) r.1 r.2
          else r
        let h := if !skipGeneric then
            entropyLoop env content filePath linePositions (env.stringLiteralRe content) g.1 g.2
          else g
        some h

/-- `SecretScanner.scanSingleFile` of `secrets.go`. -/
def scanSingleFile (env : Env) (loaded : Bool) (e : Engine) (skipGeneric : Bool)
    (filePath : String) (file : Option Bytes) (order : List Nat) : Option (List Secret) :=
  (scanSingleFileState env loaded e skipGeneric filePath file order).map Prod.fst

/-! ## What a scan reports, in words of sets -/

/-- The filters of `runSinglePattern` after the `seen` test: the value is not a false positive
and, when the pattern has an entropy gate with a positive minimum, its entropy is not below
the minimum. -/
def passes (env : Env) (pattern : CompiledPattern) (v : Bytes) : Bool :=
  !env.isFalsePositive v &&
    !(pattern.EntropyCheck && decide (pattern.MinEntropy > 0)
      && decide (env.CalculateEntropy v < pattern.MinEntropy))

/-- The pattern has a match in `content` whose text is `v`, and `v` passes the pattern's
filters. -/
def accepts (env : Env) (pattern : CompiledPattern) (content : Bytes) (v : Bytes) : Prop :=
  ∃ m ∈ pattern.Regex content, slice content m.1 m.2 = v ∧ passes env pattern v = true

/-- The finding `runSinglePattern` builds for the matched text `v`. -/
def templateFinding (pattern : CompiledPattern) (content : Bytes) (filePath : String)
    (linePositions : List Int) (v : Bytes) : Secret :=
  { type := goBytes pattern.Name
    Value := v
    File := filePath
    Line := getLineFromIndex linePositions (bytesIndex content v)
    Detector := "Template (" ++ pattern.Severity ++ ")" }

/-- The findings made since the set `seen` was `seen0` have pairwise distinct values, none of
which was in `seen0`, and `seen` is `seen0` with those values added. -/
def DedupState (seen0 : List Bytes) (found : List Secret) (seen : List Bytes) : Prop :=
  (found.map Secret.Value).Nodup ∧ (∀ v ∈ found.map Secret.Value, v ∉ seen0) ∧
    ∀ v, v ∈ seen ↔ v ∈ seen0 ∨ v ∈ found.map Secret.Value

/-- The pattern indices `ScanContent` evaluates, in order: the fallback list unless
`skipGeneric`, then the keys of `patternsToCheck` in the order the map yields them. -/
def scanOrder (e : Engine) (skipGeneric : Bool) (order : List Nat) : List Nat :=
  (if skipGeneric then [] else e.FallbackPatterns) ++ order

/-! ## The invariant of the loop of `BuildEngine` -/

/-- The keyword `BuildEngine` extracts for a pattern. -/
def kwOf (parse : String → Option Regexp) (p : CompiledPattern) : String :=
  ExtractKeyword parse p.RegexString

/-- What holds of the loop variables of `BuildEngine` when the patterns of index below `m` have
been handled. -/
structure BuildInv (parse : String → Option Regexp) (patterns : List CompiledPattern) (m : Nat)
    (st : BuildState) : Prop where
  nodupKw : st.keywords.Nodup
  idx : ∀ kw j, goMapGet st.keywordToSliceIdx kw = some j ↔ st.keywords[j]? = some kw
  keys : ∀ j, j ∈ st.KeywordIndexMap.map Prod.fst ↔ j < st.keywords.length
  nodupKeys : (st.KeywordIndexMap.map Prod.fst).Nodup
  listed : ∀ j i, i ∈ (goMapGet st.KeywordIndexMap j).getD [] ↔
    i < m ∧ ∃ p, patterns[i]? = some p ∧ IsValidKeyword (kwOf parse p) = true ∧
      st.keywords[j]? = some (kwOf parse p)
  covered : ∀ i p, i < m → patterns[i]? = some p → IsValidKeyword (kwOf parse p) = true →
    kwOf parse p ∈ st.keywords
  count : ∀ i, List.count i st.FallbackPatterns
    + (st.KeywordIndexMap.map fun kv => List.count i kv.2).sum = if i < m then 1 else 0
  fallback : ∀ i, i ∈ st.FallbackPatterns ↔
    i < m ∧ ∃ p, patterns[i]? = some p ∧ IsValidKeyword (kwOf parse p) = false

/-- Every keyword of the list built so far is the valid keyword of a pattern of index below
`m`. -/
def BuildOrigin (parse : String → Option Regexp) (patterns : List CompiledPattern) (m : Nat)
    (st : BuildState) : Prop :=
  ∀ kw ∈ st.keywords, ∃ i p, i < m ∧ patterns[i]? = some p ∧
    IsValidKeyword (kwOf parse p) = true ∧ kwOf parse p = kw

/-! ## Example patterns -/

/-- A pattern with the given name, regex source and matcher, severity `high` and no entropy
gate. -/
def mkPattern (name regex : String) (find : Bytes → List (Nat × Nat)) : CompiledPattern :=
  { ID := name, Name := name, Regex := find, RegexString := regex, Confidence := 75,
    Severity := "high", EntropyCheck := false, MinEntropy := 0, Tags := [] }

/-- Three patterns: two that require the literal `ghp_abc` and one with no required literal. -/
def examplePatterns : List CompiledPattern :=
  [mkPattern "first" "ghp_abc" (fun _ => []), mkPattern "optional" "a?" (fun _ => []),
   mkPattern "second" "ghp_abc.+" (fun _ => [])]

/-- The matches of a regex that is one literal: its occurrences in `content` from left to
right, none overlapping an earlier one, each by its start and end offset. `pos` is the offset
of the next byte and `skip` the number of bytes still covered by the last match. -/
def findLiteralFrom (lit : Bytes) : Bytes → Nat → Nat → List (Nat × Nat)
  | [], _, _ => []
  | a :: s, pos, skip =>
    if skip > 0 then findLiteralFrom lit s (pos + 1) (skip - 1)
    else if hasPrefix (a :: s) lit then
      (pos, pos + lit.length) :: findLiteralFrom lit s (pos + 1) (lit.length - 1)
    else findLiteralFrom lit s (pos + 1) 0

/-- `FindAll(content, -1)` of a regex that is the literal `lit`. -/
def findLiteral (lit : String) (content : Bytes) : List (Nat × Nat) :=
  findLiteralFrom (goBytes lit) content 0 0

/-- Two patterns that match the same texts under different names: the literal `ghp_abc` and
the same literal in a capturing group. -/
def twoPatterns : List CompiledPattern :=
  [mkPattern "first" "ghp_abc" (findLiteral "ghp_abc"),
   mkPattern "second" "(ghp_abc)" (findLiteral "ghp_abc")]

/-- An environment whose filters reject nothing and whose heuristics match nothing. -/
def plainEnv : Env :=
  { isFalsePositive := fun _ => false
    isFalsePositiveVar := fun _ => false
    isRepeatingPattern := fun _ => false
    CalculateEntropy := fun _ => 0
    genericSecretRe := fun _ => []
    stringLiteralRe := fun _ => [] }

/-! ## The stoplist, as a list of words -/

/-- The keys of `common` that map to `true`: thirteen words. -/
def stoplist : List String :=
  ["http", "https", "application", "password", "username", "token", "key", "auth",
   "bearer", "private", "public", "secret", "access"]

/-- The stoplist as the specification words it: twelve words. -/
def specStoplist : List String :=
  ["http", "password", "token", "key", "auth", "bearer", "private", "public", "secret",
   "access", "application", "username"]

/-! ## A pattern with an optional first byte -/

/-- The matches of a regex that is an optional byte followed by a literal, such as `x?k_0`:
from left to right, at each offset the literal with the optional byte in front of it when it
stands there, else the literal alone, none overlapping an earlier match. `pos` is the offset
of the next byte and `skip` the number of bytes still covered by the last match. -/
def findOptionalFrom (opt : Nat) (lit : Bytes) : Bytes → Nat → Nat → List (Nat × Nat)
  | [], _, _ => []
  | a :: s, pos, skip =>
    if skip > 0 then findOptionalFrom opt lit s (pos + 1) (skip - 1)
    else if a = opt ∧ hasPrefix s lit then
      (pos, pos + 1 + lit.length) :: findOptionalFrom opt lit s (pos + 1) lit.length
    else if hasPrefix (a :: s) lit then
      (pos, pos + lit.length) :: findOptionalFrom opt lit s (pos + 1) (lit.length - 1)
    else findOptionalFrom opt lit s (pos + 1) 0

/-- The pattern of regex `x?k_0`, with what `FindAll(content, -1)` returns for it. -/
def optionalPattern : CompiledPattern :=
  mkPattern "optional" "x?k_0" (fun content => findOptionalFrom 120 (goBytes "k_0") content 0 0)

/-! ## The three kinds of finding of `scanSingleFile` -/

/-- A finding of the template layer: the finding that a pattern of index in `idxs` builds for a
text it matches in the content and that passes its filters. -/
def TemplateFinding (env : Env) (all : List CompiledPattern) (content : Bytes)
    (filePath : String) (linePositions : List Int) (idxs : List Nat) (s : Secret) : Prop :=
  ∃ i ∈ idxs, ∃ p, all[i]? = some p ∧ accepts env p content s.Value ∧
    s = templateFinding p content filePath linePositions s.Value

/-- A finding of the key=value heuristic: built from a submatch-index array of `ms` with at
least six entries, with the tests the loop makes before it appends. -/
def KeyValueFinding (env : Env) (content : Bytes) (filePath : String)
    (linePositions : List Int) (ms : List (List Int)) (s : Secret) : Prop :=
  ∃ mIdx ∈ ms, 6 ≤ mIdx.length ∧
    s = { type := goBytes "Potential Secret: " ++ submatch content mIdx 2 3
          Value := submatch content mIdx 4 5
          File := filePath
          Line := getLineFromIndex linePositions (mIdx.getD 0 0)
          Detector := "Regex (Entropy)" } ∧
    16 ≤ (submatch content mIdx 4 5).length ∧
    env.isFalsePositiveVar (submatch content mIdx 2 3) = false ∧
    env.isFalsePositive (submatch content mIdx 4 5) = false ∧
    env.isRepeatingPattern (submatch content mIdx 4 5) = false ∧
    env.CalculateEntropy (submatch content mIdx 4 5)
      > getEntropyThreshold (submatch content mIdx 4 5).length

/-- A finding of the pure-entropy heuristic: built from a submatch-index array of `ms`, with
the tests the loop makes before it appends. -/
def PureEntropyFinding (env : Env) (content : Bytes) (filePath : String)
    (linePositions : List Int) (ms : List (List Int)) (s : Secret) : Prop :=
  ∃ mIdx ∈ ms,
    s = { type := goBytes "High Entropy String"
          Value := submatch content mIdx 2 3
          File := filePath
          Line := getLineFromIndex linePositions (mIdx.getD 0 0)
          Detector := "Entropy (Pure)" } ∧
    (submatch content mIdx 2 3).length ≠ 32 ∧ (submatch content mIdx 2 3).length ≠ 40 ∧
    (submatch content mIdx 2 3).length ≠ 64 ∧
    env.isFalsePositive (submatch content mIdx 2 3) = false ∧
    env.isRepeatingPattern (submatch content mIdx 2 3) = false ∧
    env.CalculateEntropy (submatch content mIdx 2 3) > 26 / 5

/-! ## An example for the key=value heuristic -/

/-- A file with one assignment of a 48-byte value to `api_key`. -/
def keyValueContent : Bytes :=
  goBytes "api_key=\"aK9_mZq2Xw7Lp4Rt6Yv8Bn0CdEfGhIjJkMoOsSuUxVyWz1-3\""

/-- An environment for `keyValueContent`: `genericSecretRe` finds the assignment (the whole
match at offsets 0 to 58, the name at 0 to 7, the value at 9 to 57), and the entropy of the
value, 48 distinct bytes, is log2(48), about 5.585. The filters reject nothing. -/
def keyValueEnv : Env :=
  { plainEnv with
    CalculateEntropy := fun v =>
      if v = goBytes "aK9_mZq2Xw7Lp4Rt6Yv8Bn0CdEfGhIjJkMoOsSuUxVyWz1-3" then mkRat 5585 1000 else 0
    genericSecretRe := fun content =>
      if content = keyValueContent then [[0, 58, 0, 7, 9, 57]] else [] }

/-! ## `secrets.go`: the false-positive filter -/

/-- `strings.ToLower` on a Go string of arbitrary bytes, as far as a search for an ASCII word
can tell. An ASCII byte `A`..`Z` becomes `a`..`z`; the encodings of the two runes outside ASCII
whose lower case is an ASCII letter become that letter (`C4 B0`, U+0130, becomes `i` and
`E2 84 AA`, U+212A, becomes `k`: a lead byte always starts a rune, so these byte sequences are
always decoded as these runes). Every other byte of 0x80 or more is left as it is, where Go
writes the bytes of the lower-case rune or of U+FFFD, all of 0x80 or more as well. -/
def toLowerBytes : Bytes → Bytes
  | [] => []
  | 0xC4 :: 0xB0 :: rest => 105 :: toLowerBytes rest
  | 0xE2 :: 0x84 :: 0xAA :: rest => 107 :: toLowerBytes rest
  | b :: rest => (if 65 ≤ b ∧ b ≤ 90 then b + 32 else b) :: toLowerBytes rest

/-- The words of the quick keyword checks of `isFalsePositive`. -/
def fpSubstrings : List String :=
  ["example", "test", "sample", "placeholder", "dummy", "mock", "localhost", "127.0.0.1"]

/-- `isFalsePositive` of `secrets.go`. `matchesFpPattern val` tells whether some regular
expression of `falsePositivePatterns` matches `val`. -/
def isFalsePositive (matchesFpPattern : Bytes → Bool) (val : Bytes) : Bool :=
  let lowerVal := toLowerBytes val
  if bytesContains lowerVal (goBytes "example") || bytesContains lowerVal (goBytes "test") ||
      bytesContains lowerVal (goBytes "sample") ||
      bytesContains lowerVal (goBytes "placeholder") ||
      bytesContains lowerVal (goBytes "dummy") || bytesContains lowerVal (goBytes "mock") ||
      bytesContains lowerVal (goBytes "localhost") ||
      bytesContains lowerVal (goBytes "127.0.0.1") then true
  else matchesFpPattern val

/-- An environment whose `isFalsePositive` is the one of `secrets.go` with no regular
expression matching, the other filters rejecting nothing. -/
def substringEnv : Env :=
  { plainEnv with isFalsePositive := isFalsePositive (fun _ => false) }

/-- Two literal patterns, the first of which matches a text containing `TEST`. -/
def mixedPatterns : List CompiledPattern :=
  [mkPattern "upper" "ghp_TEST" (findLiteral "ghp_TEST"),
   mkPattern "lower" "ghp_abc" (findLiteral "ghp_abc")]

/-! ## `secrets.go`: `isRepeatingPattern` -/

/-- `utf8.DecodeRuneInString`: the rune encoded at the start of `s` and the number of bytes of
its encoding. A byte that does not start a valid encoding gives U+FFFD and the width 1. -/
def decodeRune : Bytes → Nat × Nat
  | [] => (0xFFFD, 0)
  | b0 :: rest =>
    if b0 < 0x80 then (b0, 1)
    else if b0 < 0xC2 then (0xFFFD, 1)
    else if b0 < 0xE0 then
      match rest with
      | b1 :: _ =>
        if 0x80 ≤ b1 ∧ b1 ≤ 0xBF then ((b0 % 0x20) * 0x40 + b1 % 0x40, 2) else (0xFFFD, 1)
      | _ => (0xFFFD, 1)
    else if b0 < 0xF0 then
      match rest with
      | b1 :: b2 :: _ =>
        if (if b0 = 0xE0 then 0xA0 else 0x80) ≤ b1 ∧ b1 ≤ (if b0 = 0xED then 0x9F else 0xBF)
            ∧ 0x80 ≤ b2 ∧ b2 ≤ 0xBF then
          ((b0 % 0x10) * 0x1000 + (b1 % 0x40) * 0x40 + b2 % 0x40, 3)
        else (0xFFFD, 1)
      | _ => (0xFFFD, 1)
    else if b0 < 0xF5 then
      match rest with
      | b1 :: b2 :: b3 :: _ =>
        if (if b0 = 0xF0 then 0x90 else 0x80) ≤ b1 ∧ b1 ≤ (if b0 = 0xF4 then 0x8F else 0xBF)
            ∧ 0x80 ≤ b2 ∧ b2 ≤ 0xBF ∧ 0x80 ≤ b3 ∧ b3 ≤ 0xBF then
          ((b0 % 0x08) * 0x40000 + (b1 % 0x40) * 0x1000 + (b2 % 0x40) * 0x40 + b3 % 0x40, 4)
        else (0xFFFD, 1)
      | _ => (0xFFFD, 1)
    else (0xFFFD, 1)

/-- The runes `for _, c := range s` yields; `skip` is the number of bytes still covered by the
rune decoded last. -/
def runesFrom : Bytes → Nat → List Nat
  | [], _ => []
  | b :: rest, skip =>
    if skip > 0 then runesFrom rest (skip - 1)
    else (decodeRune (b :: rest)).1 :: runesFrom rest ((decodeRune (b :: rest)).2 - 1)

/-- The runes of a Go string, in order. -/
def runes (s : Bytes) : List Nat :=
  runesFrom s 0

/-- The map `charCounts` of `isRepeatingPattern` when its first loop is over. -/
def charCounts (s : Bytes) : List (Nat × Nat) :=
  (runes s).foldl (fun m c => goMapSet m c ((goMapGet m c).getD 0 + 1)) []

/-- `isRepeatingPattern` of `secrets.go`. The test `float64(count)/float64(len(s)) > 0.6` is
made on rationals: for a string of fewer than 2^50 bytes the rounded quotient exceeds the
`float64` nearest to 0.6 exactly when the quotient exceeds 3/5. -/
def isRepeatingPattern (s : Bytes) : Bool :=
  if s.length < 4 then false
  else if (charCounts s).any (fun kv => decide ((kv.2 : ℚ) / (s.length : ℚ) > 3 / 5)) then true
  else if s.length ≥ 6 then
    if bytesContains s (s.take (s.length / 2) ++ s.take (s.length / 2)) then true else false
  else false

/-! ## `secrets.go`: the regular expression `stringLiteralRe`

`['"]([a-zA-Z0-9_\-+/=]{32,})['"]`: a quote, at least 32 bytes of the class, a quote. The
class holds no quote, so at a quote the expression matches exactly when the longest run of
class bytes after it has at least 32 bytes and is followed by a quote; the search goes on
after the closing quote. -/

/-- The class `[a-zA-Z0-9_\-+/=]`. -/
def isSecretByte (b : Nat) : Bool :=
  (97 ≤ b && b ≤ 122) || (65 ≤ b && b ≤ 90) || (48 ≤ b && b ≤ 57) ||
    b == 95 || b == 45 || b == 43 || b == 47 || b == 61

/-- The class `['"]`. -/
def isQuoteByte (b : Nat) : Bool :=
  b == 39 || b == 34

/-- The number of bytes of the class at the start of `s`. -/
def secretRun : Bytes → Nat
  | [] => 0
  | b :: rest => if isSecretByte b then secretRun rest + 1 else 0

/-- The matches of `stringLiteralRe` from offset `pos` on, each as the submatch-index array
`[start, end, start of group 1, end of group 1]`; `skip` is the number of bytes still covered
by the last match. -/
def stringLiteralFrom : Bytes → Nat → Nat → List (List Int)
  | [], _, _ => []
  | b :: rest, pos, skip =>
    if skip > 0 then stringLiteralFrom rest (pos + 1) (skip - 1)
    else if isQuoteByte b ∧ 32 ≤ secretRun rest
        ∧ ((rest.drop (secretRun rest)).head?.map isQuoteByte = some true) then
      [(pos : Int), ((pos + secretRun rest + 2 : Nat) : Int), ((pos + 1 : Nat) : Int),
        ((pos + 1 + secretRun rest : Nat) : Int)]
        :: stringLiteralFrom rest (pos + 1) (secretRun rest + 1)
    else stringLiteralFrom rest (pos + 1) 0

/-- `stringLiteralRe.FindAllSubmatchIndex(content, -1)`. -/
def stringLiteralFind (content : Bytes) : List (List Int) :=
  stringLiteralFrom content 0 0

/-- A file that holds one quoted literal of 41 distinct bytes. -/
def pureContent : Bytes :=
  goBytes "\"aK9_mZq2Xw7Lp4Rt6Yv8Bn0CdEfGhIjJkMoOsSuUx\""

/-- An environment for `pureContent`: `stringLiteralRe` is the model above, and the entropy of
the literal, 41 distinct bytes, is log2(41), about 5.357. The filters reject nothing and the
key=value expression matches nothing. -/
def pureEnv : Env :=
  { plainEnv with
    CalculateEntropy := fun v =>
      if v = goBytes "aK9_mZq2Xw7Lp4Rt6Yv8Bn0CdEfGhIjJkMoOsSuUx" then mkRat 5357 1000 else 0
    stringLiteralRe := stringLiteralFind }

/-! ## `secrets.go`: the line lookup with its index expression checked -/

/-- The loop of `getLineFromIndex` with the index expression `positions[mid]` checked: `none` is
the run-time panic of an index out of range, or a loop that is still running after `fuel`
iterations. -/
def lineSearchChecked (positions : List Int) (offset : Int) : Nat → Int → Int → Option Int
  | 0, lo, hi => if lo < hi then none else some lo
  | fuel + 1, lo, hi =>
    if lo < hi then
      let mid := (lo + hi + 1) / 2
      if mid < 0 then none
      else
        match positions[mid.toNat]? with
        | none => none
        | some p =>
          if p ≤ offset then lineSearchChecked positions offset fuel mid hi
          else lineSearchChecked positions offset fuel lo (mid - 1)
    else some lo

/-- `getLineFromIndex` of `secrets.go` over the checked loop, run for `fuel` iterations. -/
def getLineFromIndexChecked (positions : List Int) (offset : Int) (fuel : Nat) : Option Int :=
  if offset < 0 then some 1
  else
    (lineSearchChecked positions offset fuel 0 ((positions.length : Int) - 1)).map (· + 1)

/-! ## `secrets.go`: the regular expressions of the false-positive filter -/

/-- The bytes of the character class of the expression
`^[123456789ABCDEFGHJKLMNPQRSTUVWXYZabcdefghijkmnopqrstuvwxyz]+$` of `falsePositivePatterns`. -/
def base58Alphabet : Bytes :=
  goBytes "123456789ABCDEFGHJKLMNPQRSTUVWXYZabcdefghijkmnopqrstuvwxyz"

/-- `MatchString` of that expression. It has no flag `m`, so `^` and `$` hold at the two ends of
the text only: it matches a text that is a non-empty run of characters of the class, all of
them ASCII. -/
def matchesBase58 (val : Bytes) : Bool :=
  !val.isEmpty && val.all (fun b => base58Alphabet.contains b)

/-- The loop of `isFalsePositive` over `falsePositivePatterns`, each expression given by its
`MatchString`: `before` are the twelve expressions listed before the base58 one and `after` the
two listed after it. -/
def matchesFalsePositivePatterns (before after : List (Bytes → Bool)) (val : Bytes) : Bool :=
  (before ++ [matchesBase58] ++ after).any (fun fpRe => fpRe val)

/-- An environment whose `isFalsePositive` is the one of `secrets.go` with the base58 expression
as its only regular expression, the other filters rejecting nothing. -/
def base58Env : Env :=
  { plainEnv with isFalsePositive := isFalsePositive (matchesFalsePositivePatterns [] []) }

/-- Two literal patterns, the first of which matches a text of base58 characters only. -/
def base58Patterns : List CompiledPattern :=
  [mkPattern "plain" "ghpabc" (findLiteral "ghpabc"),
   mkPattern "lower" "ghp_abc" (findLiteral "ghp_abc")]

/-! ## `template_loader.go`: loading the embedded templates -/

/-- `PatternTemplate`. -/
structure PatternTemplate where
  ID : String
  Name : String
  Description : String
  Regex : String
  Confidence : Int
  Severity : String
  EntropyCheck : Bool
  MinEntropy : ℚ
  MinLength : Int
  MaxLength : Int
  Tags : List String
  ContextKeywords : List String
  References : List String

/-- `compilePattern`. `compile` is `coregex.Compile`, which gives the compiled matcher or fails
(`none`); `none` is the error `invalid regex`. -/
def compilePattern (compile : String → Option (Bytes → List (Nat × Nat)))
    (pt : PatternTemplate) : Option CompiledPattern :=
  match compile pt.Regex with
  | none => none
  | some re =>
    let severity := if pt.Severity = "" then "medium" else pt.Severity
    let confidence := if pt.Confidence = 0 then 75 else pt.Confidence
    some { ID := pt.ID, Name := pt.Name, Regex := re, RegexString := pt.Regex,
           Confidence := confidence, Severity := severity, EntropyCheck := pt.EntropyCheck,
           MinEntropy := pt.MinEntropy, Tags := pt.Tags }

/-- One call of the function `LoadPatterns` hands to `fs.WalkDir`, by what happens in it: the
walk reports an error for the entry; the entry is a directory or has no suffix `.yaml`; the
file cannot be read; its content is not a `PatternFile`; or it is parsed, with the field
`Patterns` of the result. -/
inductive WalkEntry where
  | walkError (path : String)
  | skipped (path : String)
  | unreadable (path : String)
  | unparsable (path : String)
  | file (path : String) (patterns : List PatternTemplate)

/-- A line of `loadErrors`, by what it reports: the path of a file that could not be read or
parsed, or the base name of the file and the id of a template that did not compile. -/
inductive LoadDiag where
  | readError (path : String)
  | parseError (path : String)
  | compileError (base : String) (id : String)
  deriving DecidableEq, Repr

/-- `filepath.Base` for the separator `/`: the last element of the path once its trailing
separators are removed; `.` for the empty path and `/` for a path of separators only. -/
def filepathBase (path : String) : String :=
  if path = "" then "."
  else
    let stripped := (path.toList.reverse.dropWhile (fun c => c == '/')).reverse
    let last := (stripped.reverse.takeWhile (fun c => c != '/')).reverse
    if last = [] then "/" else String.mk last

/-- The loop over `file.Patterns` in the walk function; `allPatterns` and `loadErrors` are the
two variables it appends to. -/
def compileTemplates (compile : String → Option (Bytes → List (Nat × Nat))) (path : String) :
    List PatternTemplate → List CompiledPattern → List LoadDiag →
      List CompiledPattern × List LoadDiag
  | [], allPatterns, loadErrors => (allPatterns, loadErrors)
  | pt :: rest, allPatterns, loadErrors =>
    match compilePattern compile pt with
    | none =>
      compileTemplates compile path rest allPatterns
        (loadErrors ++ [LoadDiag.compileError (filepathBase path) pt.ID])
    | some compiled =>
      compileTemplates compile path rest (allPatterns ++ [compiled]) loadErrors

/-- The call of `fs.WalkDir` in `LoadPatterns` over the entries of the embedded collection in
the order of the walk: `none` when the walk function returns an error, which ends the walk,
and otherwise the final `allPatterns` and `loadErrors`. -/
def walkPatterns (compile : String → Option (Bytes → List (Nat × Nat))) :
    List WalkEntry → List CompiledPattern → List LoadDiag →
      Option (List CompiledPattern × List LoadDiag)
  | [], allPatterns, loadErrors => some (allPatterns, loadErrors)
  | WalkEntry.walkError _ :: _, _, _ => none
  | WalkEntry.skipped _ :: rest, allPatterns, loadErrors =>
    walkPatterns compile rest allPatterns loadErrors
  | WalkEntry.unreadable path :: rest, allPatterns, loadErrors =>
    walkPatterns compile rest allPatterns (loadErrors ++ [LoadDiag.readError path])
  | WalkEntry.unparsable path :: rest, allPatterns, loadErrors =>
    walkPatterns compile rest allPatterns (loadErrors ++ [LoadDiag.parseError path])
  | WalkEntry.file path patterns :: rest, allPatterns, loadErrors =>
    let r := compileTemplates compile path patterns allPatterns loadErrors
    walkPatterns compile rest r.1 r.2

/-- `PatternLoader`, the type of `globalLoader`, without its lock. -/
structure PatternLoader where
  patterns : List CompiledPattern
  loaded : Bool

/-- The two errors `LoadPatterns` returns. -/
inductive LoadError where
  | walkFailed
  | noPatternsLoaded (loadErrors : List LoadDiag)
  deriving DecidableEq, Repr

/-- `LoadPatterns`: what it returns, an error or the pattern list, and the `globalLoader` it
leaves. `embedded` is the embedded collection as the walk sees it and `g` is `globalLoader`
at the call. -/
def LoadPatterns (compile : String → Option (Bytes → List (Nat × Nat)))
    (embedded : List WalkEntry) (g : PatternLoader) :
    Except LoadError (List CompiledPattern) × PatternLoader :=
  if g.loaded then (Except.ok g.patterns, g)
  else
    match walkPatterns compile embedded [] [] with
    | none => (Except.error LoadError.walkFailed, g)
    | some (allPatterns, loadErrors) =>
      let g2 : PatternLoader := { patterns := allPatterns, loaded := true }
      if loadErrors.length > 0 ∧ allPatterns.length = 0 then
        (Except.error (LoadError.noPatternsLoaded loadErrors), g2)
      else (Except.ok allPatterns, g2)

/-- The pattern list of a result of `LoadPatterns`: with an error it is `nil`. -/
def loadedList (r : Except LoadError (List CompiledPattern)) : List CompiledPattern :=
  match r with
  | Except.ok l => l
  | Except.error _ => []

/-- The templates of the parsed files of a collection, in the order of the walk. -/
def templatesOf : List WalkEntry → List PatternTemplate
  | [] => []
  | WalkEntry.file _ patterns :: rest => patterns ++ templatesOf rest
  | _ :: rest => templatesOf rest

/-- No entry of the collection makes the walk fail. -/
def walkable : List WalkEntry → Bool
  | [] => true
  | WalkEntry.walkError _ :: _ => false
  | _ :: rest => walkable rest

/-- The `globalLoader` of a process that has not loaded yet. -/
def freshLoader : PatternLoader := { patterns := [], loaded := false }

/-- A template with the given id and regex, every other field at its zero value. -/
def mkTemplate (id regex : String) : PatternTemplate :=
  { ID := id, Name := "", Description := "", Regex := regex, Confidence := 0, Severity := "",
    EntropyCheck := false, MinEntropy := 0, MinLength := 0, MaxLength := 0, Tags := [],
    ContextKeywords := [], References := [] }

/-- A compiler that rejects the expression `(` and accepts every other one, with a matcher
that finds nothing. -/
def compileExample (regex : String) : Option (Bytes → List (Nat × Nat)) :=
  if regex = "(" then none else some (fun _ => [])

/-! ## `save.go`: the report of the findings -/

/-- The labels `SaveSecrets` writes a section for, in its order. -/
def detectorOrder : List String :=
  ["Template (critical)", "Template (high)", "Template (medium)", "Regex (Vendor)",
   "Regex (Entropy)", "Entropy (Pure)", "gitleaks", "jsluice", "trufflehog"]

/-- The first loop of `SaveSecrets`: the map `detectorGroups`. -/
def groupByDetector (secrets : List Secret) : List (String × List Secret) :=
  secrets.foldl
    (fun detectorGroups s =>
      goMapSet detectorGroups s.Detector ((goMapGet detectorGroups s.Detector).getD [] ++ [s]))
    []

/-- One section of the report text: the label of its header (written in upper case), the
number of findings its header gives, and the findings listed under it, in order. -/
structure ReportSection where
  detector : String
  count : Nat
  findings : List Secret

/-- The report text `SaveSecrets` builds, by its parts: the number on the line
`Total Secrets Found` and the sections in order. -/
structure Report where
  total : Nat
  sections : List ReportSection

/-- The section `SaveSecrets` writes for one label of `detectorOrder`. -/
def reportSection (detectorGroups : List (String × List Secret)) (detector : String) :
    ReportSection :=
  let count := match goMapGet detectorGroups detector with
    | some findings => findings.length
    | none => 0
  if count = 0 then { detector := detector, count := count, findings := [] }
  else { detector := detector, count := count,
         findings := (goMapGet detectorGroups detector).getD [] }

/-- `SaveSecrets` of `save.go`, up to the text it appends to the report file. -/
def SaveSecrets (secrets : List Secret) : Report :=
  let detectorGroups := groupByDetector secrets
  { total := secrets.length
    sections := detectorOrder.map (reportSection detectorGroups) }

/-- A template pattern of severity `low` for the literal `ghp_low`. -/
def lowPattern : CompiledPattern :=
  { mkPattern "weak" "ghp_low" (findLiteral "ghp_low") with Severity := "low" }

/-! ## `secrets.go`: `runRegexScan` -/

/-- The body of the inner loop of the final loop of `runRegexScan`: `st` holds `found` and the
keys of `seenSecrets`. -/
def mergeStep (st : List Secret × List Bytes) (sec : Secret) : List Secret × List Bytes :=
  if sec.Value ∈ st.2 then st else (st.1 ++ [sec], sec.Value :: st.2)

/-- The final loop of `runRegexScan` over the results it receives from `resultChan`, in the
order it receives them. -/
def mergeResults (received : List (List Secret)) : List Secret :=
  (received.foldl (fun st secrets => secrets.foldl mergeStep st) ([], [])).1

/-- `runRegexScan`, for one run. `scan` is `scanSingleFile`. A run is given by `schedule`: the
files in the order in which the workers send their results to `resultChan`, each with the
receiver of its result, `true` for the goroutine started under `Collect progress`, which ranges
over `resultChan` and only increments the bar, and `false` for the final loop. A channel hands
each value to one receiver, and in the order sent. -/
def runRegexScan (scan : String → List Secret) (schedule : List (String × Bool)) :
    List Secret :=
  mergeResults ((schedule.filter (fun x => !x.2)).map (fun x => scan x.1))

/-- A file system with one readable file, `a.js`, of content `x\nghp_abc`. -/
def readExample (path : String) : Option Bytes :=
  if path = "a.js" then some (goBytes "x\nghp_abc") else none

/-- `scanSingleFile` over that file system, with the engine of `twoPatterns`. -/
def scanExample (path : String) : List Secret :=
  (scanSingleFile plainEnv true (BuildEngine syntaxParse twoPatterns) false path
    (readExample path) [0, 1]).getD []

/-! ## `utils.go`: `CalculateEntropy` -/

/-- The map `freqs` of `CalculateEntropy` when its first loop is over: each rune that
`for _, r := range s` yields, with the number of times it is yielded. -/
def freqs (s : Bytes) : List (Nat × Nat) :=
  (runes s).foldl (fun m r => goMapSet m r ((goMapGet m r).getD 0 + 1)) []

/-- `CalculateEntropy` of `utils.go`. `log2` is `math.Log2`. The `float64` quotient
`count / total`, the product and the difference are taken as the exact rational operations;
`total` is `float64(len(s))`, the number of bytes of `s`. The second loop ranges over `freqs`
in an order Go does not fix, which an exact sum does not depend on. -/
def CalculateEntropy (log2 : ℚ → ℚ) (s : Bytes) : ℚ :=
  if s.length = 0 then 0
  else
    (freqs s).foldl
      (fun entropy kv =>
        entropy - ((kv.2 : ℚ) / (s.length : ℚ)) * log2 ((kv.2 : ℚ) / (s.length : ℚ)))
      0

/-! ## The entropy gate against the Shannon entropy -/

/-- The Shannon entropy of a string over its characters, in the words of the spec: minus the
sum, over the characters `c` of the string, of `p * log2 p`, where `p` is the share of the
characters of the string that are `c`. `log2` is the binary logarithm. -/
def shannonEntropy (log2 : ℚ → ℚ) (s : Bytes) : ℚ :=
  ((runes s).dedup.map (fun c =>
    -((((runes s).count c : ℚ) / ((runes s).length : ℚ))
      * log2 (((runes s).count c : ℚ) / ((runes s).length : ℚ))))).sum

/-- A template pattern for the literal `éé` with an entropy gate of 0.4. -/
def gatedPattern : CompiledPattern :=
  { mkPattern "gated" "éé" (findLiteral "éé") with EntropyCheck := true, MinEntropy := 2 / 5 }

/-! ## `utils.go`: `CalculateEntropy` over any field of numbers -/

/-- `CalculateEntropy` of `utils.go` with the `float64` operations taken exactly in a field `F`
and `log2` for `math.Log2`: over the rationals it is `CalculateEntropy`, over the reals with the
binary logarithm it is the value the code rounds. -/
def CalculateEntropyIn (F : Type) [DivisionRing F] (log2 : F → F) (s : Bytes) : F :=
  if s.length = 0 then 0
  else
    (freqs s).foldl
      (fun entropy kv =>
        entropy - ((kv.2 : F) / (s.length : F)) * log2 ((kv.2 : F) / (s.length : F)))
      0

/-- The environment `keyValueEnv` with 5.5, a number below log2(48), as the entropy of the
48 distinct bytes of the value. -/
def lowerKeyValueEnv : Env :=
  { keyValueEnv with
    CalculateEntropy := fun v =>
      if v = goBytes "aK9_mZq2Xw7Lp4Rt6Yv8Bn0CdEfGhIjJkMoOsSuUxVyWz1-3" then mkRat 11 2 else 0 }

/-! ## Theorems: the keyword extractor -/

theorem encodeRune_ne_nil (c : Char) : encodeRune c ≠ [] := by
  unfold encodeRune
  simp only
  split_ifs <;> simp

theorem goLen_eq_zero {s : String} (h : goLen s = 0) : s = "" := by
  obtain ⟨data⟩ := s
  cases data with
  | nil => rfl
  | cons c cs =>
    exfalso
    have hne := encodeRune_ne_nil c
    simp [goLen, goBytes, List.flatMap_cons] at h
    exact hne h.1

/-- The loop of the concatenation case: the result is at least as long as the initial `best`
and as every candidate, and it is either the initial `best` or the first candidate of its
length, which is then strictly longer than the initial `best`. -/
theorem findBestLiteralConcat_spec (subs : List Regexp) :
    ∀ best : String,
      goLen best ≤ goLen (findBestLiteralConcat subs best) ∧
      (∀ sub ∈ subs, goLen (findBestLiteral sub) ≤ goLen (findBestLiteralConcat subs best)) ∧
      (findBestLiteralConcat subs best = best ∨
        ∃ k s, subs[k]? = some s ∧ findBestLiteralConcat subs best = findBestLiteral s ∧
          goLen best < goLen (findBestLiteral s) ∧
          ∀ (j : Nat) (t : Regexp), j < k → subs[j]? = some t →
            goLen (findBestLiteral t) < goLen (findBestLiteral s)) := by
  induction subs with
  | nil => intro best; simp [findBestLiteralConcat]
  | cons sub rest ih =>
    intro best
    simp only [findBestLiteralConcat]
    obtain ⟨h1, h2, h3⟩ := ih (if goLen (findBestLiteral sub) > goLen best
      then findBestLiteral sub else best)
    have hb : goLen best ≤ goLen (if goLen (findBestLiteral sub) > goLen best
        then findBestLiteral sub else best) := by
      split_ifs with h
      · exact Nat.le_of_lt h
      · exact Nat.le_refl _
    have hc : goLen (findBestLiteral sub) ≤ goLen (if goLen (findBestLiteral sub) > goLen best
        then findBestLiteral sub else best) := by
      split_ifs with h
      · exact Nat.le_refl _
      · exact Nat.le_of_not_lt h
    refine ⟨Nat.le_trans hb h1, ?_, ?_⟩
    · intro x hx
      rcases List.mem_cons.1 hx with rfl | hx
      · exact Nat.le_trans hc h1
      · exact h2 x hx
    · rcases h3 with h3 | ⟨k, s, hk, hr, hlt, hfirst⟩
      · by_cases h : goLen (findBestLiteral sub) > goLen best
        · right
          refine ⟨0, sub, by simp, ?_, h, ?_⟩
          · rw [h3, if_pos h]
          · intro j t hj; omega
        · left
          rw [h3, if_neg h]
      · right
        refine ⟨k + 1, s, by simpa using hk, hr, Nat.lt_of_le_of_lt hb hlt, ?_⟩
        intro j t hj ht
        cases j with
        | zero =>
          simp at ht
          subst ht
          exact Nat.lt_of_le_of_lt hc hlt
        | succ j =>
          simp at ht
          exact hfirst j t (by omega) ht

/-- C4. For a concatenation with at least one sub-expression, `findBestLiteral` returns the
result of one of the sub-expressions, no result of a sub-expression is longer (in bytes), and
every result of an earlier sub-expression is strictly shorter: the first of the longest. On
the two sources of the claim, `ExtractKeyword("abcdef") = "abcdef"` and
`ExtractKeyword("ab(cd)+e") = "ab"`. -/
theorem findBestLiteral_concat_first_longest :
    (∀ (sub : Regexp) (rest : List Regexp),
      ∃ k s, (sub :: rest)[k]? = some s ∧
        findBestLiteral (.concat (sub :: rest)) = findBestLiteral s ∧
        (∀ t ∈ sub :: rest, goLen (findBestLiteral t) ≤ goLen (findBestLiteral s)) ∧
        ∀ (j : Nat) (t : Regexp), j < k → (sub :: rest)[j]? = some t →
          goLen (findBestLiteral t) < goLen (findBestLiteral s)) ∧
    ExtractKeyword syntaxParse "abcdef" = "abcdef" ∧
    ExtractKeyword syntaxParse "ab(cd)+e" = "ab" ∧
    syntaxParse "ab(cd)+e" = some (.concat [.literal ['a', 'b'] false,
      .plus (.capture 1 (.literal ['c', 'd'] false)), .literal ['e'] false]) := by
  refine ⟨?_, by decide, by decide, rfl⟩
  intro sub rest
  obtain ⟨_, h2, h3⟩ := findBestLiteralConcat_spec (sub :: rest) ""
  have hdef : findBestLiteral (.concat (sub :: rest)) = findBestLiteralConcat (sub :: rest) "" := by
    simp [findBestLiteral]
  rcases h3 with h3 | ⟨k, s, hk, hr, _, hfirst⟩
  · have hsub : findBestLiteral sub = "" := by
      apply goLen_eq_zero
      have := h2 sub (List.mem_cons_self _ _)
      rw [h3] at this
      exact Nat.le_zero.1 this
    refine ⟨0, sub, by simp, by rw [hdef, h3, hsub], ?_, ?_⟩
    · intro t ht
      have := h2 t ht
      rw [h3] at this
      rw [hsub]
      exact this
    · intro j t hj; omega
  · refine ⟨k, s, hk, by rw [hdef, hr], ?_, hfirst⟩
    intro t ht
    have := h2 t ht
    rw [hr] at this
    exact this

/-- C5 (as stated, refuted). `ExtractKeyword("a?bc")` is not the empty string. -/
theorem extractKeyword_optional_nonempty :
    ExtractKeyword syntaxParse "a?bc" ≠ "" := by
  decide

/-- C5 (amended). The source `a?bc` parses to the concatenation of the optional `a?` and the
literal `bc`; the optional part contributes nothing and `ExtractKeyword("a?bc")` is the
required literal `bc`. -/
theorem extractKeyword_optional_part :
    syntaxParse "a?bc" = some (.concat [.quest (.literal ['a'] false),
      .literal ['b', 'c'] false]) ∧
    findBestLiteral (.quest (.literal ['a'] false)) = "" ∧
    ExtractKeyword syntaxParse "a?bc" = "bc" :=
  ⟨rfl, by decide, by decide⟩

/-- C6. The delegation rules of `findBestLiteral`, on every syntax tree: a literal yields its
text; a capture and `X+` yield the result of their sub-expression; `X{m,n}` yields the result of
`X` when `m > 0` and the empty string otherwise; every other operator yields the empty string;
and a source that does not parse yields the empty string. -/
theorem findBestLiteral_delegation :
    (∀ rune foldCase, findBestLiteral (.literal rune foldCase) = String.mk rune) ∧
    (∀ cap sub, findBestLiteral (.capture cap sub) = findBestLiteral sub) ∧
    (∀ sub, findBestLiteral (.plus sub) = findBestLiteral sub) ∧
    (∀ min max sub, 0 < min → findBestLiteral (.repeat min max sub) = findBestLiteral sub) ∧
    (∀ min max sub, min ≤ 0 → findBestLiteral (.repeat min max sub) = "") ∧
    (∀ subs, findBestLiteral (.alternate subs) = "") ∧
    (∀ sub, findBestLiteral (.quest sub) = "") ∧
    (∀ sub, findBestLiteral (.star sub) = "") ∧
    (∀ ranges, findBestLiteral (.charClass ranges) = "") ∧
    findBestLiteral .anyChar = "" ∧ findBestLiteral .anyCharNotNL = "" ∧
    findBestLiteral .beginLine = "" ∧ findBestLiteral .endLine = "" ∧
    findBestLiteral .beginText = "" ∧ findBestLiteral .endText = "" ∧
    findBestLiteral .wordBoundary = "" ∧ findBestLiteral .noWordBoundary = "" ∧
    findBestLiteral .emptyMatch = "" ∧ findBestLiteral .noMatch = "" ∧
    (∀ (parse : String → Option Regexp) (regexStr : String),
      parse regexStr = none → ExtractKeyword parse regexStr = "") := by
  refine ⟨?_, ?_, ?_, ?_, ?_, ?_, ?_, ?_, ?_, ?_, ?_, ?_, ?_, ?_, ?_, ?_, ?_, ?_, ?_, ?_⟩
  all_goals first
    | (intro parse regexStr h; simp [ExtractKeyword, h])
    | (intro min max sub h; simp [findBestLiteral, h])
    | (intros; simp [findBestLiteral])

/-- C6, at a bounded repetition with `m = 2`: the result is the one of the repeated literal. -/
theorem findBestLiteral_delegation_witness :
    (0 : Int) < 2 ∧
    findBestLiteral (.repeat 2 3 (.literal ['a', 'b'] false))
      = findBestLiteral (.literal ['a', 'b'] false) :=
  ⟨by decide, findBestLiteral_delegation.2.2.2.1 2 3 _ (by decide)⟩

theorem commonGet_iff (k : String) : commonGet k = true ↔ k ∈ stoplist := by
  simp only [commonGet, common, stoplist, List.lookup, List.mem_cons, List.mem_singleton,
    List.not_mem_nil, or_false]
  repeat' split
  all_goals simp_all

theorem isRepetitiveLoop_iff (first : Nat) (s : Bytes) :
    isRepetitiveLoop first s = true ↔ ∀ x ∈ s, x = first := by
  induction s with
  | nil => simp [isRepetitiveLoop]
  | cons b rest ih =>
    simp only [isRepetitiveLoop, List.mem_cons, forall_eq_or_imp]
    by_cases h : b = first
    · simp [h, ih]
    · simp [h]

theorem isRepetitive_iff (s : Bytes) (hs : s ≠ []) :
    isRepetitive s = true ↔ ∃ b, ∀ x ∈ s, x = b := by
  cases s with
  | nil => exact absurd rfl hs
  | cons first rest =>
    simp only [isRepetitive, isRepetitiveLoop_iff]
    constructor
    · intro h
      exact ⟨first, by simpa using h⟩
    · rintro ⟨b, hb⟩ x hx
      rw [hb x (List.mem_cons_of_mem _ hx), hb first (List.mem_cons_self _ _)]

/-- C7 (as stated, refuted). `https` has five characters, is none of the twelve words of the
claim and is not one repeated character, and `IsValidKeyword("https")` is false. -/
theorem isValidKeyword_https_refutes :
    ¬ (IsValidKeyword "https" = true ↔
        (4 ≤ "https".length ∧ ToLower "https" ∉ specStoplist ∧
          ¬ ∃ c, ∀ x ∈ "https".data, x = c)) := by
  intro h
  have hv : IsValidKeyword "https" = true := by
    apply h.2
    refine ⟨by decide, by decide, ?_⟩
    rintro ⟨c, hc⟩
    have h1 := hc 'h' (by decide)
    have h2 := hc 't' (by decide)
    rw [← h1] at h2
    exact absurd h2 (by decide)
  exact absurd hv (by decide)

/-- C7 (amended). `IsValidKeyword(k)` is true exactly when `k` has at least 4 bytes, the
lower-cased `k` is none of the thirteen stoplist words (the twelve of the claim and `https`), and
the bytes of `k` are not all one and the same byte; `key`, `token` and `AAAA` are invalid and
`stripe` is valid. -/
theorem isValidKeyword_iff :
    (∀ k : String, IsValidKeyword k = true ↔
      (4 ≤ goLen k ∧ ToLower k ∉ stoplist ∧ ¬ ∃ b, ∀ x ∈ goBytes k, x = b)) ∧
    (∀ w, w ∈ stoplist ↔ w ∈ specStoplist ∨ w = "https") ∧
    IsValidKeyword "key" = false ∧ IsValidKeyword "token" = false ∧
    IsValidKeyword "AAAA" = false ∧ IsValidKeyword "stripe" = true := by
  refine ⟨?_, ?_, by decide, by decide, by decide, by decide⟩
  · intro k
    unfold IsValidKeyword
    by_cases hlen : goLen k < 4
    · simp only [hlen, if_true]
      constructor
      · intro h; exact absurd h (by simp)
      · intro h; omega
    · have hne : goBytes k ≠ [] := by
        intro h0
        have : goLen k = 0 := by simp [goLen, h0]
        omega
      simp only [hlen, if_false]
      rw [← isRepetitive_iff _ hne, ← commonGet_iff]
      cases commonGet (ToLower k) <;> cases isRepetitive (goBytes k) <;> simp
      all_goals omega
  · intro w
    simp only [stoplist, specStoplist, List.mem_cons, List.mem_singleton, List.not_mem_nil,
      or_false]
    tauto

/-- C1, at the failing input. The source `(?i)stripe` parses to the case-folding literal
`STRIPE`; `ExtractKeyword` returns `STRIPE`, which `IsValidKeyword` accepts; the expression
matches the text `stripe`; and `STRIPE` does not occur in `stripe`. -/
theorem extractKeyword_foldCase_not_necessary :
    syntaxParse "(?i)stripe" = some (.literal ['S', 'T', 'R', 'I', 'P', 'E'] true) ∧
    ExtractKeyword syntaxParse "(?i)stripe" = "STRIPE" ∧
    IsValidKeyword "STRIPE" = true ∧
    Matches (.literal ['S', 'T', 'R', 'I', 'P', 'E'] true) "stripe".data ∧
    ¬ ("STRIPE".data <:+: "stripe".data) ∧
    bytesContains (goBytes "stripe") (goBytes "STRIPE") = false := by
  refine ⟨rfl, by decide, by decide, ?_, by decide, by decide⟩
  apply Matches.literal
  repeat first
    | exact List.Forall₂.nil
    | (apply List.Forall₂.cons; · decide)

/-! ## Theorems: building the engine -/

theorem foldl_enumFrom_invariant {α σ : Type} (step : σ → Nat × α → σ) (P : Nat → σ → Prop)
    (l : List α) :
    ∀ (start : Nat) (init : σ), P start init →
      (∀ m a st, start ≤ m → l[m - start]? = some a → P m st → P (m + 1) (step st (m, a))) →
      P (start + l.length) ((l.enumFrom start).foldl step init) := by
  induction l with
  | nil => intro start init h0 _; simpa using h0
  | cons a rest ih =>
    intro start init h0 hstep
    have h1 : P (start + 1) (step init (start, a)) :=
      hstep start a init (Nat.le_refl _) (by simp) h0
    have := ih (start + 1) (step init (start, a)) h1 (by
      intro m b st hm hb hP
      apply hstep m b st (by omega) _ hP
      have : m - start = (m - (start + 1)) + 1 := by omega
      rw [this]
      simpa using hb)
    simp only [List.enumFrom_cons, List.foldl_cons, List.length_cons]
    have e : start + (rest.length + 1) = start + 1 + rest.length := by omega
    rw [e]
    exact this

theorem goMapGet_set_self {κ ν : Type} [DecidableEq κ] (M : List (κ × ν)) (k : κ) (v : ν) :
    goMapGet (goMapSet M k v) k = some v := by
  induction M with
  | nil => simp [goMapSet, goMapGet]
  | cons kv rest ih =>
    obtain ⟨k', v'⟩ := kv
    by_cases h : k' = k
    · simp [goMapSet, goMapGet, h]
    · simp [goMapSet, goMapGet, h, ih]

theorem goMapGet_set_ne {κ ν : Type} [DecidableEq κ] (M : List (κ × ν)) (k k2 : κ) (v : ν)
    (hne : k2 ≠ k) : goMapGet (goMapSet M k v) k2 = goMapGet M k2 := by
  induction M with
  | nil => simp [goMapSet, goMapGet, Ne.symm hne]
  | cons kv rest ih =>
    obtain ⟨k', v'⟩ := kv
    by_cases h : k' = k
    · subst h
      simp [goMapSet, goMapGet, Ne.symm hne]
    · by_cases h2 : k' = k2
      · subst h2
        simp [goMapSet, goMapGet, h]
      · simp [goMapSet, goMapGet, h, h2, ih]

theorem keys_goMapSet {κ ν : Type} [DecidableEq κ] (M : List (κ × ν)) (k : κ) (v : ν) :
    (goMapSet M k v).map Prod.fst
      = if k ∈ M.map Prod.fst then M.map Prod.fst else M.map Prod.fst ++ [k] := by
  induction M with
  | nil => simp [goMapSet]
  | cons kv rest ih =>
    obtain ⟨k', v'⟩ := kv
    by_cases h : k' = k
    · subst h
      simp [goMapSet]
    · have h' : ¬ k = k' := fun e => h e.symm
      simp only [goMapSet, h, if_false, List.map_cons, ih, List.mem_cons, h', false_or]
      split_ifs <;> simp

theorem goMapGet_eq_none {κ ν : Type} [DecidableEq κ] (M : List (κ × ν)) (k : κ) :
    goMapGet M k = none ↔ k ∉ M.map Prod.fst := by
  induction M with
  | nil => simp [goMapGet]
  | cons kv rest ih =>
    obtain ⟨k', v'⟩ := kv
    by_cases h : k' = k
    · simp [goMapGet, h]
    · have h' : ¬ k = k' := fun e => h e.symm
      simp [goMapGet, h, h', ih]

theorem sum_count_goMapSet (M : List (Nat × List Nat)) (k x i : Nat) :
    ((goMapSet M k ((goMapGet M k).getD [] ++ [x])).map fun kv => List.count i kv.2).sum
      = (M.map fun kv => List.count i kv.2).sum + List.count i [x] := by
  induction M with
  | nil => simp [goMapSet, goMapGet]
  | cons kv rest ih =>
    obtain ⟨k', v'⟩ := kv
    by_cases h : k' = k
    · simp [goMapSet, goMapGet, h, List.count_append]; omega
    · simp only [goMapSet, goMapGet, h, if_false, List.map_cons, List.sum_cons, ih]; omega
theorem count_singleton_nat (i m : Nat) : List.count i [m] = if i = m then 1 else 0 := by
  by_cases h : i = m
  · simp [h]
  · have h' : ¬ m = i := fun e => h e.symm
    simp [h, h', List.count_cons]

theorem buildInv_init (parse : String → Option Regexp) (patterns : List CompiledPattern) :
    BuildInv parse patterns 0
      { keywords := [], keywordToSliceIdx := [], KeywordIndexMap := [], FallbackPatterns := [] } where
  nodupKw := List.nodup_nil
  idx := by intro kw j; simp [goMapGet]
  keys := by intro j; simp
  nodupKeys := by simp
  listed := by intro j i; simp [goMapGet]
  covered := by intro i p hi; omega
  count := by intro i; simp
  fallback := by intro i; simp

theorem buildInv_step (parse : String → Option Regexp) (patterns : List CompiledPattern)
    (m : Nat) (p : CompiledPattern) (st : BuildState) (hp : patterns[m]? = some p)
    (h : BuildInv parse patterns m st) :
    BuildInv parse patterns (m + 1) (buildStep parse st (m, p)) := by
  unfold buildStep
  simp only
  have hkw : ExtractKeyword parse p.RegexString = kwOf parse p := rfl
  rw [hkw]
  by_cases hv : IsValidKeyword (kwOf parse p) = true
  · simp only [hv, if_true]
    cases hget : goMapGet st.keywordToSliceIdx (kwOf parse p) with
    | some sl =>
      simp only
      have hsl : st.keywords[sl]? = some (kwOf parse p) := (h.idx _ _).1 hget
      have hslt : sl < st.keywords.length := by
        rcases List.getElem?_eq_some.1 hsl with ⟨hlt, _⟩
        exact hlt
      have hmem : sl ∈ st.KeywordIndexMap.map Prod.fst := (h.keys sl).2 hslt
      refine ⟨h.nodupKw, h.idx, ?_, ?_, ?_, ?_, ?_, ?_⟩
      · intro j
        simp only [keys_goMapSet, hmem, if_true]
        exact h.keys j
      · simp only [keys_goMapSet, hmem, if_true]
        exact h.nodupKeys
      · intro j i
        by_cases hj : j = sl
        · subst hj
          rw [goMapGet_set_self]
          simp only [Option.getD_some, List.mem_append, List.mem_singleton, h.listed]
          constructor
          · rintro (⟨hi, q, hq, hqv, hqk⟩ | rfl)
            · exact ⟨by omega, q, hq, hqv, hqk⟩
            · exact ⟨by omega, p, hp, hv, hsl⟩
          · rintro ⟨hi, q, hq, hqv, hqk⟩
            by_cases him : i = m
            · right; exact him
            · left; exact ⟨by omega, q, hq, hqv, hqk⟩
        · rw [goMapGet_set_ne _ _ _ _ hj, h.listed]
          constructor
          · rintro ⟨hi, q, hq, hqv, hqk⟩
            exact ⟨by omega, q, hq, hqv, hqk⟩
          · rintro ⟨hi, q, hq, hqv, hqk⟩
            by_cases him : i = m
            · exfalso
              subst him
              rw [hp] at hq
              cases hq
              apply hj
              have h1 := List.getElem?_eq_some.1 hqk
              have h2 := List.getElem?_eq_some.1 hsl
              obtain ⟨a1, a2⟩ := h1
              obtain ⟨b1, b2⟩ := h2
              exact (List.Nodup.getElem_inj_iff h.nodupKw).1 (a2.trans b2.symm)
            · exact ⟨by omega, q, hq, hqv, hqk⟩
      · intro i q hi hq hqv
        by_cases him : i = m
        · subst him
          rw [hp] at hq
          cases hq
          exact List.getElem?_mem hsl
        · exact h.covered i q (by omega) hq hqv
      · intro i
        rw [sum_count_goMapSet, ← Nat.add_assoc, h.count i, count_singleton_nat]
        by_cases him : i = m
        · subst him; simp
        · by_cases hlt : i < m
          · simp [hlt, him, Nat.lt_succ_of_lt hlt]
          · have : ¬ i < m + 1 := by omega
            simp [hlt, him, this]
      · intro i
        rw [h.fallback]
        constructor
        · rintro ⟨hi, q, hq, hqv⟩
          exact ⟨by omega, q, hq, hqv⟩
        · rintro ⟨hi, q, hq, hqv⟩
          by_cases him : i = m
          · exfalso
            subst him
            rw [hp] at hq
            cases hq
            rw [hv] at hqv
            cases hqv
          · exact ⟨by omega, q, hq, hqv⟩
    | none =>
      simp only
      have hnot : kwOf parse p ∉ st.keywords := by
        intro hin
        obtain ⟨j, hj⟩ := List.getElem?_of_mem hin
        have := (h.idx _ _).2 hj
        rw [hget] at this
        cases this
      have hnk : st.keywords.length ∉ st.KeywordIndexMap.map Prod.fst := by
        intro hin
        have := (h.keys _).1 hin
        omega
      have hgn : goMapGet st.KeywordIndexMap st.keywords.length = none :=
        (goMapGet_eq_none _ _).2 hnk
      refine ⟨?_, ?_, ?_, ?_, ?_, ?_, ?_, ?_⟩
      · exact List.Nodup.append h.nodupKw (List.nodup_singleton _)
          (by simpa using hnot)
      · intro kw j
        by_cases hk : kw = kwOf parse p
        · subst hk
          rw [goMapGet_set_self]
          constructor
          · intro hj
            cases hj
            simp
          · intro hj
            by_cases hjl : j < st.keywords.length
            · exfalso
              rw [List.getElem?_append_left hjl] at hj
              exact hnot (List.getElem?_mem hj)
            · have hjeq : j = st.keywords.length := by
                rcases List.getElem?_eq_some.1 hj with ⟨hlt, _⟩
                simp at hlt
                omega
              rw [hjeq]
        · rw [goMapGet_set_ne _ _ _ _ hk, h.idx]
          by_cases hjl : j < st.keywords.length
          · rw [List.getElem?_append_left hjl]
          · constructor
            · intro hj
              rcases List.getElem?_eq_some.1 hj with ⟨hlt, _⟩
              omega
            · intro hj
              exfalso
              rw [List.getElem?_append_right (by omega)] at hj
              by_cases hj0 : j - st.keywords.length = 0
              · rw [hj0] at hj
                simp at hj
                exact hk hj.symm
              · have : ∃ n, j - st.keywords.length = n + 1 := ⟨j - st.keywords.length - 1, by omega⟩
                obtain ⟨n, hn⟩ := this
                rw [hn] at hj
                simp at hj
      · intro j
        simp only [keys_goMapSet, hnk, if_false, List.mem_append, List.mem_singleton,
          List.length_append, List.length_singleton, h.keys]
        omega
      · simp only [keys_goMapSet, hnk, if_false]
        exact List.Nodup.append h.nodupKeys (List.nodup_singleton _) (by simpa using hnk)
      · intro j i
        by_cases hj : j = st.keywords.length
        · subst hj
          rw [goMapGet_set_self, hgn]
          simp only [Option.getD_none, Option.getD_some, List.nil_append, List.mem_singleton]
          constructor
          · rintro rfl
            exact ⟨by omega, p, hp, hv, by simp⟩
          · rintro ⟨hi, q, hq, hqv, hqk⟩
            by_contra him
            have hq' : kwOf parse q = kwOf parse p := by
              simp at hqk
              exact hqk.symm
            exact hnot (hq' ▸ h.covered i q (by omega) hq hqv)
        · rw [goMapGet_set_ne _ _ _ _ hj, h.listed]
          constructor
          · rintro ⟨hi, q, hq, hqv, hqk⟩
            refine ⟨by omega, q, hq, hqv, ?_⟩
            rcases List.getElem?_eq_some.1 hqk with ⟨hlt, _⟩
            rw [List.getElem?_append_left hlt]
            exact hqk
          · rintro ⟨hi, q, hq, hqv, hqk⟩
            have hjl : j < st.keywords.length := by
              rcases List.getElem?_eq_some.1 hqk with ⟨hlt, _⟩
              simp at hlt
              omega
            rw [List.getElem?_append_left hjl] at hqk
            by_cases him : i = m
            · exfalso
              subst him
              rw [hp] at hq
              cases hq
              exact hnot (List.getElem?_mem hqk)
            · exact ⟨by omega, q, hq, hqv, hqk⟩
      · intro i q hi hq hqv
        by_cases him : i = m
        · subst him
          rw [hp] at hq
          cases hq
          simp
        · exact List.mem_append_left _ (h.covered i q (by omega) hq hqv)
      · intro i
        rw [sum_count_goMapSet, ← Nat.add_assoc, h.count i, count_singleton_nat]
        by_cases him : i = m
        · subst him; simp
        · by_cases hlt : i < m
          · simp [hlt, him, Nat.lt_succ_of_lt hlt]
          · have : ¬ i < m + 1 := by omega
            simp [hlt, him, this]
      · intro i
        rw [h.fallback]
        constructor
        · rintro ⟨hi, q, hq, hqv⟩
          exact ⟨by omega, q, hq, hqv⟩
        · rintro ⟨hi, q, hq, hqv⟩
          by_cases him : i = m
          · exfalso
            subst him
            rw [hp] at hq
            cases hq
            rw [hv] at hqv
            cases hqv
          · exact ⟨by omega, q, hq, hqv⟩
  · have hv' : IsValidKeyword (kwOf parse p) = false := by simpa using hv
    simp only [hv', Bool.false_eq_true, if_false]
    refine ⟨h.nodupKw, h.idx, h.keys, h.nodupKeys, ?_, ?_, ?_, ?_⟩
    · intro j i
      rw [h.listed]
      constructor
      · rintro ⟨hi, q, hq, hqv, hqk⟩
        exact ⟨by omega, q, hq, hqv, hqk⟩
      · rintro ⟨hi, q, hq, hqv, hqk⟩
        by_cases him : i = m
        · exfalso
          subst him
          rw [hp] at hq
          cases hq
          exact hv hqv
        · exact ⟨by omega, q, hq, hqv, hqk⟩
    · intro i q hi hq hqv
      by_cases him : i = m
      · exfalso
        subst him
        rw [hp] at hq
        cases hq
        exact hv hqv
      · exact h.covered i q (by omega) hq hqv
    · intro i
      have := h.count i
      simp only [List.count_append, count_singleton_nat]
      by_cases him : i = m
      · subst him
        simp at this ⊢
        omega
      · by_cases hlt : i < m
        · simp [hlt, him, Nat.lt_succ_of_lt hlt] at this ⊢
          omega
        · have h3 : ¬ i < m + 1 := by omega
          simp [hlt, him, h3] at this ⊢
          omega
    · intro i
      rw [List.mem_append, h.fallback, List.mem_singleton]
      constructor
      · rintro (⟨hi, q, hq, hqv⟩ | rfl)
        · exact ⟨by omega, q, hq, hqv⟩
        · exact ⟨by omega, p, hp, hv'⟩
      · rintro ⟨hi, q, hq, hqv⟩
        by_cases him : i = m
        · right; exact him
        · left; exact ⟨by omega, q, hq, hqv⟩

theorem buildInv_final (parse : String → Option Regexp) (patterns : List CompiledPattern) :
    BuildInv parse patterns patterns.length (buildLoop parse patterns) := by
  have := foldl_enumFrom_invariant (buildStep parse) (BuildInv parse patterns) patterns 0 _
    (buildInv_init parse patterns)
    (by
      intro m a st _ ha hP
      exact buildInv_step parse patterns m a st (by simpa using ha) hP)
  simpa [buildLoop, List.enum] using this

/-- C2. After `BuildEngine(patterns)`, every index in the fallback list and in the lists of
the keyword index is below the number of patterns, the keys of the keyword index are pairwise
distinct, and every index below the number of patterns occurs exactly once in the fallback list
and the keyword lists taken together. -/
theorem buildEngine_partition (parse : String → Option Regexp) (patterns : List CompiledPattern) :
    (∀ i ∈ (BuildEngine parse patterns).FallbackPatterns, i < patterns.length) ∧
    (∀ kv ∈ (BuildEngine parse patterns).KeywordIndexMap, ∀ i ∈ kv.2, i < patterns.length) ∧
    ((BuildEngine parse patterns).KeywordIndexMap.map Prod.fst).Nodup ∧
    (∀ i, i < patterns.length →
      List.count i (BuildEngine parse patterns).FallbackPatterns
        + ((BuildEngine parse patterns).KeywordIndexMap.map fun kv => List.count i kv.2).sum
        = 1) := by
  have h := buildInv_final parse patterns
  have hzero : ∀ i, ¬ i < patterns.length →
      List.count i (buildLoop parse patterns).FallbackPatterns = 0 ∧
      ((buildLoop parse patterns).KeywordIndexMap.map fun kv => List.count i kv.2).sum = 0 := by
    intro i hi
    have := h.count i
    rw [if_neg hi] at this
    omega
  refine ⟨?_, ?_, h.nodupKeys, ?_⟩
  · intro i hi
    by_contra hlt
    have := (hzero i hlt).1
    rw [List.count_eq_zero] at this
    exact this hi
  · intro kv hkv i hi
    by_contra hlt
    have hsum := (hzero i hlt).2
    have hle : List.count i kv.2 ≤
        ((buildLoop parse patterns).KeywordIndexMap.map fun kv => List.count i kv.2).sum :=
      List.single_le_sum (by intro x _; exact Nat.zero_le x) _
        (List.mem_map.2 ⟨kv, hkv, rfl⟩)
    have h0 : List.count i kv.2 = 0 := by omega
    rw [List.count_eq_zero] at h0
    exact h0 hi
  · intro i hi
    have := h.count i
    rw [if_pos hi] at this
    exact this

/-- C2, on three patterns of which the first and the last require the same literal: index 2
occurs once. -/
theorem buildEngine_partition_witness :
    2 < examplePatterns.length ∧
    List.count 2 (BuildEngine syntaxParse examplePatterns).FallbackPatterns
      + ((BuildEngine syntaxParse examplePatterns).KeywordIndexMap.map
          fun kv => List.count 2 kv.2).sum = 1 :=
  ⟨by decide, (buildEngine_partition syntaxParse examplePatterns).2.2.2 2 (by decide)⟩

theorem buildOrigin_step (parse : String → Option Regexp) (patterns : List CompiledPattern)
    (m : Nat) (p : CompiledPattern) (st : BuildState) (hp : patterns[m]? = some p)
    (h : BuildOrigin parse patterns m st) :
    BuildOrigin parse patterns (m + 1) (buildStep parse st (m, p)) := by
  have hold : ∀ kw ∈ st.keywords, ∃ i q, i < m + 1 ∧ patterns[i]? = some q ∧
      IsValidKeyword (kwOf parse q) = true ∧ kwOf parse q = kw := by
    intro kw hk
    obtain ⟨i, q, hi, rest⟩ := h kw hk
    exact ⟨i, q, by omega, rest⟩
  unfold buildStep
  simp only
  have hkw : ExtractKeyword parse p.RegexString = kwOf parse p := rfl
  rw [hkw]
  by_cases hv : IsValidKeyword (kwOf parse p) = true
  · rw [if_pos hv]
    cases hg : goMapGet st.keywordToSliceIdx (kwOf parse p) with
    | some sliceIdx => exact hold
    | none =>
      intro kw hk
      simp only [List.mem_append, List.mem_singleton] at hk
      rcases hk with hk | hk
      · exact hold kw hk
      · exact ⟨m, p, by omega, hp, hv, hk.symm⟩
  · rw [if_neg hv]
    exact hold

theorem buildOrigin_final (parse : String → Option Regexp) (patterns : List CompiledPattern) :
    BuildOrigin parse patterns patterns.length (buildLoop parse patterns) := by
  have := foldl_enumFrom_invariant (buildStep parse) (BuildOrigin parse patterns) patterns 0
    { keywords := [], keywordToSliceIdx := [], KeywordIndexMap := [], FallbackPatterns := [] }
    (by intro kw hk; cases hk)
    (by
      intro m a st _ ha hP
      exact buildOrigin_step parse patterns m a st (by simpa using ha) hP)
  simpa [buildLoop, List.enum] using this

/-- C8. After `BuildEngine(patterns)`, the keyword list handed to the matcher holds no string
twice, the keys of `KeywordIndexMap` are pairwise distinct and are exactly the positions
`0..k-1` of that list, and pattern `i` is listed under key `j` exactly when its extracted keyword
is valid and is the string at position `j`. The strings of the list are exactly the valid
keywords extracted from the patterns: every pattern with a valid keyword is listed under the
one position that holds its keyword, and every string of the list is the valid keyword of some
pattern. So two patterns with the same valid keyword are listed under the same key. -/
theorem buildEngine_keyword_groups (parse : String → Option Regexp)
    (patterns : List CompiledPattern) :
    (BuildEngine parse patterns).Matcher.Nodup ∧
    ((BuildEngine parse patterns).KeywordIndexMap.map Prod.fst).Nodup ∧
    (∀ j, j ∈ (BuildEngine parse patterns).KeywordIndexMap.map Prod.fst
      ↔ j < (BuildEngine parse patterns).Matcher.length) ∧
    (∀ i j p, patterns[i]? = some p →
      (i ∈ (goMapGet (BuildEngine parse patterns).KeywordIndexMap j).getD [] ↔
        IsValidKeyword (ExtractKeyword parse p.RegexString) = true ∧
        (BuildEngine parse patterns).Matcher[j]? = some (ExtractKeyword parse p.RegexString))) ∧
    (∀ i p, patterns[i]? = some p →
      IsValidKeyword (ExtractKeyword parse p.RegexString) = true →
      ∃ j, (BuildEngine parse patterns).Matcher[j]? = some (ExtractKeyword parse p.RegexString) ∧
        i ∈ (goMapGet (BuildEngine parse patterns).KeywordIndexMap j).getD [] ∧
        ∀ j2, i ∈ (goMapGet (BuildEngine parse patterns).KeywordIndexMap j2).getD [] →
          j2 = j) ∧
    (∀ kw, kw ∈ (BuildEngine parse patterns).Matcher ↔
      ∃ (i : Nat) (p : CompiledPattern), patterns[i]? = some p ∧
        IsValidKeyword (ExtractKeyword parse p.RegexString) = true ∧
        ExtractKeyword parse p.RegexString = kw) ∧
    (∀ i1 i2 p1 p2, patterns[i1]? = some p1 → patterns[i2]? = some p2 →
      IsValidKeyword (ExtractKeyword parse p1.RegexString) = true →
      ExtractKeyword parse p1.RegexString = ExtractKeyword parse p2.RegexString →
      ∃ j, i1 ∈ (goMapGet (BuildEngine parse patterns).KeywordIndexMap j).getD [] ∧
        i2 ∈ (goMapGet (BuildEngine parse patterns).KeywordIndexMap j).getD []) := by
  have h := buildInv_final parse patterns
  have ho := buildOrigin_final parse patterns
  have hlisted : ∀ i j p, patterns[i]? = some p →
      (i ∈ (goMapGet (BuildEngine parse patterns).KeywordIndexMap j).getD [] ↔
        IsValidKeyword (ExtractKeyword parse p.RegexString) = true ∧
        (BuildEngine parse patterns).Matcher[j]?
          = some (ExtractKeyword parse p.RegexString)) := by
    intro i j p hp
    have hl := h.listed j i
    simp only [BuildEngine]
    rw [hl]
    constructor
    · rintro ⟨_, q, hq, hqv, hqk⟩
      rw [hp] at hq
      cases hq
      exact ⟨hqv, hqk⟩
    · rintro ⟨hv, hk⟩
      refine ⟨?_, p, hp, hv, hk⟩
      rcases List.getElem?_eq_some.1 hp with ⟨hlt, _⟩
      exact hlt
  have hcov : ∀ i p, patterns[i]? = some p →
      IsValidKeyword (ExtractKeyword parse p.RegexString) = true →
      ∃ j, (BuildEngine parse patterns).Matcher[j]? = some (ExtractKeyword parse p.RegexString) ∧
        i ∈ (goMapGet (BuildEngine parse patterns).KeywordIndexMap j).getD [] ∧
        ∀ j2, i ∈ (goMapGet (BuildEngine parse patterns).KeywordIndexMap j2).getD [] →
          j2 = j := by
    intro i p hp hv
    have hlt : i < patterns.length := (List.getElem?_eq_some.1 hp).1
    have hmem : ExtractKeyword parse p.RegexString ∈ (BuildEngine parse patterns).Matcher :=
      h.covered i p hlt hp hv
    obtain ⟨j, hj⟩ := List.getElem?_of_mem hmem
    refine ⟨j, hj, (hlisted i j p hp).2 ⟨hv, hj⟩, ?_⟩
    intro j2 hj2
    have h2 := ((hlisted i j2 p hp).1 hj2).2
    obtain ⟨hl1, e1⟩ := List.getElem?_eq_some.1 hj
    obtain ⟨hl2, e2⟩ := List.getElem?_eq_some.1 h2
    exact (List.Nodup.getElem_inj_iff h.nodupKw).1 (e2.trans e1.symm)
  refine ⟨h.nodupKw, h.nodupKeys, h.keys, hlisted, hcov, ?_, ?_⟩
  · intro kw
    constructor
    · intro hk
      obtain ⟨i, p, _, hp, hv, hkw⟩ := ho kw hk
      exact ⟨i, p, hp, hv, hkw⟩
    · rintro ⟨i, p, hp, hv, rfl⟩
      exact h.covered i p (List.getElem?_eq_some.1 hp).1 hp hv
  · intro i1 i2 p1 p2 hp1 hp2 hv hkw
    obtain ⟨j, hj, h1, _⟩ := hcov i1 p1 hp1 hv
    refine ⟨j, h1, (hlisted i2 j p2 hp2).2 ⟨?_, ?_⟩⟩
    · rw [← hkw]
      exact hv
    · rw [← hkw]
      exact hj

/-- C8, on three patterns: the last one requires `ghp_abc`, as the first does, and is listed
under the same key `0`. -/
theorem buildEngine_keyword_groups_witness :
    examplePatterns[2]? = some (mkPattern "second" "ghp_abc.+" (fun _ => [])) ∧
    2 ∈ (goMapGet (BuildEngine syntaxParse examplePatterns).KeywordIndexMap 0).getD [] :=
  ⟨rfl, ((buildEngine_keyword_groups syntaxParse examplePatterns).2.2.2.1 2 0 _ rfl).2
    ⟨by decide, by decide⟩⟩

/-! ## Theorems: scanning -/

theorem runMatches_step (env : Env) (pattern : CompiledPattern) (content : Bytes)
    (filePath : String) (linePositions : List Int) (m : Nat × Nat) (rest : List (Nat × Nat))
    (results : List Secret) (seen : List Bytes) :
    runMatches env pattern content filePath linePositions (m :: rest) results seen =
      if slice content m.1 m.2 ∈ seen ∨ passes env pattern (slice content m.1 m.2) = false then
        runMatches env pattern content filePath linePositions rest results seen
      else
        runMatches env pattern content filePath linePositions rest
          (results ++ [templateFinding pattern content filePath linePositions
            (slice content m.1 m.2)])
          (slice content m.1 m.2 :: seen) := by
  simp only [runMatches, passes, templateFinding]
  by_cases h1 : slice content m.1 m.2 ∈ seen
  · simp [h1]
  · by_cases h2 : env.isFalsePositive (slice content m.1 m.2) = true
    · simp [h1, h2]
    · by_cases h3 : pattern.EntropyCheck = true ∧ pattern.MinEntropy > 0
          ∧ env.CalculateEntropy (slice content m.1 m.2) < pattern.MinEntropy
      · have h3' := h3
        obtain ⟨a, b, c⟩ := h3'
        simp [h1, h2, h3, a, b, c]
      · have h4 : ¬ (pattern.EntropyCheck = true ∧ 0 < pattern.MinEntropy
            ∧ env.CalculateEntropy (slice content m.1 m.2) < pattern.MinEntropy) := h3
        simp only [h1, h2, h3, if_false, false_or]
        have : (!env.isFalsePositive (slice content m.1 m.2) &&
            !(pattern.EntropyCheck && decide (pattern.MinEntropy > 0)
              && decide (env.CalculateEntropy (slice content m.1 m.2) < pattern.MinEntropy)))
            = true := by
          simp only [Bool.and_eq_true, Bool.not_eq_true', decide_eq_true_eq]
          refine ⟨by simpa using h2, ?_⟩
          by_contra hc
          apply h4
          simp only [Bool.not_eq_false, Bool.and_eq_true, decide_eq_true_eq] at hc
          exact ⟨hc.1.1, hc.1.2, hc.2⟩
        simp [this]
        rw [if_neg (fun hc => h4 ⟨hc.1.1, hc.1.2, hc.2⟩)]

/-- What the loop of `runSinglePattern` appends and how it leaves `seen`. -/
theorem runMatches_spec (env : Env) (pattern : CompiledPattern) (content : Bytes)
    (filePath : String) (linePositions : List Int) (ms : List (Nat × Nat)) :
    ∀ (results : List Secret) (seen : List Bytes), ∃ new : List Secret,
      runMatches env pattern content filePath linePositions ms results seen
        = (results ++ new, (new.map Secret.Value).reverse ++ seen) ∧
      (new.map Secret.Value).Nodup ∧
      (∀ v ∈ new.map Secret.Value, v ∉ seen) ∧
      (∀ v, v ∈ new.map Secret.Value ↔
        v ∉ seen ∧ ∃ m ∈ ms, slice content m.1 m.2 = v ∧ passes env pattern v = true) ∧
      (∀ s ∈ new, s = templateFinding pattern content filePath linePositions s.Value) := by
  induction ms with
  | nil =>
    intro results seen
    exact ⟨[], by simp [runMatches], by simp, by simp, by simp, by simp⟩
  | cons m rest ih =>
    intro results seen
    rw [runMatches_step]
    by_cases hskip : slice content m.1 m.2 ∈ seen ∨ passes env pattern (slice content m.1 m.2) = false
    · rw [if_pos hskip]
      obtain ⟨new, hrun, hnd, hdis, hmem, hdet⟩ := ih results seen
      refine ⟨new, hrun, hnd, hdis, ?_, hdet⟩
      intro v
      rw [hmem v]
      constructor
      · rintro ⟨hv, m', hm', hsl, hp⟩
        exact ⟨hv, m', List.mem_cons_of_mem _ hm', hsl, hp⟩
      · rintro ⟨hv, m', hm', hsl, hp⟩
        refine ⟨hv, m', ?_, hsl, hp⟩
        rcases List.mem_cons.1 hm' with rfl | hm'
        · exfalso
          rcases hskip with hs | hs
          · rw [hsl] at hs; exact hv hs
          · rw [hsl, hp] at hs; cases hs
        · exact hm'
    · rw [if_neg hskip]
      have hns : slice content m.1 m.2 ∉ seen := fun h => hskip (Or.inl h)
      have hps : passes env pattern (slice content m.1 m.2) = true := by
        cases hp : passes env pattern (slice content m.1 m.2)
        · exact absurd (Or.inr hp) hskip
        · rfl
      obtain ⟨new, hrun, hnd, hdis, hmem, hdet⟩ := ih
        (results ++ [templateFinding pattern content filePath linePositions
          (slice content m.1 m.2)]) (slice content m.1 m.2 :: seen)
      refine ⟨templateFinding pattern content filePath linePositions (slice content m.1 m.2)
        :: new, ?_, ?_, ?_, ?_, ?_⟩
      · rw [hrun]
        simp [templateFinding, List.append_assoc]
      · simp only [List.map_cons, List.nodup_cons]
        refine ⟨?_, hnd⟩
        intro hin
        exact hdis _ hin (by simp [templateFinding])
      · intro v hv
        simp only [List.map_cons, List.mem_cons] at hv
        rcases hv with rfl | hv
        · exact hns
        · intro hin
          exact hdis v hv (List.mem_cons_of_mem _ hin)
      · intro v
        simp only [List.map_cons, List.mem_cons]
        constructor
        · rintro (rfl | hv)
          · exact ⟨hns, m, Or.inl rfl, rfl, hps⟩
          · obtain ⟨hv1, m', hm', hsl, hp⟩ := (hmem v).1 hv
            refine ⟨?_, m', Or.inr hm', hsl, hp⟩
            intro hin
            exact hv1 (List.mem_cons_of_mem _ hin)
        · rintro ⟨hv, m', hm', hsl, hp⟩
          by_cases hveq : v = slice content m.1 m.2
          · left; exact hveq
          · right
            apply (hmem v).2
            refine ⟨?_, m', ?_, hsl, hp⟩
            · intro hin
              rcases List.mem_cons.1 hin with h | h
              · exact hveq h
              · exact hv h
            · rcases hm' with rfl | hm'
              · exact absurd hsl.symm hveq
              · exact hm'
      · intro s hs
        rcases List.mem_cons.1 hs with rfl | hs
        · rfl
        · exact hdet s hs

/-- What a run over a list of pattern indices appends and how it leaves `seen`, when every
index is in range. -/
theorem runPatterns_spec (env : Env) (all : List CompiledPattern) (content : Bytes)
    (filePath : String) (linePositions : List Int) (idxs : List Nat) :
    ∀ (found : List Secret) (seen : List Bytes), (∀ i ∈ idxs, i < all.length) →
      ∃ new : List Secret,
        runPatterns env all content filePath linePositions idxs found seen
          = some (found ++ new, (new.map Secret.Value).reverse ++ seen) ∧
        (new.map Secret.Value).Nodup ∧
        (∀ v ∈ new.map Secret.Value, v ∉ seen) ∧
        (∀ v, v ∈ new.map Secret.Value ↔
          v ∉ seen ∧ ∃ i ∈ idxs, ∃ p, all[i]? = some p ∧ accepts env p content v) ∧
        (∀ s ∈ new, ∃ i ∈ idxs, ∃ p, all[i]? = some p ∧
          s = templateFinding p content filePath linePositions s.Value) := by
  induction idxs with
  | nil =>
    intro found seen _
    exact ⟨[], by simp [runPatterns], by simp, by simp, by simp, by simp⟩
  | cons idx rest ih =>
    intro found seen hr
    have hlt : idx < all.length := hr idx (List.mem_cons_self _ _)
    have hget : all[idx]? = some all[idx] := List.getElem?_eq_getElem hlt
    obtain ⟨new1, hrun1, hnd1, hdis1, hmem1, hdet1⟩ :=
      runMatches_spec env all[idx] content filePath linePositions (all[idx].Regex content) [] seen
    obtain ⟨new2, hrun2, hnd2, hdis2, hmem2, hdet2⟩ :=
      ih (found ++ new1) ((new1.map Secret.Value).reverse ++ seen)
        (fun i hi => hr i (List.mem_cons_of_mem _ hi))
    refine ⟨new1 ++ new2, ?_, ?_, ?_, ?_, ?_⟩
    · simp only [runPatterns, hget, runSinglePattern, hrun1, List.nil_append, hrun2]
      simp [List.append_assoc]
    · rw [List.map_append]
      refine List.Nodup.append hnd1 hnd2 ?_
      intro v h1 h2
      exact hdis2 v h2 (by simp [h1])
    · intro v hv
      rw [List.map_append, List.mem_append] at hv
      rcases hv with hv | hv
      · exact hdis1 v hv
      · intro hin
        exact hdis2 v hv (by simp [hin])
    · intro v
      rw [List.map_append, List.mem_append]
      constructor
      · rintro (hv | hv)
        · obtain ⟨h1, m, hm, hsl, hp⟩ := (hmem1 v).1 hv
          exact ⟨h1, idx, List.mem_cons_self _ _, all[idx], hget, m, hm, hsl, hp⟩
        · obtain ⟨h1, i, hi, p, hp, hacc⟩ := (hmem2 v).1 hv
          refine ⟨?_, i, List.mem_cons_of_mem _ hi, p, hp, hacc⟩
          intro hin
          exact h1 (by simp [hin])
      · rintro ⟨hv, i, hi, p, hp, hacc⟩
        by_cases hin1 : v ∈ new1.map Secret.Value
        · left; exact hin1
        · rcases List.mem_cons.1 hi with rfl | hi
          · left
            rw [hget] at hp
            cases hp
            obtain ⟨m, hm, hsl, hps⟩ := hacc
            exact (hmem1 v).2 ⟨hv, m, hm, hsl, hps⟩
          · right
            apply (hmem2 v).2
            refine ⟨?_, i, hi, p, hp, hacc⟩
            intro hin
            rcases List.mem_append.1 hin with h | h
            · exact hin1 (by simpa using h)
            · exact hv h
    · intro s hs
      rcases List.mem_append.1 hs with hs | hs
      · exact ⟨idx, List.mem_cons_self _ _, all[idx], hget, hdet1 s hs⟩
      · obtain ⟨i, hi, p, hp, hs'⟩ := hdet2 s hs
        exact ⟨i, List.mem_cons_of_mem _ hi, p, hp, hs'⟩

/-- A run over a list of pattern indices returns only when every index is in range. -/
theorem runPatterns_inRange (env : Env) (all : List CompiledPattern) (content : Bytes)
    (filePath : String) (linePositions : List Int) (idxs : List Nat) :
    ∀ (found : List Secret) (seen : List Bytes) (r : List Secret × List Bytes),
      runPatterns env all content filePath linePositions idxs found seen = some r →
      ∀ i ∈ idxs, i < all.length := by
  induction idxs with
  | nil => intro found seen r _ i hi; cases hi
  | cons idx rest ih =>
    intro found seen r hrun i hi
    simp only [runPatterns] at hrun
    cases hget : all[idx]? with
    | none => rw [hget] at hrun; cases hrun
    | some p =>
      rw [hget] at hrun
      rcases List.mem_cons.1 hi with rfl | hi
      · rcases List.getElem?_eq_some.1 hget with ⟨hlt, _⟩
        exact hlt
      · exact ih _ _ r hrun i hi

theorem runPatterns_append (env : Env) (all : List CompiledPattern) (content : Bytes)
    (filePath : String) (linePositions : List Int) (l1 l2 : List Nat) :
    ∀ (found : List Secret) (seen : List Bytes),
      runPatterns env all content filePath linePositions (l1 ++ l2) found seen =
        match runPatterns env all content filePath linePositions l1 found seen with
        | none => none
        | some r => runPatterns env all content filePath linePositions l2 r.1 r.2 := by
  induction l1 with
  | nil => intro found seen; simp [runPatterns]
  | cons idx rest ih =>
    intro found seen
    simp only [List.cons_append, runPatterns]
    cases all[idx]? with
    | none => rfl
    | some p => exact ih _ _

/-- A ready engine's `ScanContent` is one run over `scanOrder`. -/
theorem scanContent_eq_runPatterns (env : Env) (e : Engine) (content : Bytes)
    (filePath : String) (seen : List Bytes) (linePositions : List Int) (skipGeneric : Bool)
    (order : List Nat) (hready : e.IsReady = true) :
    ScanContent env e content filePath seen linePositions skipGeneric order =
      runPatterns env e.AllPatterns content filePath linePositions
        (scanOrder e skipGeneric order) [] seen := by
  unfold ScanContent scanOrder
  cases skipGeneric with
  | true => simp [hready, runPatterns]
  | false =>
    simp only [hready, Bool.not_true, Bool.not_false, if_true, Bool.false_eq_true, if_false]
    rw [runPatterns_append]

theorem dedupState_add {seen0 : List Bytes} {found : List Secret} {seen : List Bytes}
    (h : DedupState seen0 found seen) (s : Secret) (hv : s.Value ∉ seen) :
    DedupState seen0 (found ++ [s]) (s.Value :: seen) := by
  obtain ⟨hnd, hdis, hseen⟩ := h
  refine ⟨?_, ?_, ?_⟩
  · rw [List.map_append]
    refine List.Nodup.append hnd (by simp) ?_
    intro v h1 h2
    simp only [List.map_cons, List.map_nil, List.mem_singleton] at h2
    subst h2
    exact hv ((hseen _).2 (Or.inr h1))
  · intro v hin
    rw [List.map_append, List.mem_append] at hin
    rcases hin with hin | hin
    · exact hdis v hin
    · simp only [List.map_cons, List.map_nil, List.mem_singleton] at hin
      subst hin
      intro h0
      exact hv ((hseen _).2 (Or.inl h0))
  · intro v
    simp only [List.mem_cons, List.map_append, List.mem_append, List.map_cons, List.map_nil,
      List.mem_singleton, hseen v]
    tauto

theorem genericLoop_dedup (env : Env) (content : Bytes) (filePath : String)
    (linePositions : List Int) (ms : List (List Int)) :
    ∀ (seen0 : List Bytes) (found : List Secret) (seen : List Bytes),
      DedupState seen0 found seen →
      DedupState seen0 (genericLoop env content filePath linePositions ms found seen).1
        (genericLoop env content filePath linePositions ms found seen).2 := by
  induction ms with
  | nil => intro seen0 found seen h; exact h
  | cons mIdx rest ih =>
    intro seen0 found seen h
    simp only [genericLoop]
    split_ifs with h1 h2 h3 h4
    · exact ih _ _ _ h
    · exact ih _ _ _ h
    · exact ih _ _ _ h
    · exact ih _ _ _ (dedupState_add h _ (fun hin => h2 (Or.inl hin)))
    · exact ih _ _ _ h

theorem entropyLoop_dedup (env : Env) (content : Bytes) (filePath : String)
    (linePositions : List Int) (ms : List (List Int)) :
    ∀ (seen0 : List Bytes) (found : List Secret) (seen : List Bytes),
      DedupState seen0 found seen →
      DedupState seen0 (entropyLoop env content filePath linePositions ms found seen).1
        (entropyLoop env content filePath linePositions ms found seen).2 := by
  induction ms with
  | nil => intro seen0 found seen h; exact h
  | cons mIdx rest ih =>
    intro seen0 found seen h
    simp only [entropyLoop]
    split_ifs with h1 h2 h3 h4
    · exact ih _ _ _ h
    · exact ih _ _ _ h
    · exact ih _ _ _ h
    · exact ih _ _ _ (dedupState_add h _ h1)
    · exact ih _ _ _ h

/-- What `ScanContent` returns when it returns: the findings, with pairwise distinct values none
of which was seen before, are the values accepted by some evaluated pattern and not seen
before, each finding is the one its pattern builds for its value, and `seen` grows by exactly
those values. -/
theorem scanContent_spec (env : Env) (e : Engine) (content : Bytes) (filePath : String)
    (seen : List Bytes) (linePositions : List Int) (skipGeneric : Bool) (order : List Nat)
    (found : List Secret) (seen' : List Bytes) (hready : e.IsReady = true)
    (h : ScanContent env e content filePath seen linePositions skipGeneric order
      = some (found, seen')) :
    (∀ i ∈ scanOrder e skipGeneric order, i < e.AllPatterns.length) ∧
    seen' = (found.map Secret.Value).reverse ++ seen ∧
    (found.map Secret.Value).Nodup ∧
    (∀ v ∈ found.map Secret.Value, v ∉ seen) ∧
    (∀ v, v ∈ found.map Secret.Value ↔
      v ∉ seen ∧ ∃ i ∈ scanOrder e skipGeneric order, ∃ p, e.AllPatterns[i]? = some p ∧
        accepts env p content v) ∧
    (∀ s ∈ found, ∃ i ∈ scanOrder e skipGeneric order, ∃ p, e.AllPatterns[i]? = some p ∧
      s = templateFinding p content filePath linePositions s.Value) := by
  rw [scanContent_eq_runPatterns _ _ _ _ _ _ _ _ hready] at h
  have hr := runPatterns_inRange _ _ _ _ _ _ _ _ _ h
  obtain ⟨new, hrun, hnd, hdis, hmem, hdet⟩ :=
    runPatterns_spec env e.AllPatterns content filePath linePositions
      (scanOrder e skipGeneric order) [] seen hr
  rw [hrun] at h
  simp only [List.nil_append, Option.some.injEq, Prod.mk.injEq] at h
  obtain ⟨h1, h2⟩ := h
  subst h1
  exact ⟨hr, h2.symm, hnd, hdis, hmem, hdet⟩

/-- C9. Whenever `ScanContent` returns, its findings have pairwise distinct values, none of
which was in the caller's `seen` set, and the `seen` set it leaves is the caller's set with
exactly those values added; scanning the same content again with that set, in whatever order
the candidate patterns are visited, returns no finding. The two heuristic loops of
`scanSingleFile` keep the same discipline on the set they share, and so the findings of
`scanSingleFile` have pairwise distinct values, all in the file's `seen` set. -/
theorem scan_dedup :
    (∀ (env : Env) (e : Engine) (content : Bytes) (filePath : String) (seen : List Bytes)
        (linePositions : List Int) (skipGeneric : Bool) (order : List Nat)
        (found : List Secret) (seen' : List Bytes),
      ScanContent env e content filePath seen linePositions skipGeneric order
          = some (found, seen') →
        DedupState seen found seen' ∧
        ∀ order' : List Nat, (∀ i, i ∈ order' ↔ i ∈ order) →
          ScanContent env e content filePath seen' linePositions skipGeneric order'
            = some ([], seen')) ∧
    (∀ (env : Env) (content : Bytes) (filePath : String) (linePositions : List Int)
        (ms : List (List Int)) (seen0 : List Bytes) (found : List Secret) (seen : List Bytes),
      DedupState seen0 found seen →
        DedupState seen0 (genericLoop env content filePath linePositions ms found seen).1
          (genericLoop env content filePath linePositions ms found seen).2 ∧
        DedupState seen0 (entropyLoop env content filePath linePositions ms found seen).1
          (entropyLoop env content filePath linePositions ms found seen).2) ∧
    (∀ (env : Env) (loaded : Bool) (e : Engine) (skipGeneric : Bool) (filePath : String)
        (file : Option Bytes) (order : List Nat) (found : List Secret) (seen : List Bytes),
      scanSingleFileState env loaded e skipGeneric filePath file order = some (found, seen) →
        DedupState [] found seen) := by
  have hscan : ∀ (env : Env) (e : Engine) (content : Bytes) (filePath : String)
      (seen : List Bytes) (linePositions : List Int) (skipGeneric : Bool) (order : List Nat)
      (found : List Secret) (seen' : List Bytes),
      ScanContent env e content filePath seen linePositions skipGeneric order
          = some (found, seen') → DedupState seen found seen' := by
    intro env e content filePath seen linePositions skipGeneric order found seen' h
    by_cases hready : e.IsReady = true
    · obtain ⟨_, hs, hnd, hdis, _, _⟩ :=
        scanContent_spec env e content filePath seen linePositions skipGeneric order found seen'
          hready h
      refine ⟨hnd, hdis, ?_⟩
      intro v
      rw [hs]
      simp only [List.mem_append, List.mem_reverse]
      tauto
    · have hnr : e.IsReady = false := by simpa using hready
      simp only [ScanContent, hnr, Bool.not_false, if_true, Option.some.injEq,
        Prod.mk.injEq] at h
      obtain ⟨h1, h2⟩ := h
      subst h1 h2
      exact ⟨by simp, by simp, by simp⟩
  refine ⟨?_, ?_, ?_⟩
  · intro env e content filePath seen linePositions skipGeneric order found seen' h
    refine ⟨hscan _ _ _ _ _ _ _ _ _ _ h, ?_⟩
    intro order' hord
    by_cases hready : e.IsReady = true
    · obtain ⟨hr, hs, hnd, hdis, hmem, _⟩ :=
        scanContent_spec env e content filePath seen linePositions skipGeneric order found seen'
          hready h
      have hmemOrd : ∀ i, i ∈ scanOrder e skipGeneric order' ↔ i ∈ scanOrder e skipGeneric order := by
        intro i
        simp only [scanOrder, List.mem_append, hord i]
      have hr' : ∀ i ∈ scanOrder e skipGeneric order', i < e.AllPatterns.length :=
        fun i hi => hr i ((hmemOrd i).1 hi)
      obtain ⟨new, hrun, _, _, hmem2, _⟩ :=
        runPatterns_spec env e.AllPatterns content filePath linePositions
          (scanOrder e skipGeneric order') [] seen' hr'
      have hnil : new = [] := by
        apply List.eq_nil_iff_forall_not_mem.2
        intro s hs2
        have hv : s.Value ∈ new.map Secret.Value := List.mem_map.2 ⟨s, hs2, rfl⟩
        obtain ⟨hns, i, hi, p, hp, hacc⟩ := (hmem2 _).1 hv
        apply hns
        rw [hs]
        by_cases hin : s.Value ∈ seen
        · exact List.mem_append_right _ hin
        · apply List.mem_append_left
          rw [List.mem_reverse]
          exact (hmem _).2 ⟨hin, i, (hmemOrd i).1 hi, p, hp, hacc⟩
      rw [scanContent_eq_runPatterns _ _ _ _ _ _ _ _ hready, hrun, hnil]
      simp
    · have hnr : e.IsReady = false := by simpa using hready
      simp only [ScanContent, hnr, Bool.not_false, if_true, Option.some.injEq,
        Prod.mk.injEq] at h
      simp [ScanContent, hnr, h.2]
  · intro env content filePath linePositions ms seen0 found seen h
    exact ⟨genericLoop_dedup _ _ _ _ _ _ _ _ h, entropyLoop_dedup _ _ _ _ _ _ _ _ h⟩
  · intro env loaded e skipGeneric filePath file order found seen h
    have hempty : DedupState [] [] [] := ⟨by simp, by simp, by simp⟩
    cases file with
    | none =>
      simp only [scanSingleFileState, Option.some.injEq, Prod.mk.injEq] at h
      obtain ⟨h1, h2⟩ := h
      subst h1 h2
      exact hempty
    | some content =>
      simp only [scanSingleFileState] at h
      have hfirst : ∀ r : List Secret × List Bytes,
          (if loaded = true then
            ScanContent env e content filePath [] (buildLineIndex content) skipGeneric order
           else some ([], [])) = some r → DedupState [] r.1 r.2 := by
        intro r hr
        cases loaded with
        | true =>
          simp only [if_true] at hr
          exact hscan _ _ _ _ _ _ _ _ r.1 r.2 hr
        | false =>
          simp only [Bool.false_eq_true, if_false, Option.some.injEq] at hr
          subst hr
          exact hempty
      cases hsc : (if loaded = true then
            ScanContent env e content filePath [] (buildLineIndex content) skipGeneric order
           else some ([], [])) with
      | none => rw [hsc] at h; cases h
      | some r =>
        rw [hsc] at h
        have hd := hfirst r hsc
        simp only at h
        by_cases hne : r.1 ≠ []
        · rw [if_pos hne] at h
          cases h
          exact hd
        · rw [if_neg hne] at h
          cases skipGeneric with
          | true =>
            simp only [Bool.not_true, Bool.false_eq_true, if_false, Option.some.injEq] at h
            rw [h] at hd
            exact hd
          | false =>
            simp only [Bool.not_false, if_true, Option.some.injEq] at h
            have hg := genericLoop_dedup env content filePath (buildLineIndex content)
              (env.genericSecretRe content) [] r.1 r.2 hd
            have hh := entropyLoop_dedup env content filePath (buildLineIndex content)
              (env.stringLiteralRe content) [] _ _ hg
            rw [h] at hh
            exact hh

/-- C9, on a scan of `x\nghp_abc` by two patterns that both match `ghp_abc`: one finding, and
a second scan with the set the first one left returns none. -/
theorem scan_dedup_witness :
    ScanContent plainEnv (BuildEngine syntaxParse twoPatterns) (goBytes "x\nghp_abc") "a.js" []
        (buildLineIndex (goBytes "x\nghp_abc")) false [0, 1]
      = some ([templateFinding (mkPattern "first" "ghp_abc" (findLiteral "ghp_abc"))
          (goBytes "x\nghp_abc") "a.js" (buildLineIndex (goBytes "x\nghp_abc"))
          (goBytes "ghp_abc")], [goBytes "ghp_abc"]) ∧
    ScanContent plainEnv (BuildEngine syntaxParse twoPatterns) (goBytes "x\nghp_abc") "a.js"
        [goBytes "ghp_abc"] (buildLineIndex (goBytes "x\nghp_abc")) false [1, 0]
      = some ([], [goBytes "ghp_abc"]) :=
  ⟨by decide,
   (scan_dedup.1 plainEnv (BuildEngine syntaxParse twoPatterns) (goBytes "x\nghp_abc") "a.js" []
      (buildLineIndex (goBytes "x\nghp_abc")) false [0, 1]
      [templateFinding (mkPattern "first" "ghp_abc" (findLiteral "ghp_abc"))
          (goBytes "x\nghp_abc") "a.js" (buildLineIndex (goBytes "x\nghp_abc"))
          (goBytes "ghp_abc")] [goBytes "ghp_abc"] (by decide)).2 [1, 0]
      (by intro i; simp [or_comm])⟩

/-! ## Theorems: the pre-filter -/

theorem hasPrefix_iff (s sub : Bytes) : hasPrefix s sub = true ↔ sub <+: s := by
  induction s generalizing sub with
  | nil =>
    cases sub with
    | nil => simp [hasPrefix]
    | cons b sub => simp [hasPrefix]
  | cons a s ih =>
    cases sub with
    | nil => simp [hasPrefix]
    | cons b sub =>
      simp only [hasPrefix, List.cons_prefix_cons]
      by_cases h : a = b
      · simp [h, ih]
      · have h' : ¬ b = a := fun e => h e.symm
        simp [h, h']

theorem bytesIndexFrom_iff (sub s : Bytes) :
    ∀ pos : Int, 0 ≤ pos → (bytesIndexFrom sub s pos ≠ -1 ↔ sub <:+: s) := by
  induction s with
  | nil =>
    intro pos hpos
    simp only [bytesIndexFrom, List.infix_nil]
    by_cases h : sub = []
    · simp [h]; omega
    · simp [h]
  | cons a s ih =>
    intro pos hpos
    simp only [bytesIndexFrom]
    rw [List.infix_cons_iff]
    by_cases h : hasPrefix (a :: s) sub = true
    · simp only [h, if_true]
      constructor
      · intro _; exact Or.inl ((hasPrefix_iff _ _).1 h)
      · intro _; omega
    · have h' : hasPrefix (a :: s) sub = false := by simpa using h
      simp only [h', Bool.false_eq_true, if_false]
      rw [ih (pos + 1) (by omega)]
      constructor
      · intro h1; exact Or.inr h1
      · rintro (h1 | h1)
        · exact absurd ((hasPrefix_iff _ _).2 h1) h
        · exact h1

theorem bytesContains_iff (s sub : Bytes) : bytesContains s sub = true ↔ sub <:+: s := by
  unfold bytesContains bytesIndex
  rw [← bytesIndexFrom_iff sub s 0 (Int.le_refl 0)]
  simp

theorem slice_within (content : Bytes) (a b : Nat) : slice content a b <:+: content :=
  List.IsInfix.trans (List.take_prefix _ _).isInfix (List.drop_suffix _ _).isInfix

theorem mem_matcherMatch (dict : List String) (content : Bytes) (j : Nat) :
    j ∈ matcherMatch dict content ↔
      ∃ w, dict[j]? = some w ∧ bytesContains content (goBytes w) = true := by
  unfold matcherMatch
  simp only [List.mem_filterMap]
  constructor
  · rintro ⟨⟨i, w⟩, hin, hsome⟩
    by_cases hc : bytesContains content (goBytes w) = true
    · simp only [hc, if_true, Option.some.injEq] at hsome
      subst hsome
      exact ⟨w, List.mk_mem_enum_iff_getElem?.1 hin, hc⟩
    · simp [hc] at hsome
  · rintro ⟨w, hw, hc⟩
    exact ⟨(j, w), List.mk_mem_enum_iff_getElem?.2 hw, by simp [hc]⟩

theorem mem_foldl_goSetInsert (l : List Nat) :
    ∀ (acc : List Nat) (i : Nat), i ∈ l.foldl goSetInsert acc ↔ i ∈ acc ∨ i ∈ l := by
  induction l with
  | nil => intro acc i; simp
  | cons a rest ih =>
    intro acc i
    simp only [List.foldl_cons, ih, goSetInsert, List.mem_cons]
    by_cases h : a ∈ acc
    · simp only [h, if_true]
      constructor
      · rintro (h1 | h1)
        · exact Or.inl h1
        · exact Or.inr (Or.inr h1)
      · rintro (h1 | rfl | h1)
        · exact Or.inl h1
        · exact Or.inl h
        · exact Or.inr h1
    · simp only [h, if_false, List.mem_append, List.mem_singleton]
      tauto

theorem mem_patternsToCheck_aux (kim : List (Nat × List Nat)) (hits : List Nat) :
    ∀ (acc : List Nat) (i : Nat),
      i ∈ hits.foldl
          (fun acc matchIdx =>
            match goMapGet kim matchIdx with
            | some patternIndices => patternIndices.foldl goSetInsert acc
            | none => acc)
          acc ↔
        i ∈ acc ∨ ∃ j ∈ hits, ∃ l, goMapGet kim j = some l ∧ i ∈ l := by
  induction hits with
  | nil => intro acc i; simp
  | cons a rest ih =>
    intro acc i
    simp only [List.foldl_cons, ih, List.mem_cons, exists_eq_or_imp]
    cases hget : goMapGet kim a with
    | none => simp
    | some l =>
      simp only [mem_foldl_goSetInsert, Option.some.injEq, exists_eq_left']
      tauto

theorem mem_patternsToCheck (e : Engine) (content : Bytes) (i : Nat) :
    i ∈ patternsToCheck e content ↔
      ∃ j ∈ matcherMatch e.Matcher content, ∃ l, goMapGet e.KeywordIndexMap j = some l ∧ i ∈ l := by
  unfold patternsToCheck
  rw [mem_patternsToCheck_aux]
  simp

/-- The indices a built engine evaluates are in range, whatever the content. -/
theorem buildEngine_scanOrder_inRange (parse : String → Option Regexp)
    (patterns : List CompiledPattern) (content : Bytes) (skipGeneric : Bool) (order : List Nat)
    (hord : ∀ i ∈ order, i ∈ patternsToCheck (BuildEngine parse patterns) content) :
    ∀ i ∈ scanOrder (BuildEngine parse patterns) skipGeneric order, i < patterns.length := by
  have h := buildInv_final parse patterns
  intro i hi
  simp only [scanOrder, List.mem_append] at hi
  rcases hi with hi | hi
  · cases skipGeneric with
    | true => simp at hi
    | false =>
      simp only [Bool.false_eq_true, if_false] at hi
      exact ((h.fallback i).1 hi).1
  · obtain ⟨j, _, l, hl, hil⟩ := (mem_patternsToCheck _ _ _).1 (hord i hi)
    have : i ∈ (goMapGet (buildLoop parse patterns).KeywordIndexMap j).getD [] := by
      simp only [BuildEngine] at hl
      rw [hl]
      exact hil
    exact ((h.listed j i).1 this).1

/-- C3. For a pattern list in which every valid extracted keyword occurs in every match of its
pattern on the content, `ScanContent` on the built engine, with `skipGeneric = false`, an empty
`seen` set and any order of the candidate set, returns, and so does a run of `runSinglePattern`
over all patterns in turn from an empty `seen` set, and both report the same set of values. -/
theorem scanContent_eq_unfiltered (parse : String → Option Regexp) (env : Env)
    (patterns : List CompiledPattern) (content : Bytes) (filePath : String)
    (linePositions : List Int) (order : List Nat)
    (hnec : ∀ p ∈ patterns, IsValidKeyword (ExtractKeyword parse p.RegexString) = true →
      ∀ m ∈ p.Regex content,
        bytesContains (slice content m.1 m.2) (goBytes (ExtractKeyword parse p.RegexString))
          = true)
    (hord : order.Perm (patternsToCheck (BuildEngine parse patterns) content)) :
    ∃ (found : List Secret) (seen : List Bytes) (found2 : List Secret) (seen2 : List Bytes),
      ScanContent env (BuildEngine parse patterns) content filePath [] linePositions false order
        = some (found, seen) ∧
      runPatterns env patterns content filePath linePositions (List.range patterns.length) [] []
        = some (found2, seen2) ∧
      ∀ v, v ∈ found.map Secret.Value ↔ v ∈ found2.map Secret.Value := by
  have hinv := buildInv_final parse patterns
  have hr1 := buildEngine_scanOrder_inRange parse patterns content false order
    (fun i hi => hord.mem_iff.1 hi)
  have hr2 : ∀ i ∈ List.range patterns.length, i < patterns.length :=
    fun i hi => List.mem_range.1 hi
  obtain ⟨new1, hrun1, _, _, hmem1, _⟩ :=
    runPatterns_spec env patterns content filePath linePositions
      (scanOrder (BuildEngine parse patterns) false order) [] [] hr1
  obtain ⟨new2, hrun2, _, _, hmem2, _⟩ :=
    runPatterns_spec env patterns content filePath linePositions
      (List.range patterns.length) [] [] hr2
  refine ⟨new1, (new1.map Secret.Value).reverse, new2, (new2.map Secret.Value).reverse,
    ?_, ?_, ?_⟩
  · rw [scanContent_eq_runPatterns _ _ _ _ _ _ _ _ rfl]
    simpa using hrun1
  · simpa using hrun2
  · intro v
    rw [hmem1, hmem2]
    constructor
    · rintro ⟨hv, i, hi, p, hp, hacc⟩
      exact ⟨hv, i, List.mem_range.2 (hr1 i hi), p, hp, hacc⟩
    · rintro ⟨hv, i, hi, p, hp, hacc⟩
      refine ⟨hv, i, ?_, p, hp, hacc⟩
      have hlt : i < patterns.length := List.mem_range.1 hi
      simp only [scanOrder, Bool.false_eq_true, if_false, List.mem_append]
      cases hvalid : IsValidKeyword (kwOf parse p) with
      | false =>
        left
        exact (hinv.fallback i).2 ⟨hlt, p, hp, hvalid⟩
      | true =>
        right
        apply hord.mem_iff.2
        obtain ⟨m, hm, hsl, _⟩ := hacc
        have hsub := hnec p (List.getElem?_mem hp) hvalid m hm
        have hcontent : bytesContains content (goBytes (kwOf parse p)) = true := by
          rw [bytesContains_iff] at hsub ⊢
          exact List.IsInfix.trans hsub (slice_within content m.1 m.2)
        obtain ⟨j, hj⟩ := List.getElem?_of_mem (hinv.covered i p hlt hp hvalid)
        have hlisted : i ∈ (goMapGet (buildLoop parse patterns).KeywordIndexMap j).getD [] :=
          (hinv.listed j i).2 ⟨hlt, p, hp, hvalid, hj⟩
        apply (mem_patternsToCheck _ _ _).2
        refine ⟨j, (mem_matcherMatch _ _ _).2 ⟨kwOf parse p, hj, hcontent⟩, ?_⟩
        cases hget : goMapGet (buildLoop parse patterns).KeywordIndexMap j with
        | none => rw [hget] at hlisted; simp at hlisted
        | some l =>
          rw [hget] at hlisted
          exact ⟨l, hget, hlisted⟩

/-- C3, on two patterns that both require `ghp_abc` and the content `x\nghp_abc`. -/
theorem scanContent_eq_unfiltered_witness :
    ∃ (found : List Secret) (seen : List Bytes) (found2 : List Secret) (seen2 : List Bytes),
      ScanContent plainEnv (BuildEngine syntaxParse twoPatterns) (goBytes "x\nghp_abc") "a.js" []
        [0, 2] false [1, 0] = some (found, seen) ∧
      runPatterns plainEnv twoPatterns (goBytes "x\nghp_abc") "a.js" [0, 2]
        (List.range twoPatterns.length) [] [] = some (found2, seen2) ∧
      ∀ v, v ∈ found.map Secret.Value ↔ v ∈ found2.map Secret.Value :=
  scanContent_eq_unfiltered syntaxParse plainEnv twoPatterns (goBytes "x\nghp_abc") "a.js" [0, 2]
    [1, 0] (by decide) (by decide)

/-! ## Theorems: the order of the candidate map -/

/-- C10 (as stated, refuted). Two patterns require `ghp_abc` and match the same text of the
content `x\nghp_abc`. Both `[0, 1]` and `[1, 0]` are orders in which the candidate map can be
ranged over; with a fresh empty `seen` set each time, the first order reports the value under
the type `first` and the second under the type `second`. (The value `ghp_abc` trips none of
the false-positive tests of `secrets.go` and the patterns have no entropy gate, so the filters
of `plainEnv` answer as the real ones do here.) -/
theorem scanContent_type_depends_on_order :
    [0, 1].Perm (patternsToCheck (BuildEngine syntaxParse twoPatterns) (goBytes "x\nghp_abc")) ∧
    [1, 0].Perm (patternsToCheck (BuildEngine syntaxParse twoPatterns) (goBytes "x\nghp_abc")) ∧
    ScanContent plainEnv (BuildEngine syntaxParse twoPatterns) (goBytes "x\nghp_abc") "a.js" []
        (buildLineIndex (goBytes "x\nghp_abc")) false [0, 1]
      = some ([{ type := goBytes "first", Value := goBytes "ghp_abc", File := "a.js", Line := 2,
                 Detector := "Template (high)" }], [goBytes "ghp_abc"]) ∧
    ScanContent plainEnv (BuildEngine syntaxParse twoPatterns) (goBytes "x\nghp_abc") "a.js" []
        (buildLineIndex (goBytes "x\nghp_abc")) false [1, 0]
      = some ([{ type := goBytes "second", Value := goBytes "ghp_abc", File := "a.js", Line := 2,
                 Detector := "Template (high)" }], [goBytes "ghp_abc"]) ∧
    ({ type := goBytes "first", Value := goBytes "ghp_abc", File := "a.js", Line := 2,
       Detector := "Template (high)" } : Secret) ∉
      [({ type := goBytes "second", Value := goBytes "ghp_abc", File := "a.js", Line := 2,
          Detector := "Template (high)" } : Secret)] := by
  refine ⟨by decide, by decide, by decide, by decide, by decide⟩

/-- C10 (amended). Two scans of the same content with the same engine, each from a fresh empty
`seen` set, that range over the candidate map in two orders report the same set of values, each
with the same file and line; when the two orders are the same, the findings are the same. -/
theorem scanContent_values_order_independent (env : Env) (e : Engine) (content : Bytes)
    (filePath : String) (linePositions : List Int) (skipGeneric : Bool)
    (order1 order2 : List Nat) (r1 r2 : List Secret × List Bytes)
    (hperm : order1.Perm order2)
    (h1 : ScanContent env e content filePath [] linePositions skipGeneric order1 = some r1)
    (h2 : ScanContent env e content filePath [] linePositions skipGeneric order2 = some r2) :
    (∀ t, t ∈ r1.1.map (fun s => (s.Value, s.File, s.Line)) ↔
        t ∈ r2.1.map (fun s => (s.Value, s.File, s.Line))) ∧
    (order1 = order2 → r1 = r2) := by
  refine ⟨?_, ?_⟩
  · by_cases hready : e.IsReady = true
    · obtain ⟨_, _, _, _, hmemA, hdetA⟩ :=
        scanContent_spec env e content filePath [] linePositions skipGeneric order1 r1.1 r1.2
          hready h1
      obtain ⟨_, _, _, _, hmemB, hdetB⟩ :=
        scanContent_spec env e content filePath [] linePositions skipGeneric order2 r2.1 r2.2
          hready h2
      have hord : ∀ i, i ∈ scanOrder e skipGeneric order1 ↔ i ∈ scanOrder e skipGeneric order2 := by
        intro i
        simp only [scanOrder, List.mem_append, hperm.mem_iff]
      have hval : ∀ v, v ∈ r1.1.map Secret.Value ↔ v ∈ r2.1.map Secret.Value := by
        intro v
        rw [hmemA, hmemB]
        constructor
        · rintro ⟨hv, i, hi, rest⟩
          exact ⟨hv, i, (hord i).1 hi, rest⟩
        · rintro ⟨hv, i, hi, rest⟩
          exact ⟨hv, i, (hord i).2 hi, rest⟩
      have hfields : ∀ (found : List Secret) (order : List Nat),
          (∀ s ∈ found, ∃ i ∈ scanOrder e skipGeneric order, ∃ p, e.AllPatterns[i]? = some p ∧
            s = templateFinding p content filePath linePositions s.Value) →
          ∀ s ∈ found, (s.Value, s.File, s.Line) =
            (s.Value, filePath, getLineFromIndex linePositions (bytesIndex content s.Value)) := by
        intro found order hdet s hs
        obtain ⟨i, _, p, _, heq⟩ := hdet s hs
        have hf : s.File = filePath := by rw [heq]; rfl
        have hl : s.Line = getLineFromIndex linePositions (bytesIndex content s.Value) := by
          conv_lhs => rw [heq]
          rfl
        rw [hf, hl]
      have hside : ∀ (foundA foundB : List Secret),
          (∀ s ∈ foundA, (s.Value, s.File, s.Line) =
            (s.Value, filePath, getLineFromIndex linePositions (bytesIndex content s.Value))) →
          (∀ s ∈ foundB, (s.Value, s.File, s.Line) =
            (s.Value, filePath, getLineFromIndex linePositions (bytesIndex content s.Value))) →
          (∀ v, v ∈ foundA.map Secret.Value → v ∈ foundB.map Secret.Value) →
          ∀ t, t ∈ foundA.map (fun s => (s.Value, s.File, s.Line)) →
            t ∈ foundB.map (fun s => (s.Value, s.File, s.Line)) := by
        intro foundA foundB hA hB hsub t ht
        obtain ⟨s, hs, rfl⟩ := List.mem_map.1 ht
        obtain ⟨s', hs', hv'⟩ := List.mem_map.1 (hsub s.Value (List.mem_map.2 ⟨s, hs, rfl⟩))
        apply List.mem_map.2
        refine ⟨s', hs', ?_⟩
        show (s'.Value, s'.File, s'.Line) = (s.Value, s.File, s.Line)
        rw [hA s hs, hB s' hs', hv']
      intro t
      exact ⟨hside r1.1 r2.1 (hfields _ _ hdetA) (hfields _ _ hdetB) (fun v => (hval v).1) t,
        hside r2.1 r1.1 (hfields _ _ hdetB) (hfields _ _ hdetA) (fun v => (hval v).2) t⟩
    · have hnr : e.IsReady = false := by simpa using hready
      simp only [ScanContent, hnr, Bool.not_false, if_true, Option.some.injEq] at h1 h2
      rw [← h1, ← h2]
      intro t
      exact Iff.rfl
  · intro heq
    subst heq
    rw [h1] at h2
    exact Option.some.inj h2

/-- C10 (amended), on the two scans of the refutation: the value `ghp_abc` at line 2 of `a.js`,
reported by the first scan, is reported by the second one. -/
theorem scanContent_values_order_independent_witness :
    (goBytes "ghp_abc", "a.js", (2 : Int)) ∈
      List.map (fun s : Secret => (s.Value, s.File, s.Line))
        [{ type := goBytes "second", Value := goBytes "ghp_abc", File := "a.js", Line := 2,
           Detector := "Template (high)" }] :=
  ((scanContent_values_order_independent plainEnv (BuildEngine syntaxParse twoPatterns)
    (goBytes "x\nghp_abc") "a.js" (buildLineIndex (goBytes "x\nghp_abc")) false [0, 1] [1, 0]
    ([{ type := goBytes "first", Value := goBytes "ghp_abc", File := "a.js", Line := 2,
        Detector := "Template (high)" }], [goBytes "ghp_abc"])
    ([{ type := goBytes "second", Value := goBytes "ghp_abc", File := "a.js", Line := 2,
        Detector := "Template (high)" }], [goBytes "ghp_abc"])
    (by decide) (by decide) (by decide)).1 _).1 (by decide)

/-! ## Theorems: the line index -/

theorem buildLineIndexLoop_eq (rest : Bytes) :
    ∀ (i : Int) (positions : List Int),
      buildLineIndexLoop rest i positions =
        positions ++ ((List.range rest.length).filter (fun k => rest[k]? = some 10)).map
          (fun (k : Nat) => i + (k : Int) + 1) := by
  induction rest with
  | nil => intro i positions; simp [buildLineIndexLoop]
  | cons b rest ih =>
    intro i positions
    have hp : ((fun k => decide ((b :: rest)[k]? = some 10)) ∘ Nat.succ)
        = (fun k => decide (rest[k]? = some 10)) := by
      funext k
      simp
    have hf : ((fun (k : Nat) => i + (k : Int) + 1) ∘ Nat.succ)
        = (fun (k : Nat) => i + 1 + (k : Int) + 1) := by
      funext k
      simp only [Function.comp, Nat.succ_eq_add_one]
      push_cast
      ring
    simp only [buildLineIndexLoop, List.length_cons, List.range_succ_eq_map, List.filter_cons,
      List.filter_map, List.map_map, hp, hf]
    by_cases hb : b = 10
    · simp [hb, ih]
      intro a _ _
      ring
    · simp [hb, ih]
      intro a _ _
      ring

theorem buildLineIndexLoop_length (rest : Bytes) :
    ∀ (i : Int) (positions : List Int),
      (buildLineIndexLoop rest i positions).length = positions.length + rest.count 10 := by
  induction rest with
  | nil => intro i positions; simp [buildLineIndexLoop]
  | cons b rest ih =>
    intro i positions
    simp only [buildLineIndexLoop]
    by_cases hb : b = 10
    · subst hb
      simp [ih]
      omega
    · have hb' : ¬ (10 = b) := fun e => hb e.symm
      simp [hb, hb', ih, List.count_cons]

/-- C20. For every byte buffer, `buildLineIndex` returns `0` followed by `i + 1` for each
position `i` that holds a newline byte, in order of position; the list is strictly increasing
and its length is one plus the number of newline bytes; for `a\nb\nc` it is `[0, 2, 4]`. -/
theorem buildLineIndex_spec :
    (∀ content : Bytes, buildLineIndex content =
      0 :: ((List.range content.length).filter (fun i => content[i]? = some 10)).map
        (fun (i : Nat) => (i : Int) + 1)) ∧
    (∀ content : Bytes, (buildLineIndex content).Pairwise (· < ·)) ∧
    (∀ content : Bytes, (buildLineIndex content).length = 1 + content.count 10) ∧
    buildLineIndex (goBytes "a\nb\nc") = [0, 2, 4] := by
  have heq : ∀ content : Bytes, buildLineIndex content =
      0 :: ((List.range content.length).filter (fun i => content[i]? = some 10)).map
        (fun (i : Nat) => (i : Int) + 1) := by
    intro content
    unfold buildLineIndex
    rw [buildLineIndexLoop_eq]
    simp
  refine ⟨heq, ?_, ?_, by decide⟩
  · intro content
    rw [heq, List.pairwise_cons]
    refine ⟨?_, ?_⟩
    · intro a ha
      obtain ⟨k, _, rfl⟩ := List.mem_map.1 ha
      omega
    · apply List.Pairwise.map _ _ (List.Pairwise.filter _ (List.pairwise_lt_range _))
      intro a b hab
      omega
  · intro content
    unfold buildLineIndex
    rw [buildLineIndexLoop_length]
    simp

/-! ## Theorems: the entropy threshold -/

/-- C15 (as stated, refuted). The threshold for a length of 33 is not 4.5. -/
theorem getEntropyThreshold_33_ne :
    getEntropyThreshold 33 ≠ 9 / 2 := by
  norm_num [getEntropyThreshold]

/-- C15 (amended). The threshold is 5.0 for a length of 19 and 4.2 for a length of 33; 4.5 is
the threshold of the lengths from 20 to 31, such as 31. -/
theorem getEntropyThreshold_19_33 :
    getEntropyThreshold 19 = 5 ∧ getEntropyThreshold 33 = 21 / 5 ∧
    getEntropyThreshold 31 = 9 / 2 := by
  norm_num [getEntropyThreshold]

/-! ## Theorems: the line of a template finding -/

/-- C11, at the failing input. Every template finding carries the line of the first place at
which its text occurs in the content. The pattern `x?k_0` matches `xk_0` at offset 0 and `k_0`
at offset 5 of the content `xk_0\nk_0`; the second match starts on line 2, after one newline
byte, and is reported on line 1, where the same text occurs inside the first match. (Neither
text trips a false-positive test of `secrets.go`.) -/
theorem runSinglePattern_line_of_first_occurrence :
    (∀ (env : Env) (pattern : CompiledPattern) (content : Bytes) (filePath : String)
        (seen : List Bytes) (linePositions : List Int),
      ∀ s ∈ (runSinglePattern env pattern content filePath seen linePositions).1,
        s.Line = getLineFromIndex linePositions (bytesIndex content s.Value)) ∧
    optionalPattern.Regex (goBytes "xk_0\nk_0") = [(0, 4), (5, 8)] ∧
    slice (goBytes "xk_0\nk_0") 5 8 = goBytes "k_0" ∧
    1 + (((goBytes "xk_0\nk_0").take 5).count 10 : Int) = 2 ∧
    bytesIndex (goBytes "xk_0\nk_0") (goBytes "k_0") = 1 ∧
    (runSinglePattern plainEnv optionalPattern (goBytes "xk_0\nk_0") "a.js" []
        (buildLineIndex (goBytes "xk_0\nk_0"))).1
      = [{ type := goBytes "optional", Value := goBytes "xk_0", File := "a.js", Line := 1,
           Detector := "Template (high)" },
         { type := goBytes "optional", Value := goBytes "k_0", File := "a.js", Line := 1,
           Detector := "Template (high)" }] := by
  refine ⟨?_, by decide, by decide, by decide, by decide, by decide⟩
  intro env pattern content filePath seen linePositions s hs
  obtain ⟨new, hrun, _, _, _, hdet⟩ :=
    runMatches_spec env pattern content filePath linePositions (pattern.Regex content) [] seen
  simp only [runSinglePattern, hrun, List.nil_append] at hs
  have := hdet s hs
  conv_lhs => rw [this]
  rfl

/-! ## Theorems: the layers of `scanSingleFile` -/

/-- C12. When the template layer returns at least one finding for a file, `scanSingleFile`
returns exactly the findings of the template layer, whatever the two heuristics would find. -/
theorem scanSingleFile_template_only (env : Env) (e : Engine) (skipGeneric : Bool)
    (filePath : String) (content : Bytes) (order : List Nat) (found : List Secret)
    (seen : List Bytes)
    (h : ScanContent env e content filePath [] (buildLineIndex content) skipGeneric order
      = some (found, seen))
    (hne : found ≠ []) :
    scanSingleFile env true e skipGeneric filePath (some content) order = some found := by
  simp [scanSingleFile, scanSingleFileState, h, hne]

/-- C12, on the scan of `x\nghp_abc` by two patterns that match `ghp_abc`. -/
theorem scanSingleFile_template_only_witness :
    scanSingleFile plainEnv true (BuildEngine syntaxParse twoPatterns) false "a.js"
        (some (goBytes "x\nghp_abc")) [0, 1]
      = some [{ type := goBytes "first", Value := goBytes "ghp_abc", File := "a.js", Line := 2,
                Detector := "Template (high)" }] :=
  scanSingleFile_template_only plainEnv (BuildEngine syntaxParse twoPatterns) false "a.js"
    (goBytes "x\nghp_abc") [0, 1] _ [goBytes "ghp_abc"] (by decide) (by decide)

/-! ## Theorems: the entropy gate -/

theorem runMatches_congr (env env' : Env) (pattern : CompiledPattern) (content : Bytes)
    (filePath : String) (linePositions : List Int)
    (hp : ∀ v, passes env' pattern v = passes env pattern v) (ms : List (Nat × Nat)) :
    ∀ (results : List Secret) (seen : List Bytes),
      runMatches env' pattern content filePath linePositions ms results seen
        = runMatches env pattern content filePath linePositions ms results seen := by
  induction ms with
  | nil => intro results seen; simp [runMatches]
  | cons m rest ih =>
    intro results seen
    rw [runMatches_step, runMatches_step, hp, ih, ih]

/-- The gate as `runSinglePattern` applies it, for any entropy function: when the function is
never negative, a pattern with `EntropyCheck` set emits no finding for whose text the function
returns less than the pattern's `MinEntropy`; and for a pattern without `EntropyCheck` the
outcome does not depend on the entropy function at all. -/
theorem runSinglePattern_entropy_gate :
    (∀ (env : Env) (pattern : CompiledPattern) (content : Bytes) (filePath : String)
        (seen : List Bytes) (linePositions : List Int),
      (∀ v, 0 ≤ env.CalculateEntropy v) → pattern.EntropyCheck = true →
      ∀ s ∈ (runSinglePattern env pattern content filePath seen linePositions).1,
        ¬ env.CalculateEntropy s.Value < pattern.MinEntropy) ∧
    (∀ (env : Env) (entropy : Bytes → ℚ) (pattern : CompiledPattern) (content : Bytes)
        (filePath : String) (seen : List Bytes) (linePositions : List Int),
      pattern.EntropyCheck = false →
      runSinglePattern { env with CalculateEntropy := entropy } pattern content filePath seen
          linePositions
        = runSinglePattern env pattern content filePath seen linePositions) := by
  refine ⟨?_, ?_⟩
  · intro env pattern content filePath seen linePositions hnonneg hgate s hs
    obtain ⟨new, hrun, _, _, hmem, _⟩ :=
      runMatches_spec env pattern content filePath linePositions (pattern.Regex content) [] seen
    simp only [runSinglePattern, hrun, List.nil_append] at hs
    obtain ⟨_, m, _, _, hpass⟩ := (hmem s.Value).1 (List.mem_map.2 ⟨s, hs, rfl⟩)
    intro hlow
    by_cases hpos : pattern.MinEntropy > 0
    · simp [passes, hgate, hpos, hlow] at hpass
    · have h0 := hnonneg s.Value
      have : pattern.MinEntropy ≤ 0 := not_lt.1 hpos
      linarith
  · intro env entropy pattern content filePath seen linePositions hgate
    unfold runSinglePattern
    apply runMatches_congr
    intro v
    simp [passes, hgate]

/-- On a pattern with an entropy gate of 3 and a match for which the entropy function returns
2, nothing is reported. -/
theorem runSinglePattern_entropy_gate_example :
    (runSinglePattern { plainEnv with CalculateEntropy := fun _ => 2 }
        { mkPattern "gated" "ghp_abc" (findLiteral "ghp_abc") with
          EntropyCheck := true, MinEntropy := 3 }
        (goBytes "x\nghp_abc") "a.js" [] (buildLineIndex (goBytes "x\nghp_abc"))).1 = [] := by
  apply List.eq_nil_iff_forall_not_mem.2
  intro s hs
  have h := runSinglePattern_entropy_gate.1 { plainEnv with CalculateEntropy := fun _ => 2 }
    { mkPattern "gated" "ghp_abc" (findLiteral "ghp_abc") with
      EntropyCheck := true, MinEntropy := 3 }
    (goBytes "x\nghp_abc") "a.js" [] (buildLineIndex (goBytes "x\nghp_abc"))
    (by intro v; norm_num) rfl s hs
  apply h
  norm_num [mkPattern]

/-! ## Theorems: where a finding comes from -/

/-- Every finding a run over pattern indices appends is the finding one of those patterns builds
for a text that this very pattern accepts. -/
theorem runPatterns_sources (env : Env) (all : List CompiledPattern) (content : Bytes)
    (filePath : String) (linePositions : List Int) (idxs : List Nat) :
    ∀ (found : List Secret) (seen : List Bytes) (r : List Secret × List Bytes),
      runPatterns env all content filePath linePositions idxs found seen = some r →
      ∀ s ∈ r.1, s ∈ found ∨ TemplateFinding env all content filePath linePositions idxs s := by
  induction idxs with
  | nil =>
    intro found seen r h s hs
    simp only [runPatterns, Option.some.injEq] at h
    subst h
    exact Or.inl hs
  | cons idx rest ih =>
    intro found seen r h s hs
    simp only [runPatterns] at h
    cases hget : all[idx]? with
    | none => rw [hget] at h; cases h
    | some p =>
      rw [hget] at h
      simp only at h
      obtain ⟨new, hrun, _, _, hmem, hdet⟩ :=
        runMatches_spec env p content filePath linePositions (p.Regex content) [] seen
      rcases ih _ _ r h s hs with h1 | ⟨i, hi, q, hq, hacc, heq⟩
      · simp only [runSinglePattern, hrun, List.nil_append, List.mem_append] at h1
        rcases h1 with h1 | h1
        · exact Or.inl h1
        · right
          obtain ⟨_, m, hm, hsl, hp⟩ := (hmem s.Value).1 (List.mem_map.2 ⟨s, h1, rfl⟩)
          exact ⟨idx, List.mem_cons_self _ _, p, hget, ⟨m, hm, hsl, hp⟩, hdet s h1⟩
      · exact Or.inr ⟨i, List.mem_cons_of_mem _ hi, q, hq, hacc, heq⟩

theorem genericLoop_findings (env : Env) (content : Bytes) (filePath : String)
    (linePositions : List Int) (all : List (List Int)) (ms : List (List Int)) :
    ∀ (found : List Secret) (seen : List Bytes), (∀ mIdx ∈ ms, mIdx ∈ all) →
      ∀ s ∈ (genericLoop env content filePath linePositions ms found seen).1,
        s ∈ found ∨ KeyValueFinding env content filePath linePositions all s := by
  induction ms with
  | nil => intro found seen _ s hs; exact Or.inl hs
  | cons mIdx rest ih =>
    intro found seen hsub s hs
    have hrest : ∀ m ∈ rest, m ∈ all := fun m hm => hsub m (List.mem_cons_of_mem _ hm)
    simp only [genericLoop] at hs
    split_ifs at hs with h1 h2 h3 h4
    · exact ih _ _ hrest s hs
    · exact ih _ _ hrest s hs
    · exact ih _ _ hrest s hs
    · rcases ih _ _ hrest s hs with h5 | h5
      · rcases List.mem_append.1 h5 with h6 | h6
        · exact Or.inl h6
        · right
          simp only [List.mem_singleton] at h6
          refine ⟨mIdx, hsub mIdx (List.mem_cons_self _ _), by omega, h6, ?_, ?_, ?_, ?_, h4⟩
          · by_contra hlt
            exact h2 (Or.inr (by omega))
          · cases hv : env.isFalsePositiveVar (submatch content mIdx 2 3)
            · rfl
            · exact absurd (Or.inl hv) h3
          · cases hv : env.isFalsePositive (submatch content mIdx 4 5)
            · rfl
            · exact absurd (Or.inr (Or.inl hv)) h3
          · cases hv : env.isRepeatingPattern (submatch content mIdx 4 5)
            · rfl
            · exact absurd (Or.inr (Or.inr hv)) h3
      · exact Or.inr h5
    · exact ih _ _ hrest s hs

theorem entropyLoop_findings (env : Env) (content : Bytes) (filePath : String)
    (linePositions : List Int) (all : List (List Int)) (ms : List (List Int)) :
    ∀ (found : List Secret) (seen : List Bytes), (∀ mIdx ∈ ms, mIdx ∈ all) →
      ∀ s ∈ (entropyLoop env content filePath linePositions ms found seen).1,
        s ∈ found ∨ PureEntropyFinding env content filePath linePositions all s := by
  induction ms with
  | nil => intro found seen _ s hs; exact Or.inl hs
  | cons mIdx rest ih =>
    intro found seen hsub s hs
    have hrest : ∀ m ∈ rest, m ∈ all := fun m hm => hsub m (List.mem_cons_of_mem _ hm)
    simp only [entropyLoop] at hs
    split_ifs at hs with h1 h2 h3 h4
    · exact ih _ _ hrest s hs
    · exact ih _ _ hrest s hs
    · exact ih _ _ hrest s hs
    · rcases ih _ _ hrest s hs with h5 | h5
      · rcases List.mem_append.1 h5 with h6 | h6
        · exact Or.inl h6
        · right
          simp only [List.mem_singleton] at h6
          refine ⟨mIdx, hsub mIdx (List.mem_cons_self _ _), h6,
            fun h => h3 (Or.inl h), fun h => h3 (Or.inr (Or.inl h)),
            fun h => h3 (Or.inr (Or.inr h)), ?_, ?_, h4⟩
          · cases hv : env.isFalsePositive (submatch content mIdx 2 3)
            · rfl
            · exact absurd (Or.inl hv) h2
          · cases hv : env.isRepeatingPattern (submatch content mIdx 2 3)
            · rfl
            · exact absurd (Or.inr hv) h2
      · exact Or.inr h5
    · exact ih _ _ hrest s hs

/-- Every finding `ScanContent` returns is a template finding of an evaluated pattern. -/
theorem scanContent_findings (env : Env) (e : Engine) (content : Bytes) (filePath : String)
    (seen : List Bytes) (linePositions : List Int) (skipGeneric : Bool) (order : List Nat)
    (r : List Secret × List Bytes)
    (h : ScanContent env e content filePath seen linePositions skipGeneric order = some r) :
    ∀ s ∈ r.1, TemplateFinding env e.AllPatterns content filePath linePositions
      (scanOrder e skipGeneric order) s := by
  intro s hs
  by_cases hready : e.IsReady = true
  · rw [scanContent_eq_runPatterns _ _ _ _ _ _ _ _ hready] at h
    rcases runPatterns_sources _ _ _ _ _ _ _ _ r h s hs with h1 | h1
    · cases h1
    · exact h1
  · have hnr : e.IsReady = false := by simpa using hready
    simp only [ScanContent, hnr, Bool.not_false, if_true, Option.some.injEq] at h
    subst h
    cases hs

/-- Every finding of `scanSingleFile` is a template finding, or, when `skipGeneric` is off, a
finding of the key=value heuristic or of the pure-entropy heuristic. -/
theorem scanSingleFile_findings (env : Env) (loaded : Bool) (e : Engine) (skipGeneric : Bool)
    (filePath : String) (content : Bytes) (order : List Nat) (found : List Secret)
    (h : scanSingleFile env loaded e skipGeneric filePath (some content) order = some found) :
    ∀ s ∈ found,
      (loaded = true ∧ TemplateFinding env e.AllPatterns content filePath
        (buildLineIndex content) (scanOrder e skipGeneric order) s) ∨
      (skipGeneric = false ∧ KeyValueFinding env content filePath (buildLineIndex content)
        (env.genericSecretRe content) s) ∨
      (skipGeneric = false ∧ PureEntropyFinding env content filePath (buildLineIndex content)
        (env.stringLiteralRe content) s) := by
  intro s hs
  simp only [scanSingleFile, scanSingleFileState] at h
  cases hsc : (if loaded = true then
        ScanContent env e content filePath [] (buildLineIndex content) skipGeneric order
       else some ([], [])) with
  | none => rw [hsc] at h; simp at h
  | some r =>
    rw [hsc] at h
    have htemp : ∀ s ∈ r.1, loaded = true ∧ TemplateFinding env e.AllPatterns content filePath
        (buildLineIndex content) (scanOrder e skipGeneric order) s := by
      intro t ht
      cases loaded with
      | true =>
        simp only [if_true] at hsc
        exact ⟨rfl, scanContent_findings _ _ _ _ _ _ _ _ r hsc t ht⟩
      | false =>
        simp only [Bool.false_eq_true, if_false, Option.some.injEq] at hsc
        subst hsc
        cases ht
    simp only [Option.map_some', Option.some.injEq] at h
    by_cases hne : r.1 ≠ []
    · rw [if_pos hne] at h
      simp only [Option.map_some', Option.some.injEq] at h
      rw [← h] at hs
      exact Or.inl (htemp s hs)
    · rw [if_neg hne] at h
      simp only [Option.map_some', Option.some.injEq] at h
      cases skipGeneric with
      | true =>
        simp only [Bool.not_true, Bool.false_eq_true, if_false] at h
        rw [← h] at hs
        exact Or.inl (htemp s hs)
      | false =>
        simp only [Bool.not_false, if_true] at h
        rw [← h] at hs
        rcases entropyLoop_findings env content filePath (buildLineIndex content)
            (env.stringLiteralRe content) (env.stringLiteralRe content) _ _
            (fun m hm => hm) s hs with h1 | h1
        · rcases genericLoop_findings env content filePath (buildLineIndex content)
              (env.genericSecretRe content) (env.genericSecretRe content) _ _
              (fun m hm => hm) s h1 with h2 | h2
          · exact Or.inl (htemp s h2)
          · exact Or.inr (Or.inl ⟨rfl, h2⟩)
        · exact Or.inr (Or.inr ⟨rfl, h1⟩)

theorem template_detector_ne (severity : String) :
    "Template (" ++ severity ++ ")" ≠ "Regex (Entropy)" ∧
    "Template (" ++ severity ++ ")" ≠ "Entropy (Pure)" := by
  constructor
  · intro h
    have := congrArg String.data h
    simp only [String.data_append] at this
    exact absurd (List.cons.inj this).1 (by decide)
  · intro h
    have := congrArg String.data h
    simp only [String.data_append] at this
    exact absurd (List.cons.inj this).1 (by decide)

theorem templateFinding_detector_ne {env : Env} {all : List CompiledPattern} {content : Bytes}
    {filePath : String} {linePositions : List Int} {idxs : List Nat} {s : Secret}
    (h : TemplateFinding env all content filePath linePositions idxs s) :
    s.Detector ≠ "Regex (Entropy)" ∧ s.Detector ≠ "Entropy (Pure)" := by
  obtain ⟨i, _, p, _, _, heq⟩ := h
  have hd : s.Detector = "Template (" ++ p.Severity ++ ")" := by
    conv_lhs => rw [heq]
    rfl
  rw [hd]
  exact template_detector_ne p.Severity

/-- C13. With `skipGeneric = true`, every finding `scanSingleFile` returns is the template
finding of a pattern that is listed in the keyword index under a dictionary word occurring in
the content, and that matches the finding's value; no finding carries the detector of a
heuristic; when no candidate pattern has a match in the content there is no finding; and the
outcome is the same whatever the fallback list holds. -/
theorem scanSingleFile_skipGeneric (env : Env) (loaded : Bool) (e : Engine) (filePath : String)
    (content : Bytes) (order : List Nat) (found : List Secret)
    (hord : ∀ i ∈ order, i ∈ patternsToCheck e content)
    (h : scanSingleFile env loaded e true filePath (some content) order = some found) :
    (∀ s ∈ found, ∃ i p j w l, e.AllPatterns[i]? = some p ∧
        goMapGet e.KeywordIndexMap j = some l ∧ i ∈ l ∧ e.Matcher[j]? = some w ∧
        bytesContains content (goBytes w) = true ∧ accepts env p content s.Value ∧
        s = templateFinding p content filePath (buildLineIndex content) s.Value) ∧
    (∀ s ∈ found, s.Detector ≠ "Regex (Entropy)" ∧ s.Detector ≠ "Entropy (Pure)") ∧
    ((∀ i ∈ order, ∀ p, e.AllPatterns[i]? = some p → p.Regex content = []) → found = []) ∧
    (∀ fallback : List Nat,
      scanSingleFile env loaded { e with FallbackPatterns := fallback } true filePath
        (some content) order = some found) := by
  have hall : ∀ s ∈ found, TemplateFinding env e.AllPatterns content filePath
      (buildLineIndex content) order s := by
    intro s hs
    rcases scanSingleFile_findings env loaded e true filePath content order found h s hs
      with ⟨_, h1⟩ | ⟨h1, _⟩ | ⟨h1, _⟩
    · simpa [scanOrder] using h1
    · cases h1
    · cases h1
  refine ⟨?_, ?_, ?_, ?_⟩
  · intro s hs
    obtain ⟨i, hi, p, hp, hacc, heq⟩ := hall s hs
    obtain ⟨j, hj, l, hl, hil⟩ := (mem_patternsToCheck e content i).1 (hord i hi)
    obtain ⟨w, hw, hc⟩ := (mem_matcherMatch _ _ _).1 hj
    exact ⟨i, p, j, w, l, hp, hl, hil, hw, hc, hacc, heq⟩
  · intro s hs
    exact templateFinding_detector_ne (hall s hs)
  · intro hnone
    apply List.eq_nil_iff_forall_not_mem.2
    intro s hs
    obtain ⟨i, hi, p, hp, ⟨m, hm, _, _⟩, _⟩ := hall s hs
    rw [hnone i hi p hp] at hm
    cases hm
  · intro fallback
    rw [← h]
    simp only [scanSingleFile, scanSingleFileState, ScanContent]
    simp

/-- C13, on the scan of `x\nghp_abc` by two patterns listed under the keyword `ghp_abc`: the
finding does not carry the detector of a heuristic. -/
theorem scanSingleFile_skipGeneric_witness :
    ({ type := goBytes "first", Value := goBytes "ghp_abc", File := "a.js", Line := 2,
       Detector := "Template (high)" } : Secret).Detector ≠ "Regex (Entropy)" ∧
    ({ type := goBytes "first", Value := goBytes "ghp_abc", File := "a.js", Line := 2,
       Detector := "Template (high)" } : Secret).Detector ≠ "Entropy (Pure)" :=
  (scanSingleFile_skipGeneric plainEnv true (BuildEngine syntaxParse twoPatterns) "a.js"
    (goBytes "x\nghp_abc") [0, 1]
    [{ type := goBytes "first", Value := goBytes "ghp_abc", File := "a.js", Line := 2,
       Detector := "Template (high)" }]
    (by decide) (by decide)).2.1 _ (List.mem_singleton.2 rfl)

/-- C14. Every finding of `scanSingleFile` with detector `Regex (Entropy)` has the type
`Potential Secret: ` followed by a variable name that is not a false-positive name, and a value
of at least 16 bytes that is not a false positive, not a repeating pattern, and whose entropy
is strictly greater than `getEntropyThreshold` of its length; the threshold is 5.0 below 20,
4.5 from 20 and below 32, 4.2 from 32 and below 48, and 4.0 from 48 on. -/
theorem keyValue_finding_properties (env : Env) (loaded : Bool) (e : Engine)
    (skipGeneric : Bool) (filePath : String) (content : Bytes) (order : List Nat)
    (found : List Secret)
    (h : scanSingleFile env loaded e skipGeneric filePath (some content) order = some found) :
    (∀ s ∈ found, s.Detector = "Regex (Entropy)" →
      (∃ varName, s.type = goBytes "Potential Secret: " ++ varName ∧
        env.isFalsePositiveVar varName = false) ∧
      16 ≤ s.Value.length ∧ env.isFalsePositive s.Value = false ∧
      env.isRepeatingPattern s.Value = false ∧
      env.CalculateEntropy s.Value > getEntropyThreshold s.Value.length) ∧
    (∀ n : Int, (n < 20 → getEntropyThreshold n = 5) ∧
      (20 ≤ n → n < 32 → getEntropyThreshold n = 9 / 2) ∧
      (32 ≤ n → n < 48 → getEntropyThreshold n = 21 / 5) ∧
      (48 ≤ n → getEntropyThreshold n = 4)) := by
  refine ⟨?_, ?_⟩
  · intro s hs hdet
    rcases scanSingleFile_findings env loaded e skipGeneric filePath content order found h s hs
      with ⟨_, h1⟩ | ⟨_, h1⟩ | ⟨_, h1⟩
    · exact absurd hdet (templateFinding_detector_ne h1).1
    · obtain ⟨mIdx, _, _, heq, hlen, hvar, hfp, hrep, hent⟩ := h1
      subst heq
      exact ⟨⟨_, rfl, hvar⟩, hlen, hfp, hrep, hent⟩
    · obtain ⟨mIdx, _, heq, _⟩ := h1
      subst heq
      exact absurd hdet (show ("Entropy (Pure)" : String) ≠ "Regex (Entropy)" by decide)
  · intro n
    unfold getEntropyThreshold
    refine ⟨?_, ?_, ?_, ?_⟩
    · intro h1; simp [h1]
    · intro h1 h2
      have : ¬ n < 20 := by omega
      simp [this, h2]
    · intro h1 h2
      have : ¬ n < 20 := by omega
      have h3 : ¬ n < 32 := by omega
      simp [this, h3, h2]
    · intro h1
      have : ¬ n < 20 := by omega
      have h3 : ¬ n < 32 := by omega
      have h4 : ¬ n < 48 := by omega
      simp [this, h3, h4]

/-- C14, on a file that assigns a 48-byte value of entropy 5.585 to `api_key`: the finding's
entropy is above the threshold of its length. -/
theorem keyValue_finding_properties_witness :
    keyValueEnv.CalculateEntropy (goBytes "aK9_mZq2Xw7Lp4Rt6Yv8Bn0CdEfGhIjJkMoOsSuUxVyWz1-3")
      > getEntropyThreshold (goBytes "aK9_mZq2Xw7Lp4Rt6Yv8Bn0CdEfGhIjJkMoOsSuUxVyWz1-3").length :=
  ((keyValue_finding_properties keyValueEnv false (BuildEngine syntaxParse []) false "a.js"
    keyValueContent []
    [{ type := goBytes "Potential Secret: api_key", Value := goBytes "aK9_mZq2Xw7Lp4Rt6Yv8Bn0CdEfGhIjJkMoOsSuUxVyWz1-3",
       File := "a.js", Line := 1, Detector := "Regex (Entropy)" }]
    (by decide)).1 _ (List.mem_singleton.2 rfl) rfl).2.2.2.2

/-! ## Theorems: the false-positive filter -/

theorem isFalsePositive_of_substring (matchesFpPattern : Bytes → Bool) (val : Bytes) (w : String)
    (hw : w ∈ fpSubstrings) (hc : bytesContains (toLowerBytes val) (goBytes w) = true) :
    isFalsePositive matchesFpPattern val = true := by
  simp only [fpSubstrings, List.mem_cons, List.mem_singleton, List.not_mem_nil, or_false] at hw
  unfold isFalsePositive
  rcases hw with rfl | rfl | rfl | rfl | rfl | rfl | rfl | rfl <;> simp [hc]

theorem accepts_not_falsePositive {env : Env} {p : CompiledPattern} {content v : Bytes}
    (h : accepts env p content v) : env.isFalsePositive v = false := by
  obtain ⟨_, _, _, hp⟩ := h
  simp only [passes, Bool.and_eq_true, Bool.not_eq_true'] at hp
  exact hp.1

/-- C18. When the filter of the scan is `isFalsePositive`, no finding of `scanSingleFile`, of
whichever layer, has a value whose lower-cased form contains one of the words `example`, `test`,
`sample`, `placeholder`, `dummy`, `mock`, `localhost`, `127.0.0.1`; and `isFalsePositive` is
true of every value whose lower-cased form contains one of them. -/
theorem no_finding_contains_fpSubstring (matchesFpPattern : Bytes → Bool) (env : Env)
    (loaded : Bool) (e : Engine) (skipGeneric : Bool) (filePath : String) (content : Bytes)
    (order : List Nat) (found : List Secret)
    (henv : env.isFalsePositive = isFalsePositive matchesFpPattern)
    (h : scanSingleFile env loaded e skipGeneric filePath (some content) order = some found) :
    (∀ s ∈ found, ∀ w ∈ fpSubstrings,
      bytesContains (toLowerBytes s.Value) (goBytes w) = false) ∧
    (∀ val : Bytes, ∀ w ∈ fpSubstrings,
      bytesContains (toLowerBytes val) (goBytes w) = true →
        isFalsePositive matchesFpPattern val = true) := by
  refine ⟨?_, fun val w hw hc => isFalsePositive_of_substring matchesFpPattern val w hw hc⟩
  intro s hs w hw
  have hfp : env.isFalsePositive s.Value = false := by
    rcases scanSingleFile_findings env loaded e skipGeneric filePath content order found h s hs
      with ⟨_, h1⟩ | ⟨_, h1⟩ | ⟨_, h1⟩
    · obtain ⟨i, _, p, _, hacc, _⟩ := h1
      exact accepts_not_falsePositive hacc
    · obtain ⟨mIdx, _, _, heq, _, _, hfp, _⟩ := h1
      rw [heq]
      exact hfp
    · obtain ⟨mIdx, _, heq, _, _, _, hfp, _⟩ := h1
      rw [heq]
      exact hfp
  rw [henv] at hfp
  cases hc : bytesContains (toLowerBytes s.Value) (goBytes w)
  · rfl
  · rw [isFalsePositive_of_substring matchesFpPattern s.Value w hw hc] at hfp
    cases hfp

/-- C18, on the content `ghp_TEST\nghp_abc` scanned by the literal patterns `ghp_TEST` and
`ghp_abc`: the match `ghp_TEST` is dropped, and the value of the only finding, `ghp_abc`, does
not contain `test`. -/
theorem no_finding_contains_fpSubstring_witness :
    bytesContains (toLowerBytes (goBytes "ghp_abc")) (goBytes "test") = false :=
  (no_finding_contains_fpSubstring (fun _ => false) substringEnv true
    (BuildEngine syntaxParse mixedPatterns) false "a.js" (goBytes "ghp_TEST\nghp_abc") [0, 1]
    [{ type := goBytes "lower", Value := goBytes "ghp_abc", File := "a.js", Line := 2,
       Detector := "Template (high)" }]
    rfl (by decide)).1 _ (List.mem_singleton.2 rfl) "test" (by decide)

/-! ## Theorems: `isRepeatingPattern` -/

theorem goMapGet_of_mem {κ ν : Type} [DecidableEq κ] (M : List (κ × ν)) (k : κ) (v : ν)
    (hnd : (M.map Prod.fst).Nodup) (hmem : (k, v) ∈ M) : goMapGet M k = some v := by
  induction M with
  | nil => cases hmem
  | cons kv rest ih =>
    obtain ⟨k', v'⟩ := kv
    simp only [List.map_cons, List.nodup_cons] at hnd
    rcases List.mem_cons.1 hmem with h | h
    · cases h
      simp [goMapGet]
    · have hne : k' ≠ k := by
        intro e
        subst e
        exact hnd.1 (List.mem_map.2 ⟨(k', v), h, rfl⟩)
      simp only [goMapGet, hne, if_false]
      exact ih hnd.2 h

theorem mem_of_goMapGet {κ ν : Type} [DecidableEq κ] (M : List (κ × ν)) (k : κ) (v : ν)
    (h : goMapGet M k = some v) : (k, v) ∈ M := by
  induction M with
  | nil => simp [goMapGet] at h
  | cons kv rest ih =>
    obtain ⟨k', v'⟩ := kv
    by_cases hk : k' = k
    · subst hk
      simp only [goMapGet, if_true, Option.some.injEq] at h
      subst h
      exact List.mem_cons_self _ _
    · simp only [goMapGet, hk, if_false] at h
      exact List.mem_cons_of_mem _ (ih h)

theorem countFold_spec (l : List Nat) :
    ∀ (m : List (Nat × Nat)), (m.map Prod.fst).Nodup →
      ((l.foldl (fun m c => goMapSet m c ((goMapGet m c).getD 0 + 1)) m).map Prod.fst).Nodup ∧
      ∀ c, (goMapGet (l.foldl (fun m c => goMapSet m c ((goMapGet m c).getD 0 + 1)) m) c).getD 0
        = (goMapGet m c).getD 0 + l.count c := by
  induction l with
  | nil => intro m hm; exact ⟨hm, fun c => by simp⟩
  | cons a rest ih =>
    intro m hm
    have hm' : ((goMapSet m a ((goMapGet m a).getD 0 + 1)).map Prod.fst).Nodup := by
      rw [keys_goMapSet]
      split_ifs with h
      · exact hm
      · exact List.Nodup.append hm (List.nodup_singleton _) (by simpa using h)
    obtain ⟨h1, h2⟩ := ih _ hm'
    refine ⟨h1, ?_⟩
    intro c
    simp only [List.foldl_cons]
    rw [h2 c]
    by_cases hc : c = a
    · subst hc
      rw [goMapGet_set_self]
      simp [List.count_cons]
      omega
    · rw [goMapGet_set_ne _ _ _ _ hc]
      have hc' : ¬ a = c := fun e => hc e.symm
      simp [List.count_cons, hc']

theorem charCounts_any (s : Bytes) (hlen : 0 < s.length) :
    (charCounts s).any (fun kv => decide ((kv.2 : ℚ) / (s.length : ℚ) > 3 / 5)) = true ↔
      ∃ c, 5 * (runes s).count c > 3 * s.length := by
  obtain ⟨hnd, hcount⟩ := countFold_spec (runes s) [] (by simp)
  have hcount' : ∀ c, (goMapGet (charCounts s) c).getD 0 = (runes s).count c := by
    intro c
    have := hcount c
    simpa [goMapGet, charCounts] using this
  have hpos : (0 : ℚ) < (s.length : ℚ) := by exact_mod_cast hlen
  have hiff : ∀ n : Nat, ((n : ℚ) / (s.length : ℚ) > 3 / 5) ↔ 5 * n > 3 * s.length := by
    intro n
    rw [gt_iff_lt, lt_div_iff₀ hpos]
    constructor
    · intro h
      have h' : (3 * (s.length : ℚ)) < 5 * (n : ℚ) := by linarith
      exact_mod_cast h'
    · intro h
      have h' : (3 * (s.length : ℚ)) < 5 * (n : ℚ) := by exact_mod_cast h
      linarith
  rw [List.any_eq_true]
  constructor
  · rintro ⟨⟨c, n⟩, hmem, hp⟩
    have hget := goMapGet_of_mem (charCounts s) c n hnd hmem
    have hn : n = (runes s).count c := by
      have := hcount' c
      rw [hget] at this
      simpa using this
    refine ⟨c, ?_⟩
    rw [← hn]
    exact (hiff n).1 (by simpa using hp)
  · rintro ⟨c, hc⟩
    have hne : (runes s).count c ≠ 0 := by
      intro h0
      rw [h0] at hc
      omega
    have hget : goMapGet (charCounts s) c = some ((runes s).count c) := by
      have := hcount' c
      cases hg : goMapGet (charCounts s) c with
      | none => rw [hg] at this; simp at this; exact absurd this.symm hne
      | some n => rw [hg] at this; simp at this; rw [this]
    refine ⟨(c, (runes s).count c), mem_of_goMapGet _ _ _ hget, ?_⟩
    simpa using (hiff _).2 hc

/-- What `isRepeatingPattern` computes, for every string: the count of a character is a count
of runes and the length is the number of bytes. -/
theorem isRepeatingPattern_iff (s : Bytes) :
    isRepeatingPattern s = true ↔
      4 ≤ s.length ∧
        ((∃ c, 5 * (runes s).count c > 3 * s.length) ∨
          (6 ≤ s.length ∧
            (s.take (s.length / 2) ++ s.take (s.length / 2)) <:+: s)) := by
  unfold isRepeatingPattern
  by_cases h4 : s.length < 4
  · rw [if_pos h4]
    constructor
    · intro h; cases h
    · intro h; omega
  · have hlen : 0 < s.length := by omega
    rw [if_neg h4]
    by_cases hany : (charCounts s).any
        (fun kv => decide ((kv.2 : ℚ) / (s.length : ℚ) > 3 / 5)) = true
    · rw [if_pos hany]
      exact ⟨fun _ => ⟨by omega, Or.inl ((charCounts_any s hlen).1 hany)⟩, fun _ => rfl⟩
    · have hnone : ¬ ∃ c, 5 * (runes s).count c > 3 * s.length :=
        fun h => hany ((charCounts_any s hlen).2 h)
      rw [if_neg hany]
      by_cases h6 : s.length ≥ 6
      · rw [if_pos h6]
        by_cases hc : bytesContains s (s.take (s.length / 2) ++ s.take (s.length / 2)) = true
        · rw [if_pos hc]
          exact ⟨fun _ => ⟨by omega, Or.inr ⟨h6, (bytesContains_iff _ _).1 hc⟩⟩, fun _ => rfl⟩
        · rw [if_neg hc]
          constructor
          · intro h; cases h
          · rintro ⟨_, h | ⟨_, h⟩⟩
            · exact absurd h hnone
            · exact absurd ((bytesContains_iff _ _).2 h) hc
      · rw [if_neg h6]
        constructor
        · intro h; cases h
        · rintro ⟨_, h | ⟨h, _⟩⟩
          · exact absurd h hnone
          · exact absurd h h6

theorem runesFrom_ascii (s : Bytes) (hascii : ∀ b ∈ s, b < 128) : runesFrom s 0 = s := by
  induction s with
  | nil => rfl
  | cons b rest ih =>
    have hb : b < 128 := hascii b (List.mem_cons_self _ _)
    have hd : decodeRune (b :: rest) = (b, 1) := by
      simp only [decodeRune]
      rw [if_pos (by omega)]
    unfold runesFrom
    rw [if_neg (by omega), hd]
    simp only [Nat.sub_self]
    rw [ih (fun c hc => hascii c (List.mem_cons_of_mem _ hc))]

/-- C19 (as stated, refuted). In `aaa` the character `a` makes up all three characters of the
string, more than 60% of it, and `isRepeatingPattern("aaa")` is false. -/
theorem isRepeatingPattern_short_refutes :
    ¬ (isRepeatingPattern (goBytes "aaa") = true ↔
        ((∃ c, 5 * (runes (goBytes "aaa")).count c > 3 * (runes (goBytes "aaa")).length) ∨
          ((goBytes "aaa").take ((goBytes "aaa").length / 2)
            ++ (goBytes "aaa").take ((goBytes "aaa").length / 2)) <:+: goBytes "aaa")) := by
  intro h
  have hv : isRepeatingPattern (goBytes "aaa") = true :=
    h.2 (Or.inl ⟨97, by decide⟩)
  exact absurd hv (by decide)

/-- C19 (amended). `isRepeatingPattern(s)` is false for every string of fewer than 4 bytes. For
every ASCII string `s`, whose characters are its bytes, it is true exactly when `s` has at
least 4 characters and either some character makes up more than 60% of `s`, or `s` has at least
6 characters and its first half (`len(s)/2` characters) written twice in a row occurs in `s`. -/
theorem isRepeatingPattern_ascii_iff :
    (∀ s : Bytes, s.length < 4 → isRepeatingPattern s = false) ∧
    (∀ s : Bytes, (∀ b ∈ s, b < 128) →
      (isRepeatingPattern s = true ↔
        4 ≤ s.length ∧
          ((∃ c, 5 * s.count c > 3 * s.length) ∨
            (6 ≤ s.length ∧
              (s.take (s.length / 2) ++ s.take (s.length / 2)) <:+: s)))) := by
  refine ⟨?_, ?_⟩
  · intro s h4
    unfold isRepeatingPattern
    rw [if_pos h4]
  · intro s hascii
    have hr : runes s = s := runesFrom_ascii s hascii
    have h := isRepeatingPattern_iff s
    rw [hr] at h
    exact h

/-- C19 (amended), on the ASCII string `aaaa`. -/
theorem isRepeatingPattern_ascii_iff_witness :
    isRepeatingPattern (goBytes "aaaa") = true ↔
      4 ≤ (goBytes "aaaa").length ∧
        ((∃ c, 5 * (goBytes "aaaa").count c > 3 * (goBytes "aaaa").length) ∨
          (6 ≤ (goBytes "aaaa").length ∧
            ((goBytes "aaaa").take ((goBytes "aaaa").length / 2)
              ++ (goBytes "aaaa").take ((goBytes "aaaa").length / 2)) <:+: goBytes "aaaa")) :=
  isRepeatingPattern_ascii_iff.2 (goBytes "aaaa") (by decide)

/-! ## Theorems: the pure-entropy heuristic -/

theorem secretRun_le (s : Bytes) : secretRun s ≤ s.length := by
  induction s with
  | nil => simp [secretRun]
  | cons b rest ih =>
    simp only [secretRun, List.length_cons]
    split_ifs <;> omega

theorem stringLiteralFrom_group (rest : Bytes) :
    ∀ (pre : Bytes) (skip : Nat), ∀ mIdx ∈ stringLiteralFrom rest pre.length skip,
      32 ≤ (submatch (pre ++ rest) mIdx 2 3).length := by
  induction rest with
  | nil => intro pre skip mIdx h; simp [stringLiteralFrom] at h
  | cons b rest ih =>
    intro pre skip mIdx h
    have hpre : pre ++ b :: rest = (pre ++ [b]) ++ rest := by simp
    have hlen : (pre ++ [b]).length = pre.length + 1 := by simp
    simp only [stringLiteralFrom] at h
    split_ifs at h with h1 h2
    · rw [hpre]
      rw [← hlen] at h
      exact ih _ _ mIdx h
    · rcases List.mem_cons.1 h with h3 | h3
      · subst h3
        have hdrop : (pre ++ b :: rest).drop (pre.length + 1) = rest := by
          rw [hpre, ← hlen, List.drop_left']
          rfl
        have hsub : submatch (pre ++ b :: rest)
            [(pre.length : Int), ((pre.length + secretRun rest + 2 : Nat) : Int),
              ((pre.length + 1 : Nat) : Int), ((pre.length + 1 + secretRun rest : Nat) : Int)]
            2 3 = rest.take (secretRun rest) := by
          simp only [submatch, slice, List.getD_cons_succ, List.getD_cons_zero, Int.toNat_ofNat,
            hdrop]
          congr 1
          omega
        rw [hsub, List.length_take]
        have := secretRun_le rest
        omega
      · rw [hpre]
        rw [← hlen] at h3
        exact ih _ _ mIdx h3
    · rw [hpre]
      rw [← hlen] at h
      exact ih _ _ mIdx h

theorem stringLiteralFind_group (content : Bytes) :
    ∀ mIdx ∈ stringLiteralFind content, 32 ≤ (submatch content mIdx 2 3).length := by
  intro mIdx h
  have := stringLiteralFrom_group content [] 0 mIdx h
  simpa using this

theorem scanContent_dedupState (env : Env) (e : Engine) (content : Bytes) (filePath : String)
    (seen : List Bytes) (linePositions : List Int) (skipGeneric : Bool) (order : List Nat)
    (r : List Secret × List Bytes)
    (h : ScanContent env e content filePath seen linePositions skipGeneric order = some r) :
    DedupState seen r.1 r.2 := by
  by_cases hready : e.IsReady = true
  · obtain ⟨_, hs, hnd, hdis, _, _⟩ :=
      scanContent_spec env e content filePath seen linePositions skipGeneric order r.1 r.2
        hready h
    refine ⟨hnd, hdis, ?_⟩
    intro v
    rw [hs]
    simp only [List.mem_append, List.mem_reverse]
    tauto
  · have hnr : e.IsReady = false := by simpa using hready
    simp only [ScanContent, hnr, Bool.not_false, if_true, Option.some.injEq] at h
    subst h
    exact ⟨by simp, by simp, by simp⟩

theorem scanSingleFile_nodup (env : Env) (loaded : Bool) (e : Engine) (skipGeneric : Bool)
    (filePath : String) (content : Bytes) (order : List Nat) (found : List Secret)
    (h : scanSingleFile env loaded e skipGeneric filePath (some content) order = some found) :
    (found.map Secret.Value).Nodup := by
  simp only [scanSingleFile, scanSingleFileState] at h
  cases hsc : (if loaded = true then
        ScanContent env e content filePath [] (buildLineIndex content) skipGeneric order
       else some ([], [])) with
  | none => rw [hsc] at h; simp at h
  | some r =>
    rw [hsc] at h
    have hd : DedupState [] r.1 r.2 := by
      cases loaded with
      | true =>
        simp only [if_true] at hsc
        exact scanContent_dedupState _ _ _ _ _ _ _ _ r hsc
      | false =>
        simp only [Bool.false_eq_true, if_false, Option.some.injEq] at hsc
        subst hsc
        exact ⟨by simp, by simp, by simp⟩
    simp only [Option.map_some', Option.some.injEq] at h
    by_cases hne : r.1 ≠ []
    · rw [if_pos hne] at h
      simp only [Option.map_some', Option.some.injEq] at h
      rw [← h]
      exact hd.1
    · rw [if_neg hne] at h
      simp only [Option.map_some', Option.some.injEq] at h
      cases skipGeneric with
      | true =>
        simp only [Bool.not_true, Bool.false_eq_true, if_false] at h
        rw [← h]
        exact hd.1
      | false =>
        simp only [Bool.not_false, if_true] at h
        have hg := genericLoop_dedup env content filePath (buildLineIndex content)
          (env.genericSecretRe content) [] r.1 r.2 hd
        have hh := entropyLoop_dedup env content filePath (buildLineIndex content)
          (env.stringLiteralRe content) [] _ _ hg
        rw [← h]
        exact hh.1

/-- C16. When `stringLiteralRe` finds what its expression says, every finding of
`scanSingleFile` with detector `Entropy (Pure)` has the type `High Entropy String` and a value
of at least 32 bytes whose length is none of 32, 40 and 64, which is not a false positive, not
a repeating pattern, and whose entropy is strictly greater than 5.2; and no two findings of
the file have the same value, so the value was not seen before in the file. -/
theorem pureEntropy_finding_properties (env : Env) (loaded : Bool) (e : Engine)
    (skipGeneric : Bool) (filePath : String) (content : Bytes) (order : List Nat)
    (found : List Secret)
    (hre : env.stringLiteralRe = stringLiteralFind)
    (h : scanSingleFile env loaded e skipGeneric filePath (some content) order = some found) :
    (∀ s ∈ found, s.Detector = "Entropy (Pure)" →
      s.type = goBytes "High Entropy String" ∧ 32 ≤ s.Value.length ∧
      s.Value.length ≠ 32 ∧ s.Value.length ≠ 40 ∧ s.Value.length ≠ 64 ∧
      env.isFalsePositive s.Value = false ∧ env.isRepeatingPattern s.Value = false ∧
      env.CalculateEntropy s.Value > 26 / 5) ∧
    (found.map Secret.Value).Nodup := by
  refine ⟨?_, scanSingleFile_nodup env loaded e skipGeneric filePath content order found h⟩
  intro s hs hdet
  rcases scanSingleFile_findings env loaded e skipGeneric filePath content order found h s hs
    with ⟨_, h1⟩ | ⟨_, h1⟩ | ⟨_, h1⟩
  · exact absurd hdet (templateFinding_detector_ne h1).2
  · obtain ⟨mIdx, _, _, heq, _⟩ := h1
    subst heq
    exact absurd hdet (show ("Regex (Entropy)" : String) ≠ "Entropy (Pure)" by decide)
  · obtain ⟨mIdx, hm, heq, h32, h40, h64, hfp, hrep, hent⟩ := h1
    subst heq
    rw [hre] at hm
    exact ⟨rfl, stringLiteralFind_group content mIdx hm, h32, h40, h64, hfp, hrep, hent⟩

theorem entropyLoop_single (env : Env) (content : Bytes) (filePath : String)
    (linePositions : List Int) (mIdx : List Int)
    (hfp : env.isFalsePositive (submatch content mIdx 2 3) = false)
    (hrep : env.isRepeatingPattern (submatch content mIdx 2 3) = false)
    (hlen : (submatch content mIdx 2 3).length ≠ 32 ∧ (submatch content mIdx 2 3).length ≠ 40
      ∧ (submatch content mIdx 2 3).length ≠ 64)
    (hent : env.CalculateEntropy (submatch content mIdx 2 3) > 26 / 5) :
    entropyLoop env content filePath linePositions [mIdx] [] [] =
      ([{ type := goBytes "High Entropy String"
          Value := submatch content mIdx 2 3
          File := filePath
          Line := getLineFromIndex linePositions (mIdx.getD 0 0)
          Detector := "Entropy (Pure)" }], [submatch content mIdx 2 3]) := by
  simp [entropyLoop, hfp, hrep, hlen.1, hlen.2.1, hlen.2.2, hent]

theorem pureContent_scan :
    scanSingleFile pureEnv false (BuildEngine syntaxParse []) false "a.js" (some pureContent) []
      = some [{ type := goBytes "High Entropy String"
                Value := goBytes "aK9_mZq2Xw7Lp4Rt6Yv8Bn0CdEfGhIjJkMoOsSuUx"
                File := "a.js", Line := 1, Detector := "Entropy (Pure)" }] := by
  have hfind : pureEnv.stringLiteralRe pureContent = [[0, 43, 1, 42]] := by decide
  have hgen : pureEnv.genericSecretRe pureContent = [] := rfl
  have hval : submatch pureContent [0, 43, 1, 42] 2 3
      = goBytes "aK9_mZq2Xw7Lp4Rt6Yv8Bn0CdEfGhIjJkMoOsSuUx" := by decide
  have hent : pureEnv.CalculateEntropy (submatch pureContent [0, 43, 1, 42] 2 3) > 26 / 5 := by
    rw [hval]
    have : pureEnv.CalculateEntropy (goBytes "aK9_mZq2Xw7Lp4Rt6Yv8Bn0CdEfGhIjJkMoOsSuUx")
        = mkRat 5357 1000 := by
      simp [pureEnv]
    rw [this]
    norm_num
  have hloop := entropyLoop_single pureEnv pureContent "a.js" (buildLineIndex pureContent)
    [0, 43, 1, 42] rfl rfl (by rw [hval]; decide) hent
  have hline : getLineFromIndex (buildLineIndex pureContent) (([0, 43, 1, 42] : List Int).getD 0 0)
      = 1 := by decide
  rw [hval, hline] at hloop
  simp only [scanSingleFile, scanSingleFileState, Bool.false_eq_true, if_false, Bool.not_false,
    if_true, hgen, hfind, genericLoop, hloop, ne_eq, not_true_eq_false, Option.map_some']

/-- C16, on a file that holds one quoted literal of 41 distinct bytes, of entropy 5.357: the
finding's value has at least 32 bytes. -/
theorem pureEntropy_finding_properties_witness :
    32 ≤ (goBytes "aK9_mZq2Xw7Lp4Rt6Yv8Bn0CdEfGhIjJkMoOsSuUx").length :=
  ((pureEntropy_finding_properties pureEnv false (BuildEngine syntaxParse []) false "a.js"
    pureContent [] _ rfl pureContent_scan).1 _ (List.mem_singleton.2 rfl) rfl).2.1

/-! ## Theorems: the line lookup -/

theorem lineSearchChecked_eq (positions : List Int) (offset : Int) :
    ∀ (fuel : Nat) (lo hi : Int), 0 ≤ lo → hi < positions.length → hi - lo ≤ fuel →
      lineSearchChecked positions offset fuel lo hi
        = some (lineSearch positions offset fuel lo hi) := by
  intro fuel
  induction fuel with
  | zero =>
    intro lo hi _ _ h2
    have hlt : ¬ lo < hi := by
      simp only [Nat.cast_zero] at h2
      omega
    simp [lineSearchChecked, lineSearch, hlt]
  | succ n ih =>
    intro lo hi h0 h1 h2
    unfold lineSearchChecked lineSearch
    by_cases hlt : lo < hi
    · have hm1 : lo < (lo + hi + 1) / 2 := by omega
      have hm2 : (lo + hi + 1) / 2 ≤ hi := by omega
      have hm : ¬ (lo + hi + 1) / 2 < 0 := by omega
      have hlen : ((lo + hi + 1) / 2).toNat < positions.length := by omega
      simp only [hlt, if_true, hm, if_false]
      rw [List.getElem?_eq_getElem hlen, List.getD_eq_getElem _ _ hlen]
      simp only
      push_cast at h2
      by_cases hp : positions[((lo + hi + 1) / 2).toNat] ≤ offset
      · rw [if_pos hp, if_pos hp]
        exact ih _ _ (by omega) h1 (by omega)
      · rw [if_neg hp, if_neg hp]
        exact ih _ _ h0 (by omega) (by omega)
    · simp [hlt]

/-- More fuel than `len(positions)` changes nothing: the loop has ended by then. -/
theorem lineSearch_fuel (positions : List Int) (offset : Int) :
    ∀ (fuel fuel2 : Nat) (lo hi : Int), hi - lo ≤ fuel → fuel ≤ fuel2 →
      lineSearch positions offset fuel2 lo hi = lineSearch positions offset fuel lo hi := by
  intro fuel
  induction fuel with
  | zero =>
    intro fuel2 lo hi h2 _
    have hlt : ¬ lo < hi := by
      simp only [Nat.cast_zero] at h2
      omega
    cases fuel2 with
    | zero => rfl
    | succ m => simp [lineSearch, hlt]
  | succ n ih =>
    intro fuel2 lo hi h2 hle
    obtain ⟨m, rfl⟩ : ∃ m, fuel2 = m + 1 := ⟨fuel2 - 1, by omega⟩
    unfold lineSearch
    push_cast at h2
    by_cases hlt : lo < hi
    · have hm1 : lo < (lo + hi + 1) / 2 := by omega
      have hm2 : (lo + hi + 1) / 2 ≤ hi := by omega
      simp only [hlt, if_true]
      by_cases hp : positions.getD ((lo + hi + 1) / 2).toNat 0 ≤ offset
      · rw [if_pos hp, if_pos hp]
        exact ih _ _ _ (by omega) (by omega)
      · rw [if_neg hp, if_neg hp]
        exact ih _ _ _ (by omega) (by omega)
    · simp [hlt]

theorem pairwise_getD_le {positions : List Int} (hs : positions.Pairwise (· ≤ ·))
    {a b : Nat} (hab : a ≤ b) (hb : b < positions.length) :
    positions.getD a 0 ≤ positions.getD b 0 := by
  rw [List.getD_eq_getElem _ _ hb, List.getD_eq_getElem _ _ (lt_of_le_of_lt hab hb)]
  rcases Nat.eq_or_lt_of_le hab with h | h
  · subst h
    exact le_refl _
  · exact (List.pairwise_iff_getElem.1 hs) a b _ hb h

/-- What the loop of `getLineFromIndex` keeps true, and so what it ends with. -/
theorem lineSearch_spec (positions : List Int) (offset : Int)
    (hs : positions.Pairwise (· ≤ ·)) :
    ∀ (fuel : Nat) (lo hi : Int), 0 ≤ lo → lo ≤ hi → hi < positions.length → hi - lo ≤ fuel →
      positions.getD lo.toNat 0 ≤ offset →
      (∀ j : Nat, hi < j → j < positions.length → offset < positions.getD j 0) →
      lo ≤ lineSearch positions offset fuel lo hi ∧
      lineSearch positions offset fuel lo hi ≤ hi ∧
      positions.getD (lineSearch positions offset fuel lo hi).toNat 0 ≤ offset ∧
      ∀ j : Nat, lineSearch positions offset fuel lo hi < j → j < positions.length →
        offset < positions.getD j 0 := by
  intro fuel
  induction fuel with
  | zero =>
    intro lo hi _ hle _ h2 hlo hhi
    have heq : hi = lo := by
      simp only [Nat.cast_zero] at h2
      omega
    subst heq
    exact ⟨le_refl _, le_refl _, hlo, hhi⟩
  | succ n ih =>
    intro lo hi h0 hle h1 h2 hlo hhi
    unfold lineSearch
    push_cast at h2
    by_cases hlt : lo < hi
    · have hm1 : lo < (lo + hi + 1) / 2 := by omega
      have hm2 : (lo + hi + 1) / 2 ≤ hi := by omega
      simp only [hlt, if_true]
      by_cases hp : positions.getD ((lo + hi + 1) / 2).toNat 0 ≤ offset
      · rw [if_pos hp]
        obtain ⟨a, b, c, d⟩ := ih ((lo + hi + 1) / 2) hi (by omega) hm2 h1 (by omega) hp hhi
        exact ⟨by omega, b, c, d⟩
      · rw [if_neg hp]
        have hhi2 : ∀ j : Nat, (lo + hi + 1) / 2 - 1 < (j : Int) → j < positions.length →
            offset < positions.getD j 0 := by
          intro j hj hjl
          have hmj : ((lo + hi + 1) / 2).toNat ≤ j := by omega
          have := pairwise_getD_le hs hmj hjl
          omega
        obtain ⟨a, b, c, d⟩ := ih lo ((lo + hi + 1) / 2 - 1) h0 (by omega) (by omega)
          (by omega) hlo hhi2
        exact ⟨a, by omega, c, d⟩
    · simp only [hlt, if_false]
      have heq : hi = lo := by omega
      subst heq
      exact ⟨le_refl _, le_refl _, hlo, hhi⟩

/-- The line lookup over an ascending list that starts with `0`: the index it ends on holds a
position up to the offset, and every later index holds a larger one. -/
theorem getLineFromIndex_index (positions : List Int) (offset : Int)
    (hs : positions.Pairwise (· ≤ ·)) (hhead : positions.head? = some 0) (ho : 0 ≤ offset) :
    ∃ i : Nat, getLineFromIndex positions offset = (i : Int) + 1 ∧ i < positions.length ∧
      positions.getD i 0 ≤ offset ∧
      ∀ j : Nat, j < positions.length → (positions.getD j 0 ≤ offset ↔ j ≤ i) := by
  have hlen : 0 < positions.length := by
    cases positions with
    | nil => simp at hhead
    | cons a t => simp
  have h0 : positions.getD 0 0 = 0 := by
    cases positions with
    | nil => simp at hhead
    | cons a t =>
      simp only [List.head?_cons, Option.some.injEq] at hhead
      simp [hhead]
  obtain ⟨a, b, c, d⟩ := lineSearch_spec positions offset hs positions.length 0
    ((positions.length : Int) - 1) (le_refl _) (by omega) (by omega) (by omega)
    (by show positions.getD 0 0 ≤ offset; rw [h0]; exact ho) (by intro j hj hjl; omega)
  refine ⟨(lineSearch positions offset positions.length 0 ((positions.length : Int) - 1)).toNat,
    ?_, by omega, c, ?_⟩
  · unfold getLineFromIndex
    rw [if_neg (by omega)]
    omega
  · intro j hj
    constructor
    · intro hle
      by_contra hcon
      have := d j (by omega) hj
      omega
    · intro hji
      have := pairwise_getD_le hs hji (by omega)
      omega

/-- C21. `getLineFromIndex` ends within `len(positions)` iterations and reads no index outside
the list, for every list (the empty one included) and every offset; for a negative offset it
returns 1; for an ascending list that starts with `0` and an offset `o ≥ 0` it returns one plus
the largest index `i` with `positions[i] ≤ o`; over `[0, 2, 4]` the offset 3 is on line 2. -/
theorem getLineFromIndex_spec :
    (∀ (positions : List Int) (offset : Int) (fuel : Nat), positions.length ≤ fuel →
      getLineFromIndexChecked positions offset fuel
        = some (getLineFromIndex positions offset)) ∧
    (∀ (positions : List Int) (offset : Int), offset < 0 →
      getLineFromIndex positions offset = 1) ∧
    (∀ offset : Int, getLineFromIndex [] offset = 1) ∧
    (∀ (positions : List Int) (offset : Int), positions.Pairwise (· ≤ ·) →
      positions.head? = some 0 → 0 ≤ offset →
      ∃ i : Nat, getLineFromIndex positions offset = (i : Int) + 1 ∧
        (∃ p, positions[i]? = some p ∧ p ≤ offset) ∧
        ∀ (j : Nat) (p : Int), positions[j]? = some p → p ≤ offset → j ≤ i) ∧
    getLineFromIndex [0, 2, 4] 3 = 2 := by
  refine ⟨?_, ?_, ?_, ?_, by decide⟩
  · intro positions offset fuel hfuel
    unfold getLineFromIndexChecked getLineFromIndex
    by_cases ho : offset < 0
    · rw [if_pos ho, if_pos ho]
    · rw [if_neg ho, if_neg ho,
        lineSearchChecked_eq positions offset fuel 0 _ (le_refl _) (by omega) (by omega),
        lineSearch_fuel positions offset positions.length fuel 0 _ (by omega) hfuel]
      rfl
  · intro positions offset ho
    unfold getLineFromIndex
    rw [if_pos ho]
  · intro offset
    unfold getLineFromIndex
    by_cases ho : offset < 0
    · rw [if_pos ho]
    · rw [if_neg ho]
      rfl
  · intro positions offset hs hhead ho
    obtain ⟨i, h1, h2, h3, h4⟩ := getLineFromIndex_index positions offset hs hhead ho
    refine ⟨i, h1, ⟨positions.getD i 0, ?_, h3⟩, ?_⟩
    · rw [List.getD_eq_getElem _ _ h2, List.getElem?_eq_getElem h2]
    · intro j p hj hp
      have hjl : j < positions.length := (List.getElem?_eq_some_iff.1 hj).1
      have hgd : positions.getD j 0 = p := by
        rw [List.getD_eq_getElem?_getD, hj]
        rfl
      exact (h4 j hjl).1 (by omega)

theorem getLineFromIndex_spec_witness :
    ∃ i : Nat, getLineFromIndex [0, 2, 4, 9] 5 = (i : Int) + 1 ∧
      (∃ p, [0, 2, 4, (9 : Int)][i]? = some p ∧ p ≤ 5) ∧
      ∀ (j : Nat) (p : Int), [0, 2, 4, (9 : Int)][j]? = some p → p ≤ 5 → j ≤ i :=
  getLineFromIndex_spec.2.2.2.1 [0, 2, 4, 9] 5 (by decide) (by decide) (by decide)

/-! ## Theorems: the line of an offset of a buffer -/

theorem buildLineIndex_eq (content : Bytes) :
    buildLineIndex content =
      0 :: ((List.range content.length).filter (fun i => content[i]? = some 10)).map
        (fun (i : Nat) => (i : Int) + 1) := by
  unfold buildLineIndex
  rw [buildLineIndexLoop_eq]
  simp

theorem buildLineIndex_pairwise (content : Bytes) :
    (buildLineIndex content).Pairwise (· ≤ ·) := by
  rw [buildLineIndex_eq, List.pairwise_cons]
  refine ⟨?_, ?_⟩
  · intro a ha
    obtain ⟨k, _, rfl⟩ := List.mem_map.1 ha
    omega
  · apply List.Pairwise.map _ _ (List.Pairwise.filter _ (List.pairwise_lt_range _))
    intro a b hab
    omega

/-- In a list whose entries up to index `r`, and no others, are at most `o`, that many plus one
entries are at most `o`. -/
theorem countP_le_of_index (o : Int) :
    ∀ (l : List Int) (r : Nat), r < l.length →
      (∀ j : Nat, j < l.length → (l.getD j 0 ≤ o ↔ j ≤ r)) →
      l.countP (fun p => decide (p ≤ o)) = r + 1
  | [], r, h, _ => by simp at h
  | a :: t, r, h, hj => by
    have ha : a ≤ o := by
      have := (hj 0 (by simp)).2 (Nat.zero_le _)
      simpa using this
    rw [List.countP_cons_of_pos _ _ (by simpa using ha)]
    cases r with
    | zero =>
      have hz : t.countP (fun p => decide (p ≤ o)) = 0 := by
        rw [List.countP_eq_zero]
        intro p hp
        obtain ⟨k, hk, rfl⟩ := List.getElem_of_mem hp
        have h1 := (hj (k + 1) (by simpa using hk)).1
        have h2 : (a :: t).getD (k + 1) 0 = t[k] := by
          simp [List.getD_eq_getElem?_getD, List.getElem?_eq_getElem hk]
        rw [h2] at h1
        simp only [decide_eq_true_eq]
        intro hc
        have := h1 hc
        omega
      omega
    | succ r2 =>
      have := countP_le_of_index o t r2 (by simpa using h) (fun j hjl => by
        have h1 := hj (j + 1) (by simpa using hjl)
        have h2 : (a :: t).getD (j + 1) 0 = t.getD j 0 := by
          simp [List.getD_eq_getElem?_getD]
        rw [h2] at h1
        omega)
      omega

/-- The newline bytes before position `n`, counted over the positions or over the prefix. -/
theorem countP_range_newline (content : Bytes) :
    ∀ n : Nat, (List.range content.length).countP
        (fun k => decide (content[k]? = some 10) && decide (k < n))
      = (content.take n).count 10 := by
  induction content with
  | nil => intro n; simp
  | cons b t ih =>
    intro n
    cases n with
    | zero => simp
    | succ m =>
      have hp : ((fun k => decide ((b :: t)[k]? = some 10) && decide (k < m + 1)) ∘ Nat.succ)
          = (fun k => decide (t[k]? = some 10) && decide (k < m)) := by
        funext k
        simp
      rw [List.length_cons, List.range_succ_eq_map, List.countP_cons, List.countP_map, hp, ih m,
        List.take_succ_cons, List.count_cons]
      simp

theorem countP_buildLineIndex (content : Bytes) (o : Int) (h0 : 0 ≤ o) :
    (buildLineIndex content).countP (fun p => decide (p ≤ o))
      = 1 + (content.take o.toNat).count 10 := by
  rw [buildLineIndex_eq, List.countP_cons_of_pos _ _ (by simpa using h0), List.countP_map,
    List.countP_filter, ← countP_range_newline content o.toNat, add_comm]
  congr 1
  apply List.countP_congr
  intro k _
  simp only [Function.comp, Bool.and_eq_true, decide_eq_true_eq]
  constructor
  · rintro ⟨h1, h2⟩
    exact ⟨h2, by omega⟩
  · rintro ⟨h1, h2⟩
    exact ⟨by omega, h1⟩

theorem getLineFromIndex_buildLineIndex (content : Bytes) (o : Int) (h0 : 0 ≤ o) :
    getLineFromIndex (buildLineIndex content) o
      = 1 + (((content.take o.toNat).count 10 : Nat) : Int) := by
  obtain ⟨i, h1, h2, _, h4⟩ := getLineFromIndex_index (buildLineIndex content) o
    (buildLineIndex_pairwise content) (by rw [buildLineIndex_eq]; rfl) h0
  have c1 := countP_le_of_index o _ i h2 h4
  rw [countP_buildLineIndex content o h0] at c1
  rw [h1]
  omega

/-- C26. For every byte buffer `content` and every offset `o` with `0 ≤ o ≤ len(content)`,
`getLineFromIndex(buildLineIndex(content), o)` is one plus the number of newline bytes in
`content[0:o]`; it does not decrease when the offset grows, and it is at most the number of
lines, `len(buildLineIndex(content))`, which is one plus the number of newline bytes. -/
theorem getLineFromIndex_counts_newlines (content : Bytes) (o : Int) (h0 : 0 ≤ o)
    (_ : o ≤ content.length) :
    getLineFromIndex (buildLineIndex content) o
      = 1 + (((content.take o.toNat).count 10 : Nat) : Int) ∧
    (∀ o2 : Int, o ≤ o2 → o2 ≤ content.length →
      getLineFromIndex (buildLineIndex content) o
        ≤ getLineFromIndex (buildLineIndex content) o2) ∧
    getLineFromIndex (buildLineIndex content) o ≤ ((buildLineIndex content).length : Int) ∧
    ((buildLineIndex content).length : Int) = 1 + ((content.count 10 : Nat) : Int) := by
  have hsub : ∀ a b : Nat, a ≤ b → (content.take a).count 10 ≤ (content.take b).count 10 := by
    intro a b hab
    exact List.Sublist.count_le (List.take_sublist_take_left content hab) 10
  have htot : ∀ a : Nat, (content.take a).count 10 ≤ content.count 10 := by
    intro a
    exact List.Sublist.count_le (List.take_sublist a content) 10
  have hl : (buildLineIndex content).length = 1 + content.count 10 := by
    unfold buildLineIndex
    rw [buildLineIndexLoop_length]
    simp
  refine ⟨getLineFromIndex_buildLineIndex content o h0, ?_, ?_, ?_⟩
  · intro o2 h1 _
    rw [getLineFromIndex_buildLineIndex content o h0,
      getLineFromIndex_buildLineIndex content o2 (by omega)]
    have := hsub o.toNat o2.toNat (by omega)
    omega
  · rw [getLineFromIndex_buildLineIndex content o h0, hl]
    have := htot o.toNat
    omega
  · rw [hl]
    omega

theorem getLineFromIndex_counts_newlines_witness :
    getLineFromIndex (buildLineIndex (goBytes "a\nb\nc")) 3
      = 1 + ((((goBytes "a\nb\nc").take (3 : Int).toNat).count 10 : Nat) : Int) ∧
    (∀ o2 : Int, 3 ≤ o2 → o2 ≤ (goBytes "a\nb\nc").length →
      getLineFromIndex (buildLineIndex (goBytes "a\nb\nc")) 3
        ≤ getLineFromIndex (buildLineIndex (goBytes "a\nb\nc")) o2) ∧
    getLineFromIndex (buildLineIndex (goBytes "a\nb\nc")) 3
      ≤ ((buildLineIndex (goBytes "a\nb\nc")).length : Int) ∧
    ((buildLineIndex (goBytes "a\nb\nc")).length : Int)
      = 1 + (((goBytes "a\nb\nc").count 10 : Nat) : Int) :=
  getLineFromIndex_counts_newlines (goBytes "a\nb\nc") 3 (by decide) (by decide)

/-! ## Theorems: the set of reported values -/

theorem accepts_iff (env : Env) (p : CompiledPattern) (content v : Bytes) :
    accepts env p content v ↔
      ∃ m ∈ p.Regex content, slice content m.1 m.2 = v ∧ env.isFalsePositive v = false ∧
        ¬ (p.EntropyCheck = true ∧ p.MinEntropy > 0 ∧ env.CalculateEntropy v < p.MinEntropy) := by
  unfold accepts passes
  constructor
  · rintro ⟨m, hm, hs, hp⟩
    refine ⟨m, hm, hs, ?_⟩
    simp only [Bool.and_eq_true, Bool.not_eq_true', Bool.and_eq_false_iff,
      decide_eq_true_eq, decide_eq_false_iff_not] at hp
    refine ⟨hp.1, ?_⟩
    rintro ⟨h1, h2, h3⟩
    rcases hp.2 with (h | h) | h
    · rw [h1] at h
      cases h
    · exact h h2
    · exact h h3
  · rintro ⟨m, hm, hs, hfp, hgate⟩
    refine ⟨m, hm, hs, ?_⟩
    simp only [Bool.and_eq_true, Bool.not_eq_true', Bool.and_eq_false_iff,
      decide_eq_true_eq, decide_eq_false_iff_not]
    refine ⟨hfp, ?_⟩
    by_cases h1 : p.EntropyCheck = true
    · by_cases h2 : p.MinEntropy > 0
      · exact Or.inr (fun h3 => hgate ⟨h1, h2, h3⟩)
      · exact Or.inl (Or.inr h2)
    · exact Or.inl (Or.inl (by simpa using h1))

/-- C27. Two runs of `ScanContent` with the same engine, content, `skipGeneric` flag and initial
`seen` set that range over the candidate map in two orders report the same set of values: a
value is reported exactly when the engine is ready, the value was not in the initial `seen`
set, and some evaluated pattern has a match with that text which is not a false positive and
passes the pattern's entropy gate. Two findings of the two runs with the same value have the
same file and line, so only the type and the detector can differ. -/
theorem scanContent_value_set (env : Env) (e : Engine) (content : Bytes)
    (filePath : String) (seen : List Bytes) (linePositions : List Int) (skipGeneric : Bool)
    (order1 order2 : List Nat) (r1 r2 : List Secret × List Bytes)
    (hperm : order1.Perm order2)
    (h1 : ScanContent env e content filePath seen linePositions skipGeneric order1 = some r1)
    (h2 : ScanContent env e content filePath seen linePositions skipGeneric order2 = some r2) :
    (∀ v, v ∈ r1.1.map Secret.Value ↔ v ∈ r2.1.map Secret.Value) ∧
    (∀ v, v ∈ r1.1.map Secret.Value ↔
      e.IsReady = true ∧ v ∉ seen ∧
        ∃ i ∈ scanOrder e skipGeneric order1, ∃ p, e.AllPatterns[i]? = some p ∧
          ∃ m ∈ p.Regex content, slice content m.1 m.2 = v ∧ env.isFalsePositive v = false ∧
            ¬ (p.EntropyCheck = true ∧ p.MinEntropy > 0 ∧
              env.CalculateEntropy v < p.MinEntropy)) ∧
    (∀ s1 ∈ r1.1, ∀ s2 ∈ r2.1, s1.Value = s2.Value →
      s1.File = s2.File ∧ s1.Line = s2.Line) := by
  by_cases hready : e.IsReady = true
  · obtain ⟨_, _, _, _, hmemA, hdetA⟩ :=
      scanContent_spec env e content filePath seen linePositions skipGeneric order1 r1.1 r1.2
        hready h1
    obtain ⟨_, _, _, _, hmemB, hdetB⟩ :=
      scanContent_spec env e content filePath seen linePositions skipGeneric order2 r2.1 r2.2
        hready h2
    have hord : ∀ i, i ∈ scanOrder e skipGeneric order1 ↔ i ∈ scanOrder e skipGeneric order2 := by
      intro i
      simp only [scanOrder, List.mem_append, hperm.mem_iff]
    refine ⟨?_, ?_, ?_⟩
    · intro v
      rw [hmemA, hmemB]
      constructor
      · rintro ⟨hv, i, hi, rest⟩
        exact ⟨hv, i, (hord i).1 hi, rest⟩
      · rintro ⟨hv, i, hi, rest⟩
        exact ⟨hv, i, (hord i).2 hi, rest⟩
    · intro v
      rw [hmemA]
      constructor
      · rintro ⟨hv, i, hi, p, hp, hacc⟩
        exact ⟨hready, hv, i, hi, p, hp, (accepts_iff env p content v).1 hacc⟩
      · rintro ⟨_, hv, i, hi, p, hp, hacc⟩
        exact ⟨hv, i, hi, p, hp, (accepts_iff env p content v).2 hacc⟩
    · intro s1 hs1 s2 hs2 hv
      obtain ⟨_, _, p1, _, e1⟩ := hdetA s1 hs1
      obtain ⟨_, _, p2, _, e2⟩ := hdetB s2 hs2
      have f1 : s1.File = filePath := by rw [e1]; rfl
      have f2 : s2.File = filePath := by rw [e2]; rfl
      have l1 : s1.Line = getLineFromIndex linePositions (bytesIndex content s1.Value) := by
        conv_lhs => rw [e1]
        rfl
      have l2 : s2.Line = getLineFromIndex linePositions (bytesIndex content s2.Value) := by
        conv_lhs => rw [e2]
        rfl
      exact ⟨by rw [f1, f2], by rw [l1, l2, hv]⟩
  · have hnr : e.IsReady = false := by simpa using hready
    simp only [ScanContent, hnr, Bool.not_false, if_true, Option.some.injEq] at h1 h2
    subst h1
    subst h2
    refine ⟨fun v => Iff.rfl, ?_, ?_⟩
    · intro v
      constructor
      · intro hv
        cases hv
      · rintro ⟨hr, _⟩
        exact absurd hr hready
    · intro s1 hs1
      cases hs1

/-- C27 on the two patterns that both match `ghp_abc`, scanned after `zzz` was seen, in the
orders `[0, 1]` and `[1, 0]`: the value reported by the first run is characterised. -/
theorem scanContent_value_set_witness :
    (BuildEngine syntaxParse twoPatterns).IsReady = true ∧
      goBytes "ghp_abc" ∉ [goBytes "zzz"] ∧
      ∃ i ∈ scanOrder (BuildEngine syntaxParse twoPatterns) false [0, 1],
        ∃ p, (BuildEngine syntaxParse twoPatterns).AllPatterns[i]? = some p ∧
          ∃ m ∈ p.Regex (goBytes "x\nghp_abc"),
            slice (goBytes "x\nghp_abc") m.1 m.2 = goBytes "ghp_abc" ∧
            plainEnv.isFalsePositive (goBytes "ghp_abc") = false ∧
            ¬ (p.EntropyCheck = true ∧ p.MinEntropy > 0 ∧
              plainEnv.CalculateEntropy (goBytes "ghp_abc") < p.MinEntropy) :=
  ((scanContent_value_set plainEnv (BuildEngine syntaxParse twoPatterns)
    (goBytes "x\nghp_abc") "a.js" [goBytes "zzz"] (buildLineIndex (goBytes "x\nghp_abc")) false
    [0, 1] [1, 0]
    ([{ type := goBytes "first", Value := goBytes "ghp_abc", File := "a.js", Line := 2,
        Detector := "Template (high)" }], [goBytes "ghp_abc", goBytes "zzz"])
    ([{ type := goBytes "second", Value := goBytes "ghp_abc", File := "a.js", Line := 2,
        Detector := "Template (high)" }], [goBytes "ghp_abc", goBytes "zzz"])
    (by decide) (by decide) (by decide)).2.1 (goBytes "ghp_abc")).1 (by decide)

/-! ## Theorems: values of base58 characters -/

theorem mem_base58Alphabet (b : Nat) :
    b ∈ base58Alphabet ↔
      (49 ≤ b ∧ b ≤ 57) ∨ (65 ≤ b ∧ b ≤ 90 ∧ b ≠ 73 ∧ b ≠ 79) ∨
        (97 ≤ b ∧ b ≤ 122 ∧ b ≠ 108) := by
  have h : base58Alphabet =
      [49, 50, 51, 52, 53, 54, 55, 56, 57, 65, 66, 67, 68, 69, 70, 71, 72, 74, 75, 76, 77, 78,
       80, 81, 82, 83, 84, 85, 86, 87, 88, 89, 90, 97, 98, 99, 100, 101, 102, 103, 104, 105, 106,
       107, 109, 110, 111, 112, 113, 114, 115, 116, 117, 118, 119, 120, 121, 122] := by
    decide
  rw [h]
  simp only [List.mem_cons, List.mem_singleton, List.not_mem_nil, or_false]
  omega

theorem matchesBase58_of_all (val : Bytes) (hne : val ≠ [])
    (hall : ∀ b ∈ val, b ∈ base58Alphabet) : matchesBase58 val = true := by
  unfold matchesBase58
  simp only [Bool.and_eq_true, Bool.not_eq_true', List.all_eq_true]
  refine ⟨?_, fun b hb => List.elem_eq_true_of_mem (hall b hb)⟩
  cases val with
  | nil => exact absurd rfl hne
  | cons a t => rfl

theorem isFalsePositive_of_base58 (before after : List (Bytes → Bool)) (val : Bytes)
    (hne : val ≠ []) (hall : ∀ b ∈ val, b ∈ base58Alphabet) :
    isFalsePositive (matchesFalsePositivePatterns before after) val = true := by
  have hm : matchesFalsePositivePatterns before after val = true := by
    unfold matchesFalsePositivePatterns
    rw [List.any_eq_true]
    exact ⟨matchesBase58, by simp, matchesBase58_of_all val hne hall⟩
  unfold isFalsePositive
  simp only [hm]
  split_ifs <;> rfl

/-- C29. `isFalsePositive` is true of every non-empty string made only of base58 characters
(the digits `1`..`9` and the ASCII letters other than `O`, `I` and `l`), whatever its length;
so when the filter of the scan is `isFalsePositive`, no finding of `scanSingleFile`, of
whichever layer, a template pattern included, has a non-empty value made only of such
characters. -/
theorem no_finding_all_base58 (before after : List (Bytes → Bool)) (env : Env)
    (loaded : Bool) (e : Engine) (skipGeneric : Bool) (filePath : String) (content : Bytes)
    (order : List Nat) (found : List Secret)
    (henv : env.isFalsePositive = isFalsePositive (matchesFalsePositivePatterns before after))
    (h : scanSingleFile env loaded e skipGeneric filePath (some content) order = some found) :
    (∀ val : Bytes, val ≠ [] →
      (∀ b ∈ val, (49 ≤ b ∧ b ≤ 57) ∨ (65 ≤ b ∧ b ≤ 90 ∧ b ≠ 73 ∧ b ≠ 79) ∨
        (97 ≤ b ∧ b ≤ 122 ∧ b ≠ 108)) →
      isFalsePositive (matchesFalsePositivePatterns before after) val = true) ∧
    (∀ s ∈ found, s.Value ≠ [] →
      ∃ b ∈ s.Value, ¬ ((49 ≤ b ∧ b ≤ 57) ∨ (65 ≤ b ∧ b ≤ 90 ∧ b ≠ 73 ∧ b ≠ 79) ∨
        (97 ≤ b ∧ b ≤ 122 ∧ b ≠ 108))) := by
  have hfilter : ∀ val : Bytes, val ≠ [] →
      (∀ b ∈ val, (49 ≤ b ∧ b ≤ 57) ∨ (65 ≤ b ∧ b ≤ 90 ∧ b ≠ 73 ∧ b ≠ 79) ∨
        (97 ≤ b ∧ b ≤ 122 ∧ b ≠ 108)) →
      isFalsePositive (matchesFalsePositivePatterns before after) val = true := by
    intro val hne hall
    exact isFalsePositive_of_base58 before after val hne
      (fun b hb => (mem_base58Alphabet b).2 (hall b hb))
  refine ⟨hfilter, ?_⟩
  intro s hs hne
  have hfp : env.isFalsePositive s.Value = false := by
    rcases scanSingleFile_findings env loaded e skipGeneric filePath content order found h s hs
      with ⟨_, h1⟩ | ⟨_, h1⟩ | ⟨_, h1⟩
    · obtain ⟨i, _, p, _, hacc, _⟩ := h1
      exact accepts_not_falsePositive hacc
    · obtain ⟨mIdx, _, _, heq, _, _, hfp, _⟩ := h1
      rw [heq]
      exact hfp
    · obtain ⟨mIdx, _, heq, _, _, _, hfp, _⟩ := h1
      rw [heq]
      exact hfp
  rw [henv] at hfp
  by_contra hcon
  push_neg at hcon
  have hall : ∀ b ∈ s.Value, (49 ≤ b ∧ b ≤ 57) ∨ (65 ≤ b ∧ b ≤ 90 ∧ b ≠ 73 ∧ b ≠ 79) ∨
      (97 ≤ b ∧ b ≤ 122 ∧ b ≠ 108) := by
    intro b hb
    exact hcon b hb
  rw [hfilter s.Value hne hall] at hfp
  cases hfp

/-- C29, on the content `ghpabc\nghp_abc` scanned by the literal patterns `ghpabc` and
`ghp_abc`: the match `ghpabc` is dropped, and the value of the only finding, `ghp_abc`, holds a
byte that is no base58 character. -/
theorem no_finding_all_base58_witness :
    ∃ b ∈ goBytes "ghp_abc", ¬ ((49 ≤ b ∧ b ≤ 57) ∨ (65 ≤ b ∧ b ≤ 90 ∧ b ≠ 73 ∧ b ≠ 79) ∨
      (97 ≤ b ∧ b ≤ 122 ∧ b ≠ 108)) :=
  (no_finding_all_base58 [] [] base58Env true
    (BuildEngine syntaxParse base58Patterns) false "a.js" (goBytes "ghpabc\nghp_abc") [0, 1]
    [{ type := goBytes "lower", Value := goBytes "ghp_abc", File := "a.js", Line := 2,
       Detector := "Template (high)" }]
    rfl (by decide)).2 _ (List.mem_singleton.2 rfl) (by decide)

/-! ## Theorems: loading the templates -/

theorem compileTemplates_fst (compile : String → Option (Bytes → List (Nat × Nat)))
    (path : String) (pts : List PatternTemplate) :
    ∀ (allPatterns : List CompiledPattern) (loadErrors : List LoadDiag),
      (compileTemplates compile path pts allPatterns loadErrors).1
        = allPatterns ++ pts.filterMap (compilePattern compile) := by
  induction pts with
  | nil => intro allPatterns loadErrors; simp [compileTemplates]
  | cons pt rest ih =>
    intro allPatterns loadErrors
    unfold compileTemplates
    cases hc : compilePattern compile pt with
    | none => simp [ih, List.filterMap_cons, hc]
    | some cp => simp [ih, List.filterMap_cons, hc]

theorem walkPatterns_of_walkable (compile : String → Option (Bytes → List (Nat × Nat)))
    (embedded : List WalkEntry) :
    ∀ (allPatterns : List CompiledPattern) (loadErrors : List LoadDiag),
      walkable embedded = true →
      ∃ errs, walkPatterns compile embedded allPatterns loadErrors
        = some (allPatterns ++ (templatesOf embedded).filterMap (compilePattern compile),
            errs) := by
  induction embedded with
  | nil => intro allPatterns loadErrors _; exact ⟨loadErrors, by simp [walkPatterns, templatesOf]⟩
  | cons en rest ih =>
    intro allPatterns loadErrors hw
    cases en with
    | walkError path => simp [walkable] at hw
    | skipped path =>
      obtain ⟨errs, h⟩ := ih allPatterns loadErrors (by simpa [walkable] using hw)
      exact ⟨errs, by simpa [walkPatterns, templatesOf] using h⟩
    | unreadable path =>
      obtain ⟨errs, h⟩ := ih allPatterns (loadErrors ++ [LoadDiag.readError path])
        (by simpa [walkable] using hw)
      exact ⟨errs, by simpa [walkPatterns, templatesOf] using h⟩
    | unparsable path =>
      obtain ⟨errs, h⟩ := ih allPatterns (loadErrors ++ [LoadDiag.parseError path])
        (by simpa [walkable] using hw)
      exact ⟨errs, by simpa [walkPatterns, templatesOf] using h⟩
    | file path patterns =>
      obtain ⟨errs, h⟩ := ih (compileTemplates compile path patterns allPatterns loadErrors).1
        (compileTemplates compile path patterns allPatterns loadErrors).2
        (by simpa [walkable] using hw)
      refine ⟨errs, ?_⟩
      simp only [walkPatterns, templatesOf, List.filterMap_append]
      rw [h, compileTemplates_fst, List.append_assoc]

/-- C24. `compilePattern` of a template whose regex compiles returns a pattern with the
severity `medium` when the template's is empty and the template's otherwise, the confidence 75
when the template's is 0 and the template's otherwise, and the template's id, name, regex
source, entropy flag, minimum entropy and tags, around the compiled regex; of a template whose
regex does not compile it returns an error. A first `LoadPatterns` over a collection that can
be walked leaves as pattern list, and returns when the list is not empty, the compiled patterns
of the templates of the parsed files in the order of the walk, those that fail left out. -/
theorem compilePattern_spec (compile : String → Option (Bytes → List (Nat × Nat))) :
    (∀ (pt : PatternTemplate) (re : Bytes → List (Nat × Nat)), compile pt.Regex = some re →
      ∃ cp, compilePattern compile pt = some cp ∧
        cp.Severity = (if pt.Severity = "" then "medium" else pt.Severity) ∧
        cp.Confidence = (if pt.Confidence = 0 then 75 else pt.Confidence) ∧
        cp.ID = pt.ID ∧ cp.Name = pt.Name ∧ cp.RegexString = pt.Regex ∧ cp.Regex = re ∧
        cp.EntropyCheck = pt.EntropyCheck ∧ cp.MinEntropy = pt.MinEntropy ∧
        cp.Tags = pt.Tags) ∧
    (∀ pt : PatternTemplate, compile pt.Regex = none → compilePattern compile pt = none) ∧
    (∀ (embedded : List WalkEntry) (g : PatternLoader), g.loaded = false →
      walkable embedded = true →
      (LoadPatterns compile embedded g).2.patterns
        = (templatesOf embedded).filterMap (compilePattern compile) ∧
      ((templatesOf embedded).filterMap (compilePattern compile) ≠ [] →
        (LoadPatterns compile embedded g).1
          = Except.ok ((templatesOf embedded).filterMap (compilePattern compile)))) := by
  refine ⟨?_, ?_, ?_⟩
  · intro pt re hre
    refine ⟨{ ID := pt.ID, Name := pt.Name, Regex := re, RegexString := pt.Regex,
              Confidence := if pt.Confidence = 0 then 75 else pt.Confidence,
              Severity := if pt.Severity = "" then "medium" else pt.Severity,
              EntropyCheck := pt.EntropyCheck, MinEntropy := pt.MinEntropy, Tags := pt.Tags },
      by simp only [compilePattern, hre], rfl, rfl, rfl, rfl, rfl, rfl, rfl, rfl, rfl⟩
  · intro pt hre
    simp only [compilePattern, hre]
  · intro embedded g hg hw
    obtain ⟨errs, h⟩ := walkPatterns_of_walkable compile embedded [] [] hw
    rw [List.nil_append] at h
    unfold LoadPatterns
    simp only [hg, Bool.false_eq_true, if_false, h]
    refine ⟨?_, ?_⟩
    · split_ifs <;> rfl
    · intro hne
      have hlen : ¬ ((templatesOf embedded).filterMap (compilePattern compile)).length = 0 := by
        intro h0
        exact hne (List.length_eq_zero.1 h0)
      rw [if_neg (fun hc => hlen hc.2)]

/-- C24 on a file of three templates the second of which has a regex that does not compile. -/
theorem compilePattern_spec_witness :
    (LoadPatterns compileExample
        [WalkEntry.skipped "patterns",
         WalkEntry.file "patterns/a.yaml"
          [mkTemplate "one" "abc", mkTemplate "two" "(", mkTemplate "three" "x"]]
        freshLoader).2.patterns
      = (templatesOf
          [WalkEntry.skipped "patterns",
           WalkEntry.file "patterns/a.yaml"
            [mkTemplate "one" "abc", mkTemplate "two" "(", mkTemplate "three" "x"]]).filterMap
          (compilePattern compileExample) ∧
    ((templatesOf
          [WalkEntry.skipped "patterns",
           WalkEntry.file "patterns/a.yaml"
            [mkTemplate "one" "abc", mkTemplate "two" "(", mkTemplate "three" "x"]]).filterMap
          (compilePattern compileExample) ≠ [] →
      (LoadPatterns compileExample
          [WalkEntry.skipped "patterns",
           WalkEntry.file "patterns/a.yaml"
            [mkTemplate "one" "abc", mkTemplate "two" "(", mkTemplate "three" "x"]]
          freshLoader).1
        = Except.ok ((templatesOf
          [WalkEntry.skipped "patterns",
           WalkEntry.file "patterns/a.yaml"
            [mkTemplate "one" "abc", mkTemplate "two" "(", mkTemplate "three" "x"]]).filterMap
          (compilePattern compileExample))) :=
  (compilePattern_spec compileExample).2.2
    [WalkEntry.skipped "patterns",
     WalkEntry.file "patterns/a.yaml"
      [mkTemplate "one" "abc", mkTemplate "two" "(", mkTemplate "three" "x"]]
    freshLoader rfl rfl

/-- C23 (as stated, refuted). The collection is one file whose only template has a regex that
does not compile. The first `LoadPatterns` returns the error `no patterns loaded`; it has set
`loaded`, so the second call returns the empty list with no error. -/
theorem loadPatterns_second_call_differs :
    (LoadPatterns compileExample [WalkEntry.file "patterns/a.yaml" [mkTemplate "two" "("]]
        freshLoader).1
      = Except.error (LoadError.noPatternsLoaded [LoadDiag.compileError "a.yaml" "two"]) ∧
    (LoadPatterns compileExample [WalkEntry.file "patterns/a.yaml" [mkTemplate "two" "("]]
        (LoadPatterns compileExample [WalkEntry.file "patterns/a.yaml" [mkTemplate "two" "("]]
          freshLoader).2).1
      = Except.ok [] ∧
    (LoadPatterns compileExample [WalkEntry.file "patterns/a.yaml" [mkTemplate "two" "("]]
        (LoadPatterns compileExample [WalkEntry.file "patterns/a.yaml" [mkTemplate "two" "("]]
          freshLoader).2).1
      ≠ (LoadPatterns compileExample [WalkEntry.file "patterns/a.yaml" [mkTemplate "two" "("]]
          freshLoader).1 := by
  have h1 : (LoadPatterns compileExample
      [WalkEntry.file "patterns/a.yaml" [mkTemplate "two" "("]] freshLoader)
      = (Except.error (LoadError.noPatternsLoaded
          [LoadDiag.compileError "a.yaml" "two"]),
         { patterns := [], loaded := true }) := by
    rfl
  refine ⟨by rw [h1], by rw [h1]; rfl, ?_⟩
  rw [h1]
  intro h
  have h2 : (LoadPatterns compileExample
      [WalkEntry.file "patterns/a.yaml" [mkTemplate "two" "("]]
      { patterns := [], loaded := true }).1 = Except.ok [] := rfl
  rw [h2] at h
  cases h

/-- C23 (amended). After a call of `LoadPatterns`, a second call, whatever the collection and
the compiler are by then, compiles nothing: when the first call returned a pattern list, the
second returns the same list with no error and leaves the loader as it is; when the first call
returned the error `no patterns loaded`, the second returns the empty list with no error; in
both cases the two calls return the same pattern list. When the first call returned the error
of a failed walk, it has left the loader as it was, so nothing is cached. -/
theorem loadPatterns_second_call (compile compile2 : String → Option (Bytes → List (Nat × Nat)))
    (embedded embedded2 : List WalkEntry) (g : PatternLoader) :
    (∀ l, (LoadPatterns compile embedded g).1 = Except.ok l →
      LoadPatterns compile2 embedded2 (LoadPatterns compile embedded g).2
        = (Except.ok l, (LoadPatterns compile embedded g).2)) ∧
    (∀ errs, (LoadPatterns compile embedded g).1
        = Except.error (LoadError.noPatternsLoaded errs) →
      LoadPatterns compile2 embedded2 (LoadPatterns compile embedded g).2
        = (Except.ok [], (LoadPatterns compile embedded g).2)) ∧
    ((LoadPatterns compile embedded g).1 ≠ Except.error LoadError.walkFailed →
      loadedList (LoadPatterns compile2 embedded2 (LoadPatterns compile embedded g).2).1
        = loadedList (LoadPatterns compile embedded g).1) ∧
    ((LoadPatterns compile embedded g).1 = Except.error LoadError.walkFailed →
      (LoadPatterns compile embedded g).2 = g ∧ g.loaded = false) := by
  by_cases hg : g.loaded = true
  · have h1 : LoadPatterns compile embedded g = (Except.ok g.patterns, g) := by
      simp only [LoadPatterns, hg, if_true]
    have h2 : LoadPatterns compile2 embedded2 g = (Except.ok g.patterns, g) := by
      simp only [LoadPatterns, hg, if_true]
    rw [h1]
    refine ⟨?_, ?_, ?_, ?_⟩
    · intro l hl
      cases hl
      exact h2
    · intro errs he
      cases he
    · intro _
      rw [h2]
    · intro he
      cases he
  · have hg2 : g.loaded = false := by simpa using hg
    cases hw : walkPatterns compile embedded [] [] with
    | none =>
      have h1 : LoadPatterns compile embedded g = (Except.error LoadError.walkFailed, g) := by
        simp only [LoadPatterns, hg2, Bool.false_eq_true, if_false, hw]
      rw [h1]
      refine ⟨?_, ?_, ?_, ?_⟩
      · intro l hl
        cases hl
      · intro errs he
        cases he
      · intro hne
        exact absurd rfl hne
      · intro _
        exact ⟨rfl, hg2⟩
    | some r =>
      obtain ⟨allPatterns, loadErrors⟩ := r
      by_cases hc : loadErrors.length > 0 ∧ allPatterns.length = 0
      · have h1 : LoadPatterns compile embedded g
            = (Except.error (LoadError.noPatternsLoaded loadErrors),
               { patterns := allPatterns, loaded := true }) := by
          simp only [LoadPatterns, hg2, Bool.false_eq_true, if_false, hw]
          rw [if_pos hc]
        have h0 : allPatterns = [] := List.length_eq_zero.1 hc.2
        have h2 : LoadPatterns compile2 embedded2 { patterns := allPatterns, loaded := true }
            = (Except.ok [], { patterns := allPatterns, loaded := true }) := by
          simp only [LoadPatterns, if_true, h0]
        rw [h1]
        refine ⟨?_, ?_, ?_, ?_⟩
        · intro l hl
          cases hl
        · intro errs _
          exact h2
        · intro _
          rw [h2]
          rfl
        · intro he
          cases he
      · have h1 : LoadPatterns compile embedded g
            = (Except.ok allPatterns, { patterns := allPatterns, loaded := true }) := by
          simp only [LoadPatterns, hg2, Bool.false_eq_true, if_false, hw]
          rw [if_neg hc]
        have h2 : LoadPatterns compile2 embedded2 { patterns := allPatterns, loaded := true }
            = (Except.ok allPatterns, { patterns := allPatterns, loaded := true }) := by
          simp only [LoadPatterns, if_true]
        rw [h1]
        refine ⟨?_, ?_, ?_, ?_⟩
        · intro l hl
          cases hl
          exact h2
        · intro errs he
          cases he
        · intro _
          rw [h2]
        · intro he
          cases he

/-- C23 (amended) on the collection of the refutation: the second call returns the empty list
with no error and leaves the loader as the first call left it. -/
theorem loadPatterns_second_call_witness :
    LoadPatterns compileExample []
        (LoadPatterns compileExample [WalkEntry.file "patterns/a.yaml" [mkTemplate "two" "("]]
          freshLoader).2
      = (Except.ok [],
         (LoadPatterns compileExample [WalkEntry.file "patterns/a.yaml" [mkTemplate "two" "("]]
          freshLoader).2) :=
  (loadPatterns_second_call compileExample compileExample
    [WalkEntry.file "patterns/a.yaml" [mkTemplate "two" "("]] [] freshLoader).2.1
    [LoadDiag.compileError "a.yaml" "two"] rfl

/-! ## Theorems: the report -/

theorem groupByDetector_get (secrets : List Secret) (d : String) :
    ∀ m : List (String × List Secret),
      (goMapGet (secrets.foldl
        (fun detectorGroups s =>
          goMapSet detectorGroups s.Detector
            ((goMapGet detectorGroups s.Detector).getD [] ++ [s])) m) d).getD []
        = (goMapGet m d).getD [] ++ secrets.filter (fun s => decide (s.Detector = d)) := by
  induction secrets with
  | nil => intro m; simp
  | cons s rest ih =>
    intro m
    rw [List.foldl_cons, ih]
    by_cases hd : s.Detector = d
    · subst hd
      rw [goMapGet_set_self]
      simp
    · rw [goMapGet_set_ne _ _ _ _ (fun e => hd e.symm)]
      simp [hd]

theorem reportSection_count (secrets : List Secret) (d : String) :
    (reportSection (groupByDetector secrets) d).count
      = (secrets.filter (fun s => decide (s.Detector = d))).length ∧
    (reportSection (groupByDetector secrets) d).findings
      = secrets.filter (fun s => decide (s.Detector = d)) := by
  have hg := groupByDetector_get secrets d []
  simp only [goMapGet, Option.getD_none, List.nil_append] at hg
  have hc : (match goMapGet (groupByDetector secrets) d with
      | some findings => findings.length
      | none => 0) = (secrets.filter (fun s => decide (s.Detector = d))).length := by
    rw [← hg]
    unfold groupByDetector
    cases goMapGet (secrets.foldl
        (fun detectorGroups s =>
          goMapSet detectorGroups s.Detector
            ((goMapGet detectorGroups s.Detector).getD [] ++ [s])) []) d <;> rfl
  unfold reportSection
  simp only [hc]
  split_ifs with h0
  · exact ⟨rfl, (List.length_eq_zero.1 h0).symm⟩
  · exact ⟨rfl, hg⟩

theorem filter_length_cons (d : String) (rest : List String) (hd : d ∉ rest) :
    ∀ secrets : List Secret,
      (secrets.filter (fun s => decide (s.Detector = d))).length
        + (secrets.filter (fun s => decide (s.Detector ∈ rest))).length
        = (secrets.filter (fun s => decide (s.Detector ∈ d :: rest))).length := by
  intro secrets
  induction secrets with
  | nil => simp
  | cons s t iht =>
    by_cases h1 : s.Detector = d
    · have h2 : s.Detector ∉ rest := by rw [h1]; exact hd
      have h3 : s.Detector ∈ d :: rest := by rw [h1]; exact List.mem_cons_self _ _
      rw [List.filter_cons_of_pos (by simpa using h1),
        List.filter_cons_of_neg (by simpa using h2),
        List.filter_cons_of_pos (by simpa using h3)]
      simp only [List.length_cons]
      omega
    · by_cases h2 : s.Detector ∈ rest
      · have h3 : s.Detector ∈ d :: rest := List.mem_cons_of_mem _ h2
        rw [List.filter_cons_of_neg (by simpa using h1),
          List.filter_cons_of_pos (by simpa using h2),
          List.filter_cons_of_pos (by simpa using h3)]
        simp only [List.length_cons]
        omega
      · have h3 : s.Detector ∉ d :: rest := by
          intro hm
          rcases List.mem_cons.1 hm with h | h
          · exact h1 h
          · exact h2 h
        rw [List.filter_cons_of_neg (by simpa using h1),
          List.filter_cons_of_neg (by simpa using h2),
          List.filter_cons_of_neg (by simpa using h3)]
        exact iht

theorem sum_filter_length (secrets : List Secret) :
    ∀ ds : List String, ds.Nodup →
      (ds.map (fun d => (secrets.filter (fun s => decide (s.Detector = d))).length)).sum
        = (secrets.filter (fun s => decide (s.Detector ∈ ds))).length := by
  intro ds
  induction ds with
  | nil => intro _; simp
  | cons d rest ih =>
    intro hnd
    rw [List.nodup_cons] at hnd
    rw [List.map_cons, List.sum_cons, ih hnd.2]
    exact filter_length_cons d rest hnd.1 secrets

/-- C30 (the code departs from it). A template of severity `low` that matches `ghp_low` makes
`ScanContent` report a finding with the detector `Template (low)`. In the report of that one
finding the total is 1, the counts of the sections add up to 0 and no section lists the
finding: `detectorOrder` has no entry `Template (low)`. For every list of findings the counts
of the sections add up to the number of findings whose detector is one of the nine labels of
`detectorOrder`, and the sections list exactly those findings. -/
theorem saveSecrets_template_low_unlisted :
    ScanContent plainEnv (BuildEngine syntaxParse [lowPattern]) (goBytes "ghp_low") "a.js" []
        (buildLineIndex (goBytes "ghp_low")) false [0]
      = some ([{ type := goBytes "weak", Value := goBytes "ghp_low", File := "a.js", Line := 1,
                 Detector := "Template (low)" }], [goBytes "ghp_low"]) ∧
    (SaveSecrets [{ type := goBytes "weak", Value := goBytes "ghp_low", File := "a.js",
                     Line := 1, Detector := "Template (low)" }]).total = 1 ∧
    ((SaveSecrets [{ type := goBytes "weak", Value := goBytes "ghp_low", File := "a.js",
                      Line := 1, Detector := "Template (low)" }]).sections.map
        ReportSection.count).sum = 0 ∧
    (∀ sec ∈ (SaveSecrets [{ type := goBytes "weak", Value := goBytes "ghp_low", File := "a.js",
                              Line := 1, Detector := "Template (low)" }]).sections,
      ({ type := goBytes "weak", Value := goBytes "ghp_low", File := "a.js", Line := 1,
         Detector := "Template (low)" } : Secret) ∉ sec.findings) ∧
    (∀ secrets : List Secret,
      (SaveSecrets secrets).total = secrets.length ∧
      ((SaveSecrets secrets).sections.map ReportSection.count).sum
        = (secrets.filter (fun s => decide (s.Detector ∈ detectorOrder))).length ∧
      ∀ s : Secret, (∃ sec ∈ (SaveSecrets secrets).sections, s ∈ sec.findings) ↔
        s ∈ secrets ∧ s.Detector ∈ detectorOrder) := by
  refine ⟨by decide, by decide, by decide, by decide, ?_⟩
  intro secrets
  refine ⟨rfl, ?_, ?_⟩
  · have h := sum_filter_length secrets detectorOrder (by decide)
    rw [← h]
    unfold SaveSecrets
    simp only [List.map_map]
    congr 1
    apply List.map_congr_left
    intro d _
    exact (reportSection_count secrets d).1
  · intro s
    unfold SaveSecrets
    simp only [List.mem_map]
    constructor
    · rintro ⟨sec, ⟨d, hd, rfl⟩, hs⟩
      rw [(reportSection_count secrets d).2, List.mem_filter] at hs
      have he : s.Detector = d := by simpa using hs.2
      exact ⟨hs.1, by rw [he]; exact hd⟩
    · rintro ⟨hs, hd⟩
      refine ⟨_, ⟨s.Detector, hd, rfl⟩, ?_⟩
      rw [(reportSection_count secrets s.Detector).2, List.mem_filter]
      exact ⟨hs, by simp⟩

/-! ## Theorems: `runRegexScan` -/

theorem mergeStep_foldl (l : List Secret) :
    ∀ st : List Secret × List Bytes, DedupState [] st.1 st.2 →
      DedupState [] (l.foldl mergeStep st).1 (l.foldl mergeStep st).2 ∧
      ∀ v, v ∈ (l.foldl mergeStep st).1.map Secret.Value ↔
        v ∈ st.1.map Secret.Value ∨ v ∈ l.map Secret.Value := by
  induction l with
  | nil => intro st h; exact ⟨h, fun v => by simp⟩
  | cons s rest ih =>
    intro st h
    rw [List.foldl_cons]
    by_cases hs : s.Value ∈ st.2
    · have hst : mergeStep st s = st := by simp only [mergeStep, hs, if_true]
      rw [hst]
      obtain ⟨h1, h2⟩ := ih st h
      refine ⟨h1, ?_⟩
      intro v
      rw [h2 v, List.map_cons, List.mem_cons]
      constructor
      · rintro (hv | hv)
        · exact Or.inl hv
        · exact Or.inr (Or.inr hv)
      · rintro (hv | hv | hv)
        · exact Or.inl hv
        · subst hv
          rcases (h.2.2 s.Value).1 hs with h0 | h0
          · cases h0
          · exact Or.inl h0
        · exact Or.inr hv
    · have hst : mergeStep st s = (st.1 ++ [s], s.Value :: st.2) := by
        simp only [mergeStep, hs, if_false]
      rw [hst]
      obtain ⟨h1, h2⟩ := ih (st.1 ++ [s], s.Value :: st.2) (dedupState_add h s hs)
      refine ⟨h1, ?_⟩
      intro v
      rw [h2 v]
      simp only [List.map_append, List.mem_append, List.map_cons, List.map_nil,
        List.mem_singleton, List.mem_cons]
      tauto

theorem mergeResults_foldl (received : List (List Secret)) :
    ∀ st : List Secret × List Bytes, DedupState [] st.1 st.2 →
      DedupState [] (received.foldl (fun st secrets => secrets.foldl mergeStep st) st).1
        (received.foldl (fun st secrets => secrets.foldl mergeStep st) st).2 ∧
      ∀ v, v ∈ (received.foldl (fun st secrets => secrets.foldl mergeStep st) st).1.map
          Secret.Value ↔
        v ∈ st.1.map Secret.Value ∨ ∃ secrets ∈ received, v ∈ secrets.map Secret.Value := by
  induction received with
  | nil => intro st h; exact ⟨h, fun v => by simp⟩
  | cons r rest ih =>
    intro st h
    rw [List.foldl_cons]
    obtain ⟨h1, h2⟩ := mergeStep_foldl r st h
    obtain ⟨h3, h4⟩ := ih _ h1
    refine ⟨h3, ?_⟩
    intro v
    rw [h4 v, h2 v]
    simp only [List.mem_cons, exists_eq_or_imp]
    tauto

theorem mergeResults_spec (received : List (List Secret)) :
    ((mergeResults received).map Secret.Value).Nodup ∧
    ∀ v, v ∈ (mergeResults received).map Secret.Value ↔
      ∃ secrets ∈ received, v ∈ secrets.map Secret.Value := by
  have h0 : DedupState [] ([] : List Secret) ([] : List Bytes) :=
    ⟨by simp, by simp, by simp⟩
  obtain ⟨h1, h2⟩ := mergeResults_foldl received ([], []) h0
  refine ⟨h1.1, ?_⟩
  intro v
  unfold mergeResults
  rw [h2 v]
  simp

/-- C25 (the code departs from it). The one file `a.js` has a finding, with the value
`ghp_abc`. In the run in which the goroutine started under `Collect progress` receives the
result of the file from `resultChan`, `runRegexScan` returns no finding; in the run in which the
final loop receives it, the finding is returned. In every run the returned findings have
pairwise distinct values, and the values returned are those of the results that the final
loop, not the progress goroutine, received. -/
theorem runRegexScan_loses_results :
    scanExample "a.js"
      = [{ type := goBytes "first", Value := goBytes "ghp_abc", File := "a.js", Line := 2,
           Detector := "Template (high)" }] ∧
    runRegexScan scanExample [("a.js", true)] = [] ∧
    runRegexScan scanExample [("a.js", false)]
      = [{ type := goBytes "first", Value := goBytes "ghp_abc", File := "a.js", Line := 2,
           Detector := "Template (high)" }] ∧
    (∀ (scan : String → List Secret) (schedule : List (String × Bool)),
      ((runRegexScan scan schedule).map Secret.Value).Nodup ∧
      ∀ v, v ∈ (runRegexScan scan schedule).map Secret.Value ↔
        ∃ x ∈ schedule, x.2 = false ∧ v ∈ (scan x.1).map Secret.Value) := by
  refine ⟨by decide, by decide, by decide, ?_⟩
  intro scan schedule
  obtain ⟨h1, h2⟩ :=
    mergeResults_spec ((schedule.filter (fun x => !x.2)).map (fun x => scan x.1))
  refine ⟨h1, ?_⟩
  intro v
  unfold runRegexScan
  rw [h2 v]
  constructor
  · rintro ⟨secrets, hs, hv⟩
    obtain ⟨x, hx, rfl⟩ := List.mem_map.1 hs
    rw [List.mem_filter] at hx
    exact ⟨x, hx.1, by simpa using hx.2, hv⟩
  · rintro ⟨x, hx, hf, hv⟩
    exact ⟨scan x.1, List.mem_map.2 ⟨x, List.mem_filter.2 ⟨hx, by simp [hf]⟩, rfl⟩, hv⟩

/-! ## Theorems: `CalculateEntropy` -/

/-- C22 (the code departs from it). `CalculateEntropy` of the empty string is 0. The string
`éé` is one character written twice, in four bytes: the first loop counts the rune twice, the
share the second loop computes is 2/4, and with `math.Log2(0.5) = -1` the result is 1/2, not
0 (every operation of this run is exact in `float64`). On ASCII strings the two examples of the
claim come out as it says: with `math.Log2(1) = 0` the string `aaaaaaaa` gives 0, and with
`math.Log2(0.125) = -3` the string `aK9!mZq2` of eight distinct characters gives 3. -/
theorem calculateEntropy_counts_runes_over_bytes :
    (∀ log2 : ℚ → ℚ, CalculateEntropy log2 [] = 0) ∧
    runes (goBytes "éé") = [233, 233] ∧
    (goBytes "éé").length = 4 ∧
    freqs (goBytes "éé") = [(233, 2)] ∧
    (∀ log2 : ℚ → ℚ, log2 (1 / 2) = -1 → CalculateEntropy log2 (goBytes "éé") = 1 / 2) ∧
    (∀ log2 : ℚ → ℚ, log2 1 = 0 → CalculateEntropy log2 (goBytes "aaaaaaaa") = 0) ∧
    (∀ log2 : ℚ → ℚ, log2 (1 / 8) = -3 → CalculateEntropy log2 (goBytes "aK9!mZq2") = 3) := by
  refine ⟨fun _ => rfl, by decide, by decide, by decide, ?_, ?_, ?_⟩
  · intro log2 h
    have hf : freqs (goBytes "éé") = [(233, 2)] := by decide
    have hl : (goBytes "éé").length = 4 := by decide
    have hq : ((2 : ℕ) : ℚ) / ((4 : ℕ) : ℚ) = 1 / 2 := by norm_num
    unfold CalculateEntropy
    rw [hf, hl, if_neg (by decide)]
    simp only [List.foldl_cons, List.foldl_nil, hq, h]
    norm_num
  · intro log2 h
    have hf : freqs (goBytes "aaaaaaaa") = [(97, 8)] := by decide
    have hl : (goBytes "aaaaaaaa").length = 8 := by decide
    have hq : ((8 : ℕ) : ℚ) / ((8 : ℕ) : ℚ) = 1 := by norm_num
    unfold CalculateEntropy
    rw [hf, hl, if_neg (by decide)]
    simp only [List.foldl_cons, List.foldl_nil, hq, h]
    norm_num
  · intro log2 h
    have hf : freqs (goBytes "aK9!mZq2")
        = [(97, 1), (75, 1), (57, 1), (33, 1), (109, 1), (90, 1), (113, 1), (50, 1)] := by
      decide
    have hl : (goBytes "aK9!mZq2").length = 8 := by decide
    have hq : ((1 : ℕ) : ℚ) / ((8 : ℕ) : ℚ) = 1 / 8 := by norm_num
    unfold CalculateEntropy
    rw [hf, hl, if_neg (by decide)]
    simp only [List.foldl_cons, List.foldl_nil, hq, h]
    norm_num

/-! ## Theorems: the entropy gate against the Shannon entropy -/

theorem calculateEntropy_repeated_two_byte (log2 : ℚ → ℚ) (h : log2 (1 / 2) = -1) :
    CalculateEntropy log2 (goBytes "éé") = 1 / 2 := by
  have hf : freqs (goBytes "éé") = [(233, 2)] := by decide
  have hl : (goBytes "éé").length = 4 := by decide
  have hq : ((2 : ℕ) : ℚ) / ((4 : ℕ) : ℚ) = 1 / 2 := by norm_num
  unfold CalculateEntropy
  rw [hf, hl, if_neg (by decide)]
  simp only [List.foldl_cons, List.foldl_nil, hq, h]
  norm_num

/-- C17 (the code departs from it). The text `éé` is one character written twice, so its
Shannon entropy is 0. The pattern `gatedPattern` declares an entropy gate with the minimum 0.4
and matches `éé`; `runSinglePattern`, gating on `CalculateEntropy`, which divides the count of
the character by the four bytes of the text and returns 0.5, emits the finding. (`éé` trips
none of the false-positive tests of `secrets.go`.) -/
theorem runSinglePattern_gate_passes_zero_entropy :
    runes (goBytes "éé") = [233, 233] ∧
    (∀ log2 : ℚ → ℚ, log2 1 = 0 → shannonEntropy log2 (goBytes "éé") = 0) ∧
    gatedPattern.EntropyCheck = true ∧
    gatedPattern.MinEntropy = 2 / 5 ∧
    (∀ log2 : ℚ → ℚ, log2 (1 / 2) = -1 →
      (runSinglePattern { plainEnv with CalculateEntropy := CalculateEntropy log2 } gatedPattern
          (goBytes "éé") "a.js" [] (buildLineIndex (goBytes "éé"))).1
        = [{ type := goBytes "gated", Value := goBytes "éé", File := "a.js", Line := 1,
             Detector := "Template (high)" }]) := by
  refine ⟨by decide, ?_, rfl, rfl, ?_⟩
  · intro log2 h
    have hr : runes (goBytes "éé") = [233, 233] := by decide
    have hd : ([233, 233] : List Nat).dedup = [233] := by decide
    unfold shannonEntropy
    rw [hr, hd]
    simp only [List.map_cons, List.map_nil, List.sum_cons, List.sum_nil, List.length_cons,
      List.length_nil]
    have hc : List.count 233 ([233, 233] : List Nat) = 2 := by decide
    rw [hc]
    have hq : ((2 : ℕ) : ℚ) / (((0 + 1 + 1 : ℕ)) : ℚ) = 1 := by norm_num
    rw [hq, h]
    norm_num
  · intro log2 h
    have hm : gatedPattern.Regex (goBytes "éé") = [(0, 4)] := by decide
    have hs : slice (goBytes "éé") 0 4 = goBytes "éé" := by decide
    have hH := calculateEntropy_repeated_two_byte log2 h
    have hpass : passes { plainEnv with CalculateEntropy := CalculateEntropy log2 } gatedPattern
        (goBytes "éé") = true := by
      simp only [passes, plainEnv, hH, gatedPattern, mkPattern]
      norm_num
    unfold runSinglePattern
    rw [hm, runMatches_step]
    simp only [hs]
    rw [if_neg (by
      rintro (hmem | hp)
      · cases hmem
      · rw [hpass] at hp
        cases hp)]
    simp only [runMatches, List.nil_append]
    decide

/-! ## Theorems: bounds on the entropy -/

theorem sum_map_affine (a b : ℝ) (ps : List ℝ) :
    (ps.map (fun p => a * p + b)).sum = a * ps.sum + b * ps.length := by
  induction ps with
  | nil => simp
  | cons p rest ih =>
    simp only [List.map_cons, List.sum_cons, List.length_cons, ih]
    push_cast
    ring

/-- For positive shares that add up to 1, minus the sum of `p * log2 p` is at most the binary
logarithm of the number of shares. -/
theorem entropy_terms_le_logb (ps : List ℝ) (hpos : ∀ p ∈ ps, 0 < p) (hsum : ps.sum = 1) :
    (ps.map (fun p => -(p * Real.logb 2 p))).sum ≤ Real.logb 2 ps.length := by
  have hk : 0 < ps.length := by
    cases ps with
    | nil => simp at hsum
    | cons p rest => simp
  have hkR : (0 : ℝ) < (ps.length : ℝ) := by exact_mod_cast hk
  have hln2 : 0 < Real.log 2 := Real.log_pos (by norm_num)
  have hterm : ∀ p ∈ ps, -(p * Real.logb 2 p)
      ≤ (Real.logb 2 ps.length - 1 / Real.log 2) * p + 1 / (ps.length : ℝ) / Real.log 2 := by
    intro p hp
    have hp0 := hpos p hp
    have hkp : 0 < (ps.length : ℝ) * p := mul_pos hkR hp0
    have h1 := Real.log_le_sub_one_of_pos (inv_pos.2 hkp)
    rw [Real.log_inv, Real.log_mul (ne_of_gt hkR) (ne_of_gt hp0)] at h1
    have h2 : p * (-(Real.log ps.length + Real.log p)) ≤ p * (((ps.length : ℝ) * p)⁻¹ - 1) :=
      mul_le_mul_of_nonneg_left h1 (le_of_lt hp0)
    have h3 : p * (((ps.length : ℝ) * p)⁻¹ - 1) = 1 / (ps.length : ℝ) - p := by
      field_simp
      ring
    rw [h3] at h2
    have h4 : -(p * Real.log p) ≤ Real.log ps.length * p + 1 / (ps.length : ℝ) - p := by
      linarith
    simp only [Real.logb]
    have h5 : -(p * (Real.log p / Real.log 2)) = -(p * Real.log p) / Real.log 2 := by ring
    have h6 : (Real.log ps.length / Real.log 2 - 1 / Real.log 2) * p
        + 1 / (ps.length : ℝ) / Real.log 2
        = (Real.log ps.length * p + 1 / (ps.length : ℝ) - p) / Real.log 2 := by ring
    rw [h5, h6]
    exact div_le_div_of_nonneg_right h4 (le_of_lt hln2)
  have hle := List.sum_le_sum hterm
  rw [sum_map_affine, hsum] at hle
  have hfin : (Real.logb 2 ps.length - 1 / Real.log 2) * 1
      + 1 / (ps.length : ℝ) / Real.log 2 * (ps.length : ℝ) = Real.logb 2 ps.length := by
    field_simp
    ring
  rw [hfin] at hle
  exact hle

theorem entropy_terms_nonneg (ps : List ℝ) (hpos : ∀ p ∈ ps, 0 < p) (hle : ∀ p ∈ ps, p ≤ 1) :
    0 ≤ (ps.map (fun p => -(p * Real.logb 2 p))).sum := by
  apply List.sum_nonneg
  intro x hx
  obtain ⟨p, hp, rfl⟩ := List.mem_map.1 hx
  have h1 : Real.logb 2 p ≤ 0 :=
    Real.logb_nonpos (by norm_num) (le_of_lt (hpos p hp)) (hle p hp)
  have h2 := hpos p hp
  nlinarith

theorem logb_two_19_lt : Real.logb 2 19 < 5 := by
  have h : Real.logb 2 19 < Real.logb 2 ((2 : ℝ) ^ (5 : ℕ)) :=
    Real.logb_lt_logb (by norm_num) (by norm_num) (by norm_num)
  rw [Real.logb_pow, Real.logb_self_eq_one (by norm_num)] at h
  simpa using h

theorem logb_two_22_lt : Real.logb 2 22 < 9 / 2 := by
  have h : Real.logb 2 ((22 : ℝ) ^ (2 : ℕ)) < Real.logb 2 ((2 : ℝ) ^ (9 : ℕ)) :=
    Real.logb_lt_logb (by norm_num) (by norm_num) (by norm_num)
  rw [Real.logb_pow, Real.logb_pow, Real.logb_self_eq_one (by norm_num)] at h
  norm_num at h
  linarith

theorem logb_two_36_lt : Real.logb 2 36 < 26 / 5 := by
  have h : Real.logb 2 ((36 : ℝ) ^ (5 : ℕ)) < Real.logb 2 ((2 : ℝ) ^ (26 : ℕ)) :=
    Real.logb_lt_logb (by norm_num) (by norm_num) (by norm_num)
  rw [Real.logb_pow, Real.logb_pow, Real.logb_self_eq_one (by norm_num)] at h
  norm_num at h
  linarith

theorem logb_two_mono {a b : ℕ} (ha : 0 < a) (hab : a ≤ b) :
    Real.logb 2 (a : ℝ) ≤ Real.logb 2 (b : ℝ) :=
  Real.logb_le_logb_of_le (by norm_num) (by exact_mod_cast ha) (by exact_mod_cast hab)

theorem calculateEntropyIn_rat (log2 : ℚ → ℚ) (s : Bytes) :
    CalculateEntropyIn ℚ log2 s = CalculateEntropy log2 s := rfl

theorem foldl_sub_eq_sum (f : Nat × Nat → ℝ) (L : List (Nat × Nat)) :
    ∀ acc : ℝ, L.foldl (fun entropy kv => entropy - f kv) acc
      = acc + (L.map (fun kv => -f kv)).sum := by
  induction L with
  | nil => intro acc; simp
  | cons kv rest ih =>
    intro acc
    simp only [List.foldl_cons, List.map_cons, List.sum_cons, ih]
    ring

theorem countFold_keys (l : List Nat) :
    ∀ (m : List (Nat × Nat)) (c : Nat),
      c ∈ (l.foldl (fun m c => goMapSet m c ((goMapGet m c).getD 0 + 1)) m).map Prod.fst →
      c ∈ m.map Prod.fst ∨ c ∈ l := by
  induction l with
  | nil => intro m c h; exact Or.inl h
  | cons a rest ih =>
    intro m c h
    rw [List.foldl_cons] at h
    rcases ih _ c h with h1 | h1
    · rw [keys_goMapSet] at h1
      split_ifs at h1 with hk
      · exact Or.inl h1
      · rcases List.mem_append.1 h1 with h2 | h2
        · exact Or.inl h2
        · rw [List.mem_singleton] at h2
          subst h2
          exact Or.inr (List.mem_cons_self _ _)
    · exact Or.inr (List.mem_cons_of_mem _ h1)

/-- The map `freqs` holds each character of the string once, with the number of times it
occurs. -/
theorem freqs_spec (s : Bytes) :
    ((freqs s).map Prod.fst).Perm (runes s).dedup ∧
    ∀ kv ∈ freqs s, kv.2 = (runes s).count kv.1 := by
  obtain ⟨hnd, hcount⟩ := countFold_spec (runes s) [] (by simp)
  have hcount2 : ∀ c, (goMapGet (freqs s) c).getD 0 = (runes s).count c := by
    intro c
    have := hcount c
    simpa [goMapGet, freqs] using this
  have hnd2 : ((freqs s).map Prod.fst).Nodup := hnd
  refine ⟨?_, ?_⟩
  · apply (List.perm_ext_iff_of_nodup hnd2 (List.nodup_dedup _)).2
    intro c
    rw [List.mem_dedup]
    constructor
    · intro hc
      rcases countFold_keys (runes s) [] c hc with h | h
      · simp at h
      · exact h
    · intro hc
      by_contra hcon
      have hnone := (goMapGet_eq_none (freqs s) c).2 hcon
      have h0 := hcount2 c
      rw [hnone] at h0
      have hpos : 0 < (runes s).count c := List.count_pos_iff.2 hc
      simp at h0
      omega
  · rintro ⟨c, k⟩ hmem
    have hget := goMapGet_of_mem (freqs s) c k hnd2 hmem
    have h0 := hcount2 c
    rw [hget] at h0
    simpa using h0

theorem calculateEntropyIn_eq_sum (log2 : ℝ → ℝ) (s : Bytes) (hne : s.length ≠ 0) :
    CalculateEntropyIn ℝ log2 s
      = ((runes s).dedup.map (fun c =>
          -((((runes s).count c : ℝ) / (s.length : ℝ))
            * log2 (((runes s).count c : ℝ) / (s.length : ℝ))))).sum := by
  obtain ⟨hperm, hval⟩ := freqs_spec s
  unfold CalculateEntropyIn
  rw [if_neg hne, foldl_sub_eq_sum (fun kv => ((kv.2 : ℝ) / (s.length : ℝ))
    * log2 ((kv.2 : ℝ) / (s.length : ℝ))), zero_add]
  have h1 : (freqs s).map (fun kv => -(((kv.2 : ℝ) / (s.length : ℝ))
        * log2 ((kv.2 : ℝ) / (s.length : ℝ))))
      = ((freqs s).map Prod.fst).map (fun c =>
          -((((runes s).count c : ℝ) / (s.length : ℝ))
            * log2 (((runes s).count c : ℝ) / (s.length : ℝ)))) := by
    rw [List.map_map]
    apply List.map_congr_left
    intro kv hkv
    simp only [Function.comp, hval kv hkv]
  rw [h1]
  exact (hperm.map _).sum_eq

theorem sum_map_cast_div (n : ℝ) (f : Nat → Nat) (l : List Nat) :
    (l.map (fun c => (f c : ℝ) / n)).sum = (((l.map f).sum : ℕ) : ℝ) / n := by
  induction l with
  | nil => simp
  | cons a rest ih =>
    simp only [List.map_cons, List.sum_cons, ih]
    push_cast
    ring

/-- The entropy of a non-empty ASCII string, whose characters are its bytes: between 0 and the
binary logarithm of the number of distinct characters. -/
theorem calculateEntropyIn_ascii_bounds (s : Bytes) (hascii : ∀ b ∈ s, b < 128)
    (hne : s.length ≠ 0) :
    0 ≤ CalculateEntropyIn ℝ (Real.logb 2) s ∧
    CalculateEntropyIn ℝ (Real.logb 2) s ≤ Real.logb 2 (s.dedup.length : ℝ) := by
  have hr : runes s = s := runesFrom_ascii s hascii
  have hn : (0 : ℝ) < (s.length : ℝ) := by
    have : 0 < s.length := Nat.pos_of_ne_zero hne
    exact_mod_cast this
  have hH := calculateEntropyIn_eq_sum (Real.logb 2) s hne
  rw [hr] at hH
  have hmap : s.dedup.map (fun c =>
        -((((s.count c : ℕ) : ℝ) / (s.length : ℝ))
          * Real.logb 2 (((s.count c : ℕ) : ℝ) / (s.length : ℝ))))
      = (s.dedup.map (fun c => ((s.count c : ℕ) : ℝ) / (s.length : ℝ))).map
          (fun p => -(p * Real.logb 2 p)) := by
    rw [List.map_map]
    rfl
  rw [hmap] at hH
  have hpos : ∀ p ∈ s.dedup.map (fun c => ((s.count c : ℕ) : ℝ) / (s.length : ℝ)), 0 < p := by
    intro p hp
    obtain ⟨c, hc, rfl⟩ := List.mem_map.1 hp
    have hcp : 0 < s.count c := List.count_pos_iff.2 (List.mem_dedup.1 hc)
    have : (0 : ℝ) < ((s.count c : ℕ) : ℝ) := by exact_mod_cast hcp
    exact div_pos this hn
  have hle : ∀ p ∈ s.dedup.map (fun c => ((s.count c : ℕ) : ℝ) / (s.length : ℝ)), p ≤ 1 := by
    intro p hp
    obtain ⟨c, _, rfl⟩ := List.mem_map.1 hp
    rw [div_le_one hn]
    exact_mod_cast List.count_le_length c s
  have hsum : (s.dedup.map (fun c => ((s.count c : ℕ) : ℝ) / (s.length : ℝ))).sum = 1 := by
    rw [sum_map_cast_div (s.length : ℝ) (fun c => s.count c) s.dedup,
      List.sum_map_count_dedup_eq_length]
    exact div_self (ne_of_gt hn)
  rw [hH]
  refine ⟨entropy_terms_nonneg _ hpos hle, ?_⟩
  have := entropy_terms_le_logb _ hpos hsum
  rwa [List.length_map] at this

/-- The entropy of a non-empty ASCII string of pairwise distinct characters is the binary
logarithm of its length. -/
theorem calculateEntropyIn_nodup (s : Bytes) (hascii : ∀ b ∈ s, b < 128) (hnd : s.Nodup)
    (hne : s.length ≠ 0) :
    CalculateEntropyIn ℝ (Real.logb 2) s = Real.logb 2 (s.length : ℝ) := by
  have hr : runes s = s := runesFrom_ascii s hascii
  have hn : (0 : ℝ) < (s.length : ℝ) := by
    have : 0 < s.length := Nat.pos_of_ne_zero hne
    exact_mod_cast this
  rw [calculateEntropyIn_eq_sum (Real.logb 2) s hne, hr, hnd.dedup]
  have hterm : s.map (fun c =>
        -((((s.count c : ℕ) : ℝ) / (s.length : ℝ))
          * Real.logb 2 (((s.count c : ℕ) : ℝ) / (s.length : ℝ))))
      = s.map (fun _ => Real.logb 2 (s.length : ℝ) / (s.length : ℝ)) := by
    apply List.map_congr_left
    intro c hc
    have h1 : s.count c = 1 := List.count_eq_one_of_mem hnd hc
    rw [h1]
    have h2 : ((1 : ℕ) : ℝ) / (s.length : ℝ) = (s.length : ℝ)⁻¹ := by
      rw [Nat.cast_one, one_div]
    rw [h2, Real.logb_inv]
    field_simp
  rw [hterm, List.map_const', List.sum_replicate, nsmul_eq_mul]
  field_simp

/-- C28. For every ASCII string `v`, the value of `CalculateEntropy(v)`, computed exactly with
the binary logarithm, is at least 0, at most the binary logarithm of the number of distinct
characters of `v` and so at most that of its length. So an entropy above 5.0 is out of reach
below 20 characters, an entropy above 4.5 needs at least 23 distinct characters, an entropy
above `getEntropyThreshold(len(v))` needs at least 23 characters, and an entropy above 5.2
needs at least 37 distinct characters. For a finding of `scanSingleFile` with an ASCII value,
when the number the scan compared is not above that value of `CalculateEntropy`: a finding of
the key=value heuristic has at least 23 characters and one of the pure-entropy heuristic has at
least 37 distinct characters. -/
theorem calculateEntropy_bounds_shortest_findings :
    (∀ v : Bytes, (∀ b ∈ v, b < 128) →
      0 ≤ CalculateEntropyIn ℝ (Real.logb 2) v ∧
      CalculateEntropyIn ℝ (Real.logb 2) v ≤ Real.logb 2 (v.dedup.length : ℝ) ∧
      CalculateEntropyIn ℝ (Real.logb 2) v ≤ Real.logb 2 (v.length : ℝ)) ∧
    (∀ v : Bytes, (∀ b ∈ v, b < 128) → v.length < 20 →
      ¬ (5 < CalculateEntropyIn ℝ (Real.logb 2) v)) ∧
    (∀ v : Bytes, (∀ b ∈ v, b < 128) → 9 / 2 < CalculateEntropyIn ℝ (Real.logb 2) v →
      23 ≤ v.dedup.length) ∧
    (∀ v : Bytes, (∀ b ∈ v, b < 128) →
      ((getEntropyThreshold (v.length : Int) : ℚ) : ℝ) < CalculateEntropyIn ℝ (Real.logb 2) v →
      23 ≤ v.length) ∧
    (∀ v : Bytes, (∀ b ∈ v, b < 128) → 26 / 5 < CalculateEntropyIn ℝ (Real.logb 2) v →
      37 ≤ v.dedup.length) ∧
    (∀ (env : Env) (loaded : Bool) (e : Engine) (skipGeneric : Bool) (filePath : String)
        (content : Bytes) (order : List Nat) (found : List Secret),
      scanSingleFile env loaded e skipGeneric filePath (some content) order = some found →
      ∀ s ∈ found, (∀ b ∈ s.Value, b < 128) →
        ((env.CalculateEntropy s.Value : ℚ) : ℝ) ≤ CalculateEntropyIn ℝ (Real.logb 2) s.Value →
        (s.Detector = "Regex (Entropy)" → 23 ≤ s.Value.length) ∧
        (s.Detector = "Entropy (Pure)" → 37 ≤ s.Value.dedup.length)) := by
  have hA : ∀ v : Bytes, (∀ b ∈ v, b < 128) →
      0 ≤ CalculateEntropyIn ℝ (Real.logb 2) v ∧
      CalculateEntropyIn ℝ (Real.logb 2) v ≤ Real.logb 2 (v.dedup.length : ℝ) ∧
      CalculateEntropyIn ℝ (Real.logb 2) v ≤ Real.logb 2 (v.length : ℝ) := by
    intro v hascii
    by_cases hne : v.length = 0
    · have hv : v = [] := List.length_eq_zero.1 hne
      subst hv
      simp [CalculateEntropyIn]
    · obtain ⟨h0, h1⟩ := calculateEntropyIn_ascii_bounds v hascii hne
      have hd : 0 < v.dedup.length := by
        cases v with
        | nil => exact absurd rfl hne
        | cons a t =>
          exact List.length_pos_of_mem (List.mem_dedup.2 (List.mem_cons_self a t))
      exact ⟨h0, h1, le_trans h1 (logb_two_mono hd (List.Sublist.length_le (List.dedup_sublist v)))⟩
  have hzero : CalculateEntropyIn ℝ (Real.logb 2) [] = 0 := by simp [CalculateEntropyIn]
  have hdistinct : ∀ (v : Bytes) (k : ℕ) (t : ℝ), (∀ b ∈ v, b < 128) → 0 < t →
      Real.logb 2 (k : ℝ) < t → t < CalculateEntropyIn ℝ (Real.logb 2) v →
      k + 1 ≤ v.dedup.length := by
    intro v k t hascii ht hk hlt
    by_contra hcon
    have hle : v.dedup.length ≤ k := by omega
    by_cases hd : v.dedup.length = 0
    · have hv : v = [] := by
        cases v with
        | nil => rfl
        | cons a u =>
          have := List.length_pos_of_mem (List.mem_dedup.2 (List.mem_cons_self a u))
          omega
      rw [hv, hzero] at hlt
      linarith
    · have h1 := (hA v hascii).2.1
      have h2 := logb_two_mono (Nat.pos_of_ne_zero hd) hle
      linarith
  have hB1 : ∀ v : Bytes, (∀ b ∈ v, b < 128) → v.length < 20 →
      ¬ (5 < CalculateEntropyIn ℝ (Real.logb 2) v) := by
    intro v hascii hlen hlt
    have h := hdistinct v 19 5 hascii (by norm_num) (by exact_mod_cast logb_two_19_lt) hlt
    have := List.Sublist.length_le (List.dedup_sublist v)
    omega
  have hB2 : ∀ v : Bytes, (∀ b ∈ v, b < 128) →
      9 / 2 < CalculateEntropyIn ℝ (Real.logb 2) v → 23 ≤ v.dedup.length := by
    intro v hascii hlt
    exact hdistinct v 22 (9 / 2) hascii (by norm_num) (by exact_mod_cast logb_two_22_lt) hlt
  have hB3 : ∀ v : Bytes, (∀ b ∈ v, b < 128) →
      ((getEntropyThreshold (v.length : Int) : ℚ) : ℝ) < CalculateEntropyIn ℝ (Real.logb 2) v →
      23 ≤ v.length := by
    intro v hascii hlt
    by_contra hcon
    have hlen : v.length < 23 := by omega
    unfold getEntropyThreshold at hlt
    by_cases h20 : (v.length : Int) < 20
    · rw [if_pos h20] at hlt
      have : v.length < 20 := by omega
      exact hB1 v hascii this (by exact_mod_cast hlt)
    · rw [if_neg h20, if_pos (by omega)] at hlt
      have h := hB2 v hascii (by push_cast at hlt; exact hlt)
      have := List.Sublist.length_le (List.dedup_sublist v)
      omega
  have hC : ∀ v : Bytes, (∀ b ∈ v, b < 128) →
      26 / 5 < CalculateEntropyIn ℝ (Real.logb 2) v → 37 ≤ v.dedup.length := by
    intro v hascii hlt
    exact hdistinct v 36 (26 / 5) hascii (by norm_num) (by exact_mod_cast logb_two_36_lt) hlt
  refine ⟨hA, hB1, hB2, hB3, hC, ?_⟩
  intro env loaded e skipGeneric filePath content order found h s hs hascii hexact
  rcases scanSingleFile_findings env loaded e skipGeneric filePath content order found h s hs
    with ⟨_, h1⟩ | ⟨_, h1⟩ | ⟨_, h1⟩
  · exact ⟨fun hdet => absurd hdet (templateFinding_detector_ne h1).1,
      fun hdet => absurd hdet (templateFinding_detector_ne h1).2⟩
  · obtain ⟨mIdx, _, _, heq, _, _, _, _, hent⟩ := h1
    subst heq
    refine ⟨fun _ => ?_, fun hdet =>
      absurd hdet (show ("Regex (Entropy)" : String) ≠ "Entropy (Pure)" by decide)⟩
    apply hB3 _ hascii
    have hcast : ((getEntropyThreshold ((submatch content mIdx 4 5).length : Int) : ℚ) : ℝ)
        < ((env.CalculateEntropy (submatch content mIdx 4 5) : ℚ) : ℝ) := by
      exact_mod_cast hent
    exact lt_of_lt_of_le hcast hexact
  · obtain ⟨mIdx, _, heq, _, _, _, _, _, hent⟩ := h1
    subst heq
    refine ⟨fun hdet =>
      absurd hdet (show ("Entropy (Pure)" : String) ≠ "Regex (Entropy)" by decide), fun _ => ?_⟩
    apply hC _ hascii
    have hcast : ((26 / 5 : ℚ) : ℝ)
        < ((env.CalculateEntropy (submatch content mIdx 2 3) : ℚ) : ℝ) := by
      exact_mod_cast hent
    have h265 : ((26 / 5 : ℚ) : ℝ) = 26 / 5 := by norm_num
    rw [h265] at hcast
    exact lt_of_lt_of_le hcast hexact

theorem lowerKeyValueEnv_le :
    ((lowerKeyValueEnv.CalculateEntropy
        (goBytes "aK9_mZq2Xw7Lp4Rt6Yv8Bn0CdEfGhIjJkMoOsSuUxVyWz1-3") : ℚ) : ℝ)
      ≤ CalculateEntropyIn ℝ (Real.logb 2)
          (goBytes "aK9_mZq2Xw7Lp4Rt6Yv8Bn0CdEfGhIjJkMoOsSuUxVyWz1-3") := by
  rw [calculateEntropyIn_nodup _ (by decide) (by decide) (by decide)]
  have hl : (goBytes "aK9_mZq2Xw7Lp4Rt6Yv8Bn0CdEfGhIjJkMoOsSuUxVyWz1-3").length = 48 := by
    decide
  have he : lowerKeyValueEnv.CalculateEntropy
      (goBytes "aK9_mZq2Xw7Lp4Rt6Yv8Bn0CdEfGhIjJkMoOsSuUxVyWz1-3") = 11 / 2 := by
    simp only [lowerKeyValueEnv, if_true]
    norm_num [Rat.mkRat_eq_div]
  rw [hl, he]
  have h : Real.logb 2 ((2 : ℝ) ^ (11 : ℕ)) ≤ Real.logb 2 ((48 : ℝ) ^ (2 : ℕ)) :=
    Real.logb_le_logb_of_le (by norm_num) (by norm_num) (by norm_num)
  rw [Real.logb_pow, Real.logb_pow, Real.logb_self_eq_one (by norm_num)] at h
  push_cast at h ⊢
  linarith

/-- C28, on a file that assigns a value of 48 distinct ASCII characters to `api_key`, scanned
with 5.5, a number below the entropy log2(48) of the value, as the entropy compared: the
finding of the key=value heuristic has at least 23 characters. -/
theorem calculateEntropy_bounds_shortest_findings_witness :
    23 ≤ (goBytes "aK9_mZq2Xw7Lp4Rt6Yv8Bn0CdEfGhIjJkMoOsSuUxVyWz1-3").length :=
  (calculateEntropy_bounds_shortest_findings.2.2.2.2.2 lowerKeyValueEnv false
    (BuildEngine syntaxParse []) false "a.js" keyValueContent []
    [{ type := goBytes "Potential Secret: api_key",
       Value := goBytes "aK9_mZq2Xw7Lp4Rt6Yv8Bn0CdEfGhIjJkMoOsSuUxVyWz1-3",
       File := "a.js", Line := 1, Detector := "Regex (Entropy)" }]
    (by decide)
    { type := goBytes "Potential Secret: api_key",
      Value := goBytes "aK9_mZq2Xw7Lp4Rt6Yv8Bn0CdEfGhIjJkMoOsSuUxVyWz1-3",
      File := "a.js", Line := 1, Detector := "Regex (Entropy)" }
    (List.mem_singleton.2 rfl) (by decide) lowerKeyValueEnv_le).1 rfl

end Keyana
